import Mathlib

/-!
# Verification of the bill-lens document discovery & extraction subsystem

Shallow embedding of the discovery/deduplication/extraction core:

* `src/lib/epstein/discovery/normalize-url.ts` — URL normalizer
* `src/lib/epstein/discovery/hub-crawler.ts`   — EFTA numbering inference
* `src/lib/epstein/discovery/orchestrator.ts`  — dedup + persistence + run stats
* `src/lib/epstein/extract.ts`                 — fetch/extract pipeline
* `src/lib/db.ts`                              — Firestore-backed catalog store

External platform primitives (the WHATWG `URL` class, SHA-256, the PDF and
HTML parsers, the network) are modelled as follows: the `URL` class by an
executable parser/serializer for `http(s)://host/path?query#fragment` URLs
(userinfo/port splitting, percent-encoding and non-special schemes are not
modelled; inputs outside the modelled grammar behave like parse failures,
which the source maps to the identity fallback), hashes and parsers as
explicit function parameters, and the network as a `FetchOutcome` oracle.
Store operations (`db.ts`) are modelled as total functions on an explicit
catalog state; Firestore's unordered `limit(1)` queries are modelled as
first-match-in-insertion-order.  The store's `updatedAt` bookkeeping field
(written by `db.ts` on every update) is omitted from the record model.
-/

namespace BillLens

/-! ## §1  URL normalizer (`normalize-url.ts`)

The parsed-URL representation used to model the WHATWG `URL` object.  A
query that is absent and a query that is present but empty are identified:
`normalizeUrl` always runs `searchParams` update steps (delete/sort), whose
WHATWG semantics null out an empty query before serialization, so the two
are indistinguishable in every output of the modelled function. -/

structure ParsedUrl where
  scheme : List Char
  host : List Char
  path : List Char
  query : List (String × String)
  fragment : Option (List Char)
deriving DecidableEq, Repr

/-- Split a character list at the first occurrence of `c`; `none` if `c`
does not occur.  The separator is dropped. -/
def splitAtFirst (c : Char) : List Char → Option (List Char × List Char)
  | [] => none
  | x :: xs =>
    if x = c then some ([], xs)
    else (splitAtFirst c xs).map (fun p => (x :: p.1, p.2))

/-- Prepend a character to the first piece of a piece list. -/
def consHead (x : Char) : List (List Char) → List (List Char)
  | [] => [[x]]
  | p :: ps => (x :: p) :: ps

/-- Split a character list on every occurrence of `c` (like
`String.prototype.split`): always returns one piece more than the number of
separators, empty pieces included. -/
def splitOnChar (c : Char) : List Char → List (List Char)
  | [] => [[]]
  | x :: xs =>
    if x = c then [] :: splitOnChar c xs
    else consHead x (splitOnChar c xs)

/-- `Array.prototype.join('&')` / template interpolation helper. -/
def joinWith (c : Char) : List (List Char) → List Char
  | [] => []
  | [p] => p
  | p :: ps => p ++ c :: joinWith c ps

/-- `String.prototype.toLowerCase`, restricted (as the claims need) to the
basic-latin mapping of `Char.toLower`. -/
def lowerChars (l : List Char) : List Char := l.map Char.toLower

/-- `URLSearchParams` parsing: split the raw query on `&`, drop empty
pieces, and split each piece at its first `=` (a piece without `=` becomes
a pair with empty value).  Percent and plus decoding is not modelled; keys
and values are kept as raw character data. -/
def parseQueryPairs (q : List Char) : List (String × String) :=
  ((splitOnChar '&' q).filter (fun p => p ≠ [])).map fun piece =>
    match splitAtFirst '=' piece with
    | none => (String.mk piece, String.mk [])
    | some (k, v) => (String.mk k, String.mk v)

/-- Cut off the fragment at the first `#` (if any). -/
def splitHash (l : List Char) : List Char × Option (List Char) :=
  match splitAtFirst '#' l with
  | none => (l, none)
  | some (b, f) => (b, some f)

/-- Cut off the raw query at the first `?` (if any). -/
def splitQuery (l : List Char) : List Char × Option (List Char) :=
  match splitAtFirst '?' l with
  | none => (l, none)
  | some (b, q) => (b, some q)

/-- Split the authority-plus-path into host and path; an absent path
becomes `/` (special-scheme URLs always serialize a path). -/
def splitHostPath (hp : List Char) : List Char × List Char :=
  match splitAtFirst '/' hp with
  | none => (hp, ['/'])
  | some (h, p) => (h, '/' :: p)

/-- Parse the part of an absolute URL after `scheme://`: host up to the
first `/`, `?` or `#` (must be nonempty), then path (defaulting to `/`),
raw query between `?` and `#`, and fragment after the first `#`. -/
def parseAfterScheme (scheme rest2 : List Char) : Option ParsedUrl :=
  let hf := splitHash rest2
  let hq := splitQuery hf.1
  let hp := splitHostPath hq.1
  if hp.1 = [] then none
  else some { scheme, host := hp.1, path := hp.2,
              query := match hq.2 with
                       | none => []
                       | some q => parseQueryPairs q,
              fragment := hf.2 }

/-- Parse an absolute `http(s)` URL: scheme up to the first `:` (compared
case-insensitively), then `//`, then authority and the rest via
`parseAfterScheme`.  This models only the authority form of the two
schemes `normalizeUrl` targets; other inputs the platform `URL` class may
accept (e.g. `ftp://…`, or the sloppy `https:host/…` form whose protocol
setter re-attaches slashes) return `none` here, so theorems about a parsed
URL take a successful `parseUrl` as a hypothesis and make no statement
about those inputs. -/
def parseUrl (l : List Char) : Option ParsedUrl :=
  match splitAtFirst ':' l with
  | none => none
  | some (schemePart, rest) =>
    let scheme := lowerChars schemePart
    if scheme = "http".toList ∨ scheme = "https".toList then
      match rest with
      | '/' :: '/' :: rest2 => parseAfterScheme scheme rest2
      | _ => none
    else none

/-- One `k=v` unit of `URLSearchParams.toString` (empty values serialize as
`k=`, matching the platform). -/
def serializePair (p : String × String) : List Char :=
  p.1.toList ++ '=' :: p.2.toList

/-- Serialize the query: empty pair list serializes to nothing (the WHATWG
update steps null out an empty query), otherwise `?` plus `&`-joined
pairs.  Keys and values are emitted raw: this coincides with the
platform's `application/x-www-form-urlencoded` re-serialization exactly on
queries made of form-safe characters (see `formSafeChar`), where the
encoder is the identity; theorems whose truth depends on the query's
serialized text therefore carry a `queryFaithful` hypothesis. -/
def serializeQuery (q : List (String × String)) : List Char :=
  match q with
  | [] => []
  | _ => '?' :: joinWith '&' (q.map serializePair)

def serializeFragment : Option (List Char) → List Char
  | none => []
  | some f => '#' :: f

/-- `URL.toString()` for the modelled representation. -/
def serializeUrl (u : ParsedUrl) : List Char :=
  u.scheme ++ ':' :: '/' :: '/' :: u.host ++ u.path
    ++ serializeQuery u.query ++ serializeFragment u.fragment

/-- The tracking-parameter denylist (`TRACKING_PARAMS` in
`normalize-url.ts`). -/
def TRACKING_PARAMS : List String :=
  ["utm_source", "utm_medium", "utm_campaign", "utm_term", "utm_content",
   "fbclid", "gclid", "msclkid", "ref", "source", "mc_cid", "mc_eid"]

/-- Lexicographic comparison of character lists by code point, modelling
the code-unit comparison used by `URLSearchParams.sort()`. -/
def charListLe : List Char → List Char → Bool
  | [], _ => true
  | _ :: _, [] => false
  | c :: cs, d :: ds =>
    if c.toNat < d.toNat then true
    else if d.toNat < c.toNat then false
    else charListLe cs ds

/-- Key order used by `URLSearchParams.sort()` (stable, by key). -/
def keyLe (a b : String × String) : Prop :=
  charListLe a.1.toList b.1.toList = true

instance : DecidableRel keyLe :=
  fun a b => inferInstanceAs (Decidable (charListLe a.1.toList b.1.toList = true))

theorem charListLe_total : ∀ a b, charListLe a b = true ∨ charListLe b a = true := by
  intro a
  induction a with
  | nil => intro b; exact Or.inl rfl
  | cons c cs ih =>
    intro b
    cases b with
    | nil => exact Or.inr rfl
    | cons d ds =>
      by_cases h1 : c.toNat < d.toNat
      · left; simp [charListLe, h1]
      · by_cases h2 : d.toNat < c.toNat
        · right; simp [charListLe, h2]
        · rcases ih ds with h | h
          · left; simp [charListLe, h1, h2, h]
          · right; simp [charListLe, h1, h2, h]

theorem charListLe_trans :
    ∀ a b c, charListLe a b = true → charListLe b c = true →
      charListLe a c = true := by
  intro a
  induction a with
  | nil => intro b c _ _; rfl
  | cons x xs ih =>
    intro b c hab hbc
    cases b with
    | nil => simp [charListLe] at hab
    | cons y ys =>
      cases c with
      | nil => simp [charListLe] at hbc
      | cons z zs =>
        simp only [charListLe] at hab hbc ⊢
        by_cases hxy : x.toNat < y.toNat
        · by_cases hyz : y.toNat < z.toNat
          · rw [if_pos (by omega)]
          · rw [if_neg hyz] at hbc
            by_cases hzy : z.toNat < y.toNat
            · rw [if_pos hzy] at hbc; cases hbc
            · rw [if_pos (by omega)]
        · rw [if_neg hxy] at hab
          by_cases hyx : y.toNat < x.toNat
          · rw [if_pos hyx] at hab; cases hab
          · rw [if_neg hyx] at hab
            by_cases hyz : y.toNat < z.toNat
            · rw [if_pos (by omega)]
            · rw [if_neg hyz] at hbc
              by_cases hzy : z.toNat < y.toNat
              · rw [if_pos hzy] at hbc; cases hbc
              · rw [if_neg hzy] at hbc
                rw [if_neg (by omega), if_neg (by omega)]
                exact ih ys zs hab hbc

instance : IsTotal (String × String) keyLe :=
  ⟨fun a b => charListLe_total a.1.toList b.1.toList⟩

instance : IsTrans (String × String) keyLe :=
  ⟨fun a b c h h' => charListLe_trans a.1.toList b.1.toList c.1.toList h h'⟩

/-- The mutations `normalizeUrl` performs on a successfully parsed URL:
force `https`, lowercase the host, delete tracking params, sort the
remaining params by key (stably), strip the fragment. -/
def normalizeMut (u : ParsedUrl) : ParsedUrl :=
  { u with scheme := "https".toList,
           host := lowerChars u.host,
           query := ((u.query.filter
             (fun p => ! TRACKING_PARAMS.contains p.1)).insertionSort keyLe),
           fragment := none }

/-- The body of `normalizeUrl` after a successful parse: serialize the
mutated URL, then remove one trailing slash unless the path is exactly
`/`. -/
def normalizeCore (u : ParsedUrl) : List Char :=
  let nu := normalizeMut u
  let result := serializeUrl nu
  if result.getLast? = some '/' ∧ nu.path ≠ ['/'] then result.dropLast
  else result

/-- `normalizeUrl` (`normalize-url.ts:22-55`): parse; on failure return the
input unchanged; on success apply the canonicalizing mutations and the
trailing-slash rule. -/
def normalizeUrl (rawUrl : String) : String :=
  match parseUrl rawUrl.toList with
  | none => rawUrl
  | some u => String.mk (normalizeCore u)

/-- A normalized URL whose single trailing-slash removal leaves another
trailing slash behind (so one application of the normalizer is not enough
to reach a fixed point): the serialization ends in `/`, the path is not
bare `/`, the serialization still ends in `/` after dropping one character,
and (when the drop hits the path) the shortened path is not bare `/`. -/
def unstableNorm (nu : ParsedUrl) : Prop :=
  (serializeUrl nu).getLast? = some '/' ∧ nu.path ≠ ['/'] ∧
  (serializeUrl nu).dropLast.getLast? = some '/' ∧
  (nu.query = [] → nu.path.dropLast ≠ ['/'])

/-- Inputs on which `normalizeUrl` reaches a fixed point in one step:
unparseable inputs (identity fallback) and parseable inputs whose
normalization is not `unstableNorm`. -/
def stableInput (x : String) : Prop :=
  match parseUrl x.toList with
  | none => True
  | some u => ¬ unstableNorm (normalizeMut u)

instance (nu : ParsedUrl) : Decidable (unstableNorm nu) := by
  unfold unstableNorm
  infer_instance

instance (x : String) : Decidable (stableInput x) := by
  unfold stableInput
  cases parseUrl x.toList with
  | none => exact isTrue trivial
  | some u => infer_instance

/-- The characters the `application/x-www-form-urlencoded` serializer
leaves unchanged (and that its parser does not interpret): ASCII
alphanumerics, `*`, `-`, `.` and `_`.  `URLSearchParams` updates
(`delete`/`sort` in `normalizeUrl`) re-serialize the query through this
encoder, so on queries made of these characters the platform's
decode/re-encode round trip is the identity and the raw-text query model
coincides with the platform. -/
def formSafeChar (c : Char) : Bool :=
  (48 ≤ c.toNat && c.toNat ≤ 57) || (65 ≤ c.toNat && c.toNat ≤ 90) ||
  (97 ≤ c.toNat && c.toNat ≤ 122) || c == '*' || c == '-' || c == '.' ||
  c == '_'

/-- The query sits in the faithful domain of the raw-text query model:
every parameter name and value consists of form-safe characters (no
percent escapes, no `+`, nothing the form encoder would rewrite). -/
def queryFaithful (u : ParsedUrl) : Prop :=
  ∀ p ∈ u.query, (∀ c ∈ p.1.toList, formSafeChar c = true) ∧
    (∀ c ∈ p.2.toList, formSafeChar c = true)

instance (u : ParsedUrl) : Decidable (queryFaithful u) := by
  unfold queryFaithful
  infer_instance

/-- Character-level facts about the components of a successfully parsed
URL, used to re-parse its serialization. -/
structure ParseWF (u : ParsedUrl) : Prop where
  scheme_ok : u.scheme = "http".toList ∨ u.scheme = "https".toList
  host_ne : u.host ≠ []
  host_ok : ∀ ch ∈ u.host, ch ≠ '/' ∧ ch ≠ '?' ∧ ch ≠ '#'
  path_shape : ∃ rest, u.path = '/' :: rest
  path_ok : ∀ ch ∈ u.path, ch ≠ '?' ∧ ch ≠ '#'
  key_ok : ∀ p ∈ u.query, '&' ∉ p.1.toList ∧ '=' ∉ p.1.toList ∧ '#' ∉ p.1.toList
  val_ok : ∀ p ∈ u.query, '&' ∉ p.2.toList ∧ '#' ∉ p.2.toList

/-- A URL in the image of `normalizeMut`: parse-well-formed, scheme forced
to `https`, host lowercased, query tracking-free and key-sorted, fragment
stripped. -/
structure NormWF (u : ParsedUrl) extends ParseWF u : Prop where
  scheme_https : u.scheme = "https".toList
  host_lower : lowerChars u.host = u.host
  query_clean : ∀ p ∈ u.query, TRACKING_PARAMS.contains p.1 = false
  query_sorted : List.Sorted keyLe u.query
  frag_none : u.fragment = none

/-! ## §2  Extraction quality and final status (`extract.ts`) -/

/-- `MIN_QUALITY_THRESHOLD` (`extract.ts:29`): chars per page below which a
PDF is flagged for OCR. -/
def MIN_QUALITY_THRESHOLD : Nat := 50

/-- `Math.round(x*100)/100` on exact rationals; for the nonnegative values
arising here `Math.round` is `⌊x + 1/2⌋`. -/
def roundTo2 (x : Rat) : Rat := ((round (x * 100) : Int) : Rat) / 100

/-- `computeQuality` (`extract.ts:143-156`): non-PDFs and zero-page PDFs
get a binary 0/100 score and are never flagged for OCR; PDFs with pages
get characters-per-page rounded to two decimals, flagged for OCR below the
threshold.  Exact rationals model the source's float arithmetic (whose
rounding cannot affect the threshold comparison at realistic sizes). -/
def computeQuality (text : String) (pageCount : Nat) (fileType : String) :
    Rat × Bool :=
  if fileType ≠ "pdf" ∨ pageCount = 0 then
    (if text.length > 0 then 100 else 0, false)
  else
    (roundTo2 ((text.length : Rat) / (pageCount : Rat)),
     decide ((text.length : Rat) / (pageCount : Rat)
       < (MIN_QUALITY_THRESHOLD : Rat)))

/-- The final status decision of `processEpsteinDocument`
(`extract.ts:249-256`): `needs_ocr` if flagged, else `indexed` when the
text is nonempty (JS truthiness) and longer than 50 characters, else
`error`. -/
def finalStatus (rawText : String) (needsOcr : Bool) : String :=
  if needsOcr then "needs_ocr"
  else if rawText ≠ "" ∧ rawText.length > 50 then "indexed"
  else "error"

/-! ## §3  EFTA numbering inference (`hub-crawler.ts`) -/

/-- `DiscoveredUrl` (`hub-crawler.ts:41-46`). -/
structure DiscoveredUrl where
  url : String
  title : String
  sourceHub : String
  fileType : String
deriving DecidableEq, Repr

/-- Match of the regex `EFTA(\d+)\.pdf` anchored at the head: `EFTA`, a
maximal nonempty digit run, then `.pdf` (backtracking cannot shorten the
run because `.` is not a digit).  Returns the digits and the suffix. -/
def eftaHere : List Char → Option (List Char × List Char)
  | 'E' :: 'F' :: 'T' :: 'A' :: rest =>
    match rest.dropWhile Char.isDigit with
    | '.' :: 'p' :: 'd' :: 'f' :: after =>
      if rest.takeWhile Char.isDigit = [] then none
      else some (rest.takeWhile Char.isDigit, after)
    | _ => none
  | _ => none

/-- Leftmost match of `EFTA(\d+)\.pdf` in the list: returns the part
before the match, the captured digits, and the part after `.pdf`. -/
def eftaFind : List Char → Option (List Char × List Char × List Char)
  | [] => none
  | c :: rest =>
    match eftaHere (c :: rest) with
    | some (ds, after) => some ([], ds, after)
    | none => (eftaFind rest).map (fun r => (c :: r.1, r.2.1, r.2.2))

/-- `parseInt` on a digit run. -/
def digitsToNat (ds : List Char) : Nat :=
  ds.foldl (fun acc c => acc * 10 + (c.toNat - 48)) 0

/-- `String(num).padStart(8, '0')`. -/
def padStart8 (s : List Char) : List Char :=
  List.replicate (8 - s.length) '0' ++ s

/-- `String.prototype.replace` with a literal pattern: replace the first
occurrence only; return the input unchanged when the pattern is absent. -/
def replaceFirst (pat repl : List Char) : List Char → List Char
  | [] => if pat = [] then repl else []
  | c :: rest =>
    if pat.isPrefixOf (c :: rest) then repl ++ (c :: rest).drop pat.length
    else c :: replaceFirst pat repl rest

/-- The collection loop of `inferEftaUrls` (`hub-crawler.ts:170-178`):
extract every EFTA number in order, and take the URL template from the
first matching PDF (its match replaced by the `{NUM}` placeholder,
exactly what `url.replace(/EFTA\d+\.pdf/, 'EFTA{NUM}.pdf')` builds). -/
def collectEfta (knownPdfs : List DiscoveredUrl) :
    List Nat × Option (List Char) :=
  knownPdfs.foldl (fun acc pdf =>
    match eftaFind pdf.url.toList with
    | some (b, ds, a) =>
      (acc.1 ++ [digitsToNat ds],
       match acc.2 with
       | some t => some t
       | none => some (b ++ "EFTA{NUM}.pdf".toList ++ a))
    | none => acc) ([], none)

/-- `inferEftaUrls` (`hub-crawler.ts:161-201`): with fewer than two
EFTA-numbered PDFs (or no template) infer nothing; otherwise sort the
numbers, estimate the final number as `smallest + totalPages*perPage - 1`,
and emit one speculative PDF URL for every number from `largest + 1` up to
that estimate, each formatted into the template zero-padded to 8 digits. -/
def inferEftaUrls (knownPdfs : List DiscoveredUrl) (totalPages perPage : Nat)
    (sourceHub : String) : List DiscoveredUrl :=
  let collected := collectEfta knownPdfs
  match collected.2 with
  | none => []
  | some tmpl =>
    if collected.1.length < 2 then []
    else
      let sorted := collected.1.insertionSort (· ≤ ·)
      let startNum := sorted.headD 0
      let endOfKnown := sorted.getLastD 0
      let totalEstimatedDocs := totalPages * perPage
      let endNum : Int := (startNum : Int) + (totalEstimatedDocs : Int) - 1
      (List.range (endNum - (endOfKnown : Int)).toNat).map (fun i =>
        let paddedNum := padStart8 (Nat.toDigits 10 (endOfKnown + 1 + i))
        { url := String.mk (replaceFirst "{NUM}".toList paddedNum tmpl),
          title := String.mk ("EFTA".toList ++ paddedNum),
          sourceHub := sourceHub,
          fileType := "pdf" })

/-! ## §4  Cross-source deduplication (`orchestrator.ts`) -/

/-- A discovered URL tagged with its origin discovery source
(`DiscoveredUrl & { discoverySource: string }`). -/
structure TaggedUrl where
  url : String
  title : String
  sourceHub : String
  fileType : String
  discoverySource : String
deriving DecidableEq, Repr

/-- `DeduplicatedDoc` (`orchestrator.ts:27-34`). -/
structure DeduplicatedDoc where
  url : String
  canonicalUrl : String
  title : String
  fileType : String
  discoverySource : String
  sourceHub : String
deriving DecidableEq, Repr

/-- One step of `deduplicateUrls`'s loop: a JS `Map` keyed by the canonical
URL, modelled as an insertion-ordered association list; an item whose
canonical URL is already present is dropped. -/
def dedupInsert (m : List (String × DeduplicatedDoc)) (item : TaggedUrl) :
    List (String × DeduplicatedDoc) :=
  let canonical := normalizeUrl item.url
  if m.any (fun e => e.1 == canonical) then m
  else m ++ [(canonical,
    { url := item.url, canonicalUrl := canonical, title := item.title,
      fileType := item.fileType, discoverySource := item.discoverySource,
      sourceHub := item.sourceHub })]

/-- `deduplicateUrls` (`orchestrator.ts:49-69`): fold all tagged URLs into
the map and return the values in insertion order
(`Array.from(map.values())`). -/
def deduplicateUrls (allUrls : List TaggedUrl) : List DeduplicatedDoc :=
  (allUrls.foldl dedupInsert []).map (fun e => e.2)

/-- The spec's EFTA scenario: page-1 items `EFTA00000001.pdf` through
`EFTA00000050.pdf`. -/
def eftaPage1 : List DiscoveredUrl :=
  (List.range 50).map (fun i =>
    { url := "https://www.justice.gov/files/EFTA"
        ++ String.mk (padStart8 (Nat.toDigits 10 (i + 1))) ++ ".pdf",
      title := "t", sourceHub := "hub", fileType := "pdf" })

/-- The deduplicated entry `d` carries the metadata of the raw item
`item` (built by `deduplicateUrls` for the first item of each canonical
URL). -/
def dedupOrigin (item : TaggedUrl) (d : DeduplicatedDoc) : Prop :=
  d.url = item.url ∧ d.canonicalUrl = normalizeUrl item.url ∧
  d.title = item.title ∧ d.fileType = item.fileType ∧
  d.discoverySource = item.discoverySource ∧ d.sourceHub = item.sourceHub

/-! ## §5  Catalog store model (`db.ts`)

Records carry the fields read or written by the modelled code paths.
Omitted (never read by discovery/extraction): `finalUrl`, `summary`,
`caseNumber`, `filedDate`, `parties`, `keywords`, `entities`,
`searchTerms`, and the store-bookkeeping `updatedAt` (written by `db.ts`
on every update).  `generateId` is modelled by a single shared counter;
Firestore dates are modelled by a `Nat` clock and the orchestrator's
`toISOString().split('T')[0]` day-strings by a `today : String`
parameter. -/

/-- One `discoveryLineage` entry (`{source, sourceId, firstSeen,
lastSeen}`). -/
structure LineageEntry where
  source : String
  sourceId : String
  firstSeen : String
  lastSeen : String
deriving DecidableEq, Repr

/-- `EpsteinDocument` (`db.ts:598-634`), restricted to the modelled
fields. -/
structure EpsteinDoc where
  id : Nat
  title : String
  sourceUrl : String
  canonicalUrl : Option String
  fileType : String
  documentType : Option String
  contentType : Option String
  pageCount : Option Nat
  rawText : Option String
  lengthChars : Option Nat
  textHash : Option String
  byteHash : Option String
  httpEtag : Option String
  httpLastModified : Option String
  lastFetchedAt : Option Nat
  extractionQuality : Option Rat
  ocrRequired : Bool
  discoveryLineage : Option (List LineageEntry)
  status : String
  createdAt : Nat
deriving DecidableEq, Repr

/-- `UrlAlias` (`db.ts:825-832`). -/
structure UrlAlias where
  id : Nat
  documentId : Nat
  aliasUrl : String
  discoverySource : String
  firstSeen : Nat
  lastSeen : Nat
deriving DecidableEq, Repr

/-- `DiscoveryRun` (`db.ts:844-854`), restricted to counters. -/
structure DiscoveryRunRec where
  id : Nat
  source : String
  urlsFound : Nat
  urlsNew : Nat
  urlsChanged : Nat
  errors : Nat
  completed : Bool
deriving DecidableEq, Repr

/-- The whole Firestore state touched by the modelled code.  Unordered
`limit(1)` queries are modelled as first match in insertion order. -/
structure Catalog where
  docs : List EpsteinDoc
  aliases : List UrlAlias
  runs : List DiscoveryRunRec
  nextId : Nat
deriving DecidableEq, Repr

/-- `epsteinDocuments.findBySourceUrl` (`db.ts:569-576`). -/
def findBySourceUrl (st : Catalog) (url : String) : Option EpsteinDoc :=
  st.docs.find? (fun d => d.sourceUrl == url)

/-- `epsteinDocuments.findByCanonicalUrlOrSourceUrl` (`db.ts:578-596`):
canonical-URL query first, source-URL fallback. -/
def findByCanonicalUrlOrSourceUrl (st : Catalog)
    (canonicalUrl sourceUrl : String) : Option EpsteinDoc :=
  (st.docs.find? (fun d => d.canonicalUrl == some canonicalUrl)).or
    (st.docs.find? (fun d => d.sourceUrl == sourceUrl))

/-- `epsteinDocuments.update` (`db.ts:636-653`): a partial update of the
document with the given id; each call site passes its own field patch. -/
def updateDocById (st : Catalog) (id : Nat) (f : EpsteinDoc → EpsteinDoc) :
    Catalog :=
  { st with docs := st.docs.map (fun d => if d.id = id then f d else d) }

/-- JS `a || b` on an optional string: `null`/`undefined` and `''` are
falsy. -/
def jsOrStr (a : Option String) (b : String) : String :=
  match a with
  | some s => if s = "" then b else s
  | none => b

/-- JS `a || null` on an optional string: `''` collapses to `null`. -/
def jsStrOpt : Option String → Option String
  | some s => if s = "" then none else some s
  | none => none

/-- `epsteinDocuments.create` (`db.ts:598-634`): the `|| null` / `|| 'pdf'`
/ `|| 'pending'` defaults for the fields the call sites may omit. -/
def createDoc (st : Catalog) (title sourceUrl : String)
    (canonicalUrl : Option String) (fileType : Option String)
    (documentType : Option String) (status : Option String)
    (lineage : Option (List LineageEntry)) (now : Nat) :
    EpsteinDoc × Catalog :=
  let doc : EpsteinDoc :=
    { id := st.nextId, title := title, sourceUrl := sourceUrl,
      canonicalUrl := jsStrOpt canonicalUrl,
      fileType := jsOrStr fileType "pdf",
      documentType := jsStrOpt documentType,
      contentType := none, pageCount := none, rawText := none,
      lengthChars := none, textHash := none, byteHash := none,
      httpEtag := none, httpLastModified := none, lastFetchedAt := none,
      extractionQuality := none, ocrRequired := false,
      discoveryLineage := lineage,
      status := jsOrStr status "pending",
      createdAt := now }
  (doc, { st with docs := st.docs ++ [doc], nextId := st.nextId + 1 })

/-- `urlAliases.upsert` (`db.ts:811-836`): refresh `lastSeen` when the
alias URL exists, otherwise create the alias row. -/
def urlAliasUpsert (st : Catalog) (aliasUrl : String) (documentId : Nat)
    (discoverySource : String) (now : Nat) : Catalog :=
  match st.aliases.find? (fun a => a.aliasUrl == aliasUrl) with
  | some existing =>
    { st with aliases := st.aliases.map (fun a =>
        if a.id = existing.id then { a with lastSeen := now } else a) }
  | none =>
    let aliasRow : UrlAlias :=
      { id := st.nextId, documentId := documentId, aliasUrl := aliasUrl,
        discoverySource := discoverySource, firstSeen := now, lastSeen := now }
    { st with aliases := st.aliases ++ [aliasRow], nextId := st.nextId + 1 }

/-- `discoveryRuns.create` (`db.ts:842-857`). -/
def createRun (st : Catalog) (source : String) : DiscoveryRunRec × Catalog :=
  let run : DiscoveryRunRec :=
    { id := st.nextId, source := source, urlsFound := 0, urlsNew := 0,
      urlsChanged := 0, errors := 0, completed := false }
  (run, { st with runs := st.runs ++ [run], nextId := st.nextId + 1 })

/-- `discoveryRuns.update` as called at the end of `runDiscovery`
(`orchestrator.ts:233-239`). -/
def updateRun (st : Catalog) (id : Nat)
    (urlsFound urlsNew urlsChanged errors : Nat) : Catalog :=
  { st with runs := st.runs.map (fun r =>
      if r.id = id then
        { r with urlsFound := urlsFound, urlsNew := urlsNew,
                 urlsChanged := urlsChanged, errors := errors,
                 completed := true }
      else r) }

/-- Occurrence of `sub` as a contiguous subsequence. -/
def containsSeq (sub : List Char) : List Char → Bool
  | [] => sub.isEmpty
  | c :: rest => sub.isPrefixOf (c :: rest) || containsSeq sub rest

/-- `String.prototype.includes`. -/
def strIncludes (s sub : String) : Bool :=
  containsSeq sub.toList s.toList

/-- `String.prototype.toLowerCase` (basic-latin, as in `lowerChars`). -/
def lowerStr (s : String) : String := String.mk (lowerChars s.toList)

/-! ## §6  Orchestrator persistence (`orchestrator.ts:74-154, 159-253`) -/

/-- The lineage update of `persistDiscoveries` (`orchestrator.ts:90-104`):
refresh `lastSeen` of the first entry matching the (source, sourceId)
pair, or push a fresh entry at the end. -/
def updateLineage : List LineageEntry → String → String → String →
    List LineageEntry
  | [], src, sid, today =>
    [{ source := src, sourceId := sid, firstSeen := today, lastSeen := today }]
  | e :: rest, src, sid, today =>
    if e.source = src ∧ e.sourceId = sid then
      { e with lastSeen := today } :: rest
    else e :: updateLineage rest src sid today

structure PersistCounts where
  newCount : Nat
  updatedCount : Nat
  aliasCount : Nat
deriving DecidableEq, Repr

/-- One iteration of the `persistDiscoveries` loop
(`orchestrator.ts:81-151`).  The create-failure catch (a cross-run race)
cannot fire in the single-run model, where `create` is total. -/
def persistOne (today : String) (now : Nat) (acc : Catalog × PersistCounts)
    (doc : DeduplicatedDoc) : Catalog × PersistCounts :=
  match findByCanonicalUrlOrSourceUrl acc.1 doc.canonicalUrl doc.url with
  | some existing =>
    let lineage := updateLineage (existing.discoveryLineage.getD [])
      doc.discoverySource doc.sourceHub today
    let st := updateDocById acc.1 existing.id (fun d =>
      { d with
        canonicalUrl := some (jsOrStr existing.canonicalUrl doc.canonicalUrl),
        discoveryLineage := some lineage })
    if doc.url ≠ existing.sourceUrl ∧ some doc.url ≠ existing.canonicalUrl then
      (urlAliasUpsert st doc.url existing.id doc.discoverySource now,
       { acc.2 with updatedCount := acc.2.updatedCount + 1,
                    aliasCount := acc.2.aliasCount + 1 })
    else
      (st, { acc.2 with updatedCount := acc.2.updatedCount + 1 })
  | none =>
    let documentType := if doc.fileType = "pdf" then
        (if strIncludes doc.url "EFTA" then "EFTA Disclosure"
         else "Court Document")
      else "Web Page"
    ((createDoc acc.1 doc.title doc.url (some doc.canonicalUrl)
        (some (if doc.fileType = "unknown" then "pdf" else doc.fileType))
        (some documentType) (some "pending")
        (some [{ source := doc.discoverySource, sourceId := doc.sourceHub,
                 firstSeen := today, lastSeen := today }]) now).2,
     { acc.2 with newCount := acc.2.newCount + 1 })

/-- The record `persistOne` creates when no existing document matches
(`orchestrator.ts:124-150` through `epsteinDocuments.create`). -/
def mkCreated (id : Nat) (d : DeduplicatedDoc) (today : String) (now : Nat) :
    EpsteinDoc :=
  { id := id, title := d.title, sourceUrl := d.url,
    canonicalUrl := jsStrOpt (some d.canonicalUrl),
    fileType := jsOrStr
      (some (if d.fileType = "unknown" then "pdf" else d.fileType)) "pdf",
    documentType := jsStrOpt (some (if d.fileType = "pdf" then
      (if strIncludes d.url "EFTA" then "EFTA Disclosure"
       else "Court Document") else "Web Page")),
    contentType := none, pageCount := none, rawText := none,
    lengthChars := none, textHash := none, byteHash := none,
    httpEtag := none, httpLastModified := none, lastFetchedAt := none,
    extractionQuality := none, ocrRequired := false,
    discoveryLineage := some [⟨d.discoverySource, d.sourceHub, today, today⟩],
    status := jsOrStr (some "pending") "pending",
    createdAt := now }

/-- `persistDiscoveries` (`orchestrator.ts:74-154`). -/
def persistDiscoveries (today : String) (now : Nat)
    (docs : List DeduplicatedDoc) (st : Catalog) : Catalog × PersistCounts :=
  docs.foldl (persistOne today now)
    (st, { newCount := 0, updatedCount := 0, aliasCount := 0 })

/-- `DiscoveryResult` (`orchestrator.ts:36-44`), without `bySource`. -/
structure DiscoveryResultM where
  runId : Nat
  totalDiscovered : Nat
  newDocuments : Nat
  existingUpdated : Nat
  aliasesCreated : Nat
  errors : Nat
deriving DecidableEq, Repr

/-- `runDiscovery` (`orchestrator.ts:159-253`) from the point where the
discoverers have returned: the network-bound discoverers enter the model
as the tagged `discovered` list and their accumulated error count. -/
def runDiscovery (today : String) (now : Nat) (sourcesStr : String)
    (discovered : List TaggedUrl) (discovererErrors : Nat) (st : Catalog) :
    DiscoveryResultM × Catalog :=
  let rs := createRun st sourcesStr
  let deduplicated := deduplicateUrls discovered
  let pc := persistDiscoveries today now deduplicated rs.2
  let st2 := updateRun pc.1 rs.1.id deduplicated.length pc.2.newCount
    pc.2.updatedCount discovererErrors
  ({ runId := rs.1.id, totalDiscovered := deduplicated.length,
     newDocuments := pc.2.newCount, existingUpdated := pc.2.updatedCount,
     aliasesCreated := pc.2.aliasCount, errors := discovererErrors }, st2)

/-! ## §7  Extraction pipeline model (`extract.ts`) -/

/-- Outcome of `fetchWithConditional` (`extract.ts:43-79`): a 304 (`null`
return), a 200 body, or a thrown error (rate limit 403/429, other HTTP
status, network/timeout — all reach the same top-level catch). -/
inductive FetchOutcome where
  | notModified
  | success (buffer : String) (contentType : String)
      (etag : Option String) (lastModified : Option String)
  | failure
deriving DecidableEq, Repr

/-- External collaborators of the pipeline: the network, SHA-256
(`hashBuffer`/`hashText`), the PDF parser (`none` models a parser throw,
caught inside `extractPdfText` to `('', 0)`), the cheerio HTML extractor
(text, title), and the clock. -/
structure ExtractEnv where
  fetch : String → Option String → Option String → FetchOutcome
  hashB : String → String
  hashT : String → String
  pdfExtract : String → Option (String × Nat)
  htmlExtract : String → String × String
  now : Nat

/-- `processEpsteinDocument` (`extract.ts:162-297`). -/
def processEpsteinDocument (env : ExtractEnv) (url title : String)
    (st : Catalog) : Catalog :=
  let existing := findBySourceUrl st url
  let st1 := match findBySourceUrl st url with
    | some ex =>
      updateDocById st ex.id (fun d => { d with status := "processing" })
    | none =>
      (createDoc st title url (some (normalizeUrl url)) (some "pdf") none
        (some "processing") none env.now).2
  match env.fetch url (existing.bind (fun e => e.httpEtag))
      (existing.bind (fun e => e.httpLastModified)) with
  | .failure =>
    (match findBySourceUrl st1 url with
     | some ex =>
       updateDocById st1 ex.id (fun d => { d with status := "error" })
     | none =>
       (createDoc st1 title url (some (normalizeUrl url)) none none
         (some "error") none env.now).2)
  | .notModified =>
    (match findBySourceUrl st1 url with
     | some doc =>
       updateDocById st1 doc.id (fun d =>
         { d with
           status := match existing with
             | some ex => if ex.status = "indexed" then "indexed"
                 else jsOrStr (some ex.status) "pending"
             | none => "pending",
           lastFetchedAt := some env.now })
     | none => st1)
  | .success buffer contentType etag lastModified =>
    let byteHashValue := env.hashB buffer
    let hashSkip : Bool := match existing with
      | some ex => (ex.byteHash == some byteHashValue)
          && (ex.status == "indexed")
      | none => false
    if hashSkip then
      match existing with
      | some ex =>
        updateDocById st1 ex.id (fun d =>
          { d with status := "indexed", lastFetchedAt := some env.now,
                   httpEtag := etag.or ex.httpEtag,
                   httpLastModified := lastModified.or ex.httpLastModified })
      | none => st1
    else
      let ispdf := strIncludes contentType "pdf"
        || (lowerStr url).endsWith ".pdf"
      let ishtml := strIncludes contentType "html"
        || strIncludes contentType "xhtml"
      let ext :=
        if ispdf then
          ((env.pdfExtract buffer).getD ("", 0), title, "pdf")
        else if ishtml then
          let r := env.htmlExtract buffer
          ((r.1, 1), if r.2 = "" then title else r.2, "html")
        else (("", 0), title, "pdf")
      let rawText := ext.1.1
      let pageCount := ext.1.2
      let extractedTitle := ext.2.1
      let fileType := ext.2.2
      let textHashValue := if rawText = "" then none
        else some (env.hashT rawText)
      let qr := computeQuality rawText pageCount fileType
      let status := finalStatus rawText qr.2
      match findBySourceUrl st1 url with
      | some doc =>
        updateDocById st1 doc.id (fun d =>
          { d with title := extractedTitle,
                   rawText := some (if rawText = "" then "[No text extracted]"
                     else rawText),
                   pageCount := some pageCount,
                   lengthChars := some rawText.length,
                   fileType := fileType,
                   contentType := some contentType,
                   byteHash := some byteHashValue,
                   textHash := textHashValue,
                   httpEtag := etag,
                   httpLastModified := lastModified,
                   lastFetchedAt := some env.now,
                   extractionQuality := some qr.1,
                   ocrRequired := qr.2,
                   status := status,
                   canonicalUrl := some (normalizeUrl url) })
      | none => st1

/-- `processAllPending` (`extract.ts:302-344`): scan `pending`/`needs_ocr`
records oldest-first (bounded), process each inside a try/catch, count
processed and errors.  The store being total in the model, the per-item
catch cannot fire. -/
def processAllPending (env : ExtractEnv) (maxDocuments : Nat)
    (st : Catalog) : (Nat × Nat) × Catalog :=
  let pending := ((st.docs.filter (fun d =>
      d.status == "pending" || d.status == "needs_ocr")).insertionSort
      (fun a b => a.createdAt ≤ b.createdAt)).take maxDocuments
  pending.foldl (fun acc doc =>
    ((acc.1.1 + 1, acc.1.2),
     processEpsteinDocument env doc.sourceUrl doc.title acc.2))
    ((0, 0), st)

/-! ## §8  Refresh relations for the idempotence analysis

`runDiscovery` run twice may rewrite `lastSeen` stamps; these relations
say two states agree everywhere else. -/

/-- Lineage entries equal except possibly `lastSeen`. -/
def entryRefresh (e f : LineageEntry) : Prop :=
  f.source = e.source ∧ f.sourceId = e.sourceId ∧ f.firstSeen = e.firstSeen

instance (e f : LineageEntry) : Decidable (entryRefresh e f) := by
  unfold entryRefresh; infer_instance

/-- Lineage fields (`null` or entry lists) equal except `lastSeen`
stamps. -/
def linRefresh : Option (List LineageEntry) → Option (List LineageEntry) →
    Prop
  | none, none => True
  | some l, some m => List.Forall₂ entryRefresh l m
  | some _, none => False
  | none, some _ => False

/-- Documents equal in every field except the `lastSeen` stamps inside
`discoveryLineage`. -/
structure docRefresh (a b : EpsteinDoc) : Prop where
  idEq : b.id = a.id
  titleEq : b.title = a.title
  sourceUrlEq : b.sourceUrl = a.sourceUrl
  canonicalUrlEq : b.canonicalUrl = a.canonicalUrl
  fileTypeEq : b.fileType = a.fileType
  documentTypeEq : b.documentType = a.documentType
  contentTypeEq : b.contentType = a.contentType
  pageCountEq : b.pageCount = a.pageCount
  rawTextEq : b.rawText = a.rawText
  lengthCharsEq : b.lengthChars = a.lengthChars
  textHashEq : b.textHash = a.textHash
  byteHashEq : b.byteHash = a.byteHash
  httpEtagEq : b.httpEtag = a.httpEtag
  httpLastModifiedEq : b.httpLastModified = a.httpLastModified
  lastFetchedAtEq : b.lastFetchedAt = a.lastFetchedAt
  extractionQualityEq : b.extractionQuality = a.extractionQuality
  ocrRequiredEq : b.ocrRequired = a.ocrRequired
  statusEq : b.status = a.status
  createdAtEq : b.createdAt = a.createdAt
  linRel : linRefresh a.discoveryLineage b.discoveryLineage

/-- Classification of a record created by the discovery run: it stands for
some discovered doc, its file type collapses `unknown` to `pdf` and is
always `pdf` or `html`, and its document type follows the
PDF/EFTA/Web-Page rule of `orchestrator.ts:126-128`. -/
def CreatedGood (ds : List DeduplicatedDoc) (r : EpsteinDoc) : Prop :=
  ∃ d ∈ ds, r.sourceUrl = d.url ∧
    r.fileType = (if d.fileType = "unknown" then "pdf" else d.fileType) ∧
    (r.fileType = "pdf" ∨ r.fileType = "html") ∧
    r.documentType = some (if d.fileType = "pdf" then
      (if strIncludes d.url "EFTA" then "EFTA Disclosure"
       else "Court Document") else "Web Page")

instance (ds : List DeduplicatedDoc) (r : EpsteinDoc) :
    Decidable (CreatedGood ds r) := by
  unfold CreatedGood; infer_instance

/-- The record carries a lineage entry for the (source, sourceId) pair. -/
def hasEntry (r : EpsteinDoc) (src hub : String) : Prop :=
  ∃ e ∈ r.discoveryLineage.getD [], e.source = src ∧ e.sourceId = hub

/-- The record's canonical URL is set and non-empty (so the
`existing.canonicalUrl || doc.canonicalUrl` rewrite is the identity). -/
def goodCanonical (r : EpsteinDoc) : Prop :=
  ∃ y, r.canonicalUrl = some y ∧ y ≠ ""

/-- The per-record patch `persistDiscoveries` applies to the matched
record (`orchestrator.ts:106-109` through `epsteinDocuments.update`). -/
def updPatch (ex : EpsteinDoc) (d : DeduplicatedDoc) (today : String) :
    EpsteinDoc → EpsteinDoc :=
  fun r => if r.id = ex.id then
    { r with
        canonicalUrl := some (jsOrStr ex.canonicalUrl d.canonicalUrl),
        discoveryLineage := some (updateLineage
          (ex.discoveryLineage.getD []) d.discoverySource
          d.sourceHub today) }
  else r

/-- Store invariant: document ids are pairwise distinct and below the id
counter (Firestore's `generateId` never repeats). -/
def IdsOk (st : Catalog) : Prop :=
  (st.docs.map EpsteinDoc.id).Nodup ∧ ∀ r ∈ st.docs, r.id < st.nextId

/-- Post-discovery state: every deduplicated doc finds a record that has a
non-empty canonical URL and a lineage entry for the doc's
(source, sourceId) pair — so a second identical run can only refresh. -/
def RunReady (st : Catalog) (ds : List DeduplicatedDoc) : Prop :=
  ∀ d ∈ ds, ∃ r, findByCanonicalUrlOrSourceUrl st d.canonicalUrl d.url
      = some r ∧
    goodCanonical r ∧ hasEntry r d.discoverySource d.sourceHub

/-- Well-formedness of the deduplicated list: canonical URLs are the
normalizations of the raw URLs, non-empty, and pairwise distinct. -/
def DedupOk (ds : List DeduplicatedDoc) : Prop :=
  (ds.map DeduplicatedDoc.canonicalUrl).Nodup ∧
  ∀ d ∈ ds, d.canonicalUrl = normalizeUrl d.url ∧ d.canonicalUrl ≠ ""

/-! ### Splitting / joining lemmas -/

theorem splitAtFirst_cons_pos {c : Char} {xs : List Char} :
    splitAtFirst c (c :: xs) = some ([], xs) := by
  simp [splitAtFirst]

theorem splitAtFirst_cons_neg {c x : Char} {xs : List Char} (hx : x ≠ c) :
    splitAtFirst c (x :: xs)
      = (splitAtFirst c xs).map (fun p => (x :: p.1, p.2)) := by
  simp [splitAtFirst, hx]

theorem splitAtFirst_eq_none {c : Char} :
    ∀ {l : List Char}, splitAtFirst c l = none ↔ c ∉ l := by
  intro l
  induction l with
  | nil => simp [splitAtFirst]
  | cons x xs ih =>
    by_cases hx : x = c
    · subst hx; simp [splitAtFirst_cons_pos]
    · rw [splitAtFirst_cons_neg hx]
      constructor
      · intro h hmem
        rcases List.mem_cons.mp hmem with rfl | hmem
        · exact hx rfl
        · exact ih.mp (by
            cases hs : splitAtFirst c xs with
            | none => rfl
            | some p => rw [hs] at h; simp at h) hmem
      · intro h
        rw [ih.mpr (fun hm => h (List.mem_cons_of_mem x hm))]
        rfl

theorem splitAtFirst_append {c : Char} {a b : List Char} (ha : c ∉ a) :
    splitAtFirst c (a ++ c :: b) = some (a, b) := by
  induction a with
  | nil => simp [splitAtFirst_cons_pos]
  | cons x xs ih =>
    have hx : x ≠ c := fun h => ha (h ▸ List.mem_cons_self x xs)
    have hxs : c ∉ xs := fun h => ha (List.mem_cons_of_mem x h)
    rw [List.cons_append, splitAtFirst_cons_neg hx, ih hxs]
    rfl

theorem splitAtFirst_eq_some {c : Char} :
    ∀ {l a b : List Char}, splitAtFirst c l = some (a, b) →
      l = a ++ c :: b ∧ c ∉ a := by
  intro l
  induction l with
  | nil => intro a b h; simp [splitAtFirst] at h
  | cons x xs ih =>
    intro a b h
    by_cases hx : x = c
    · subst hx
      rw [splitAtFirst_cons_pos] at h
      obtain ⟨rfl, rfl⟩ := Prod.mk.injEq .. ▸ Option.some.inj h
      simp
    · rw [splitAtFirst_cons_neg hx] at h
      obtain ⟨⟨a', b'⟩, hsplit, heq⟩ := Option.map_eq_some'.mp h
      obtain ⟨ha', hb'⟩ := Prod.mk.injEq .. ▸ heq
      obtain ⟨rfl, hnot⟩ := ih hsplit
      subst ha'; subst hb'
      refine ⟨by simp, fun hmem => ?_⟩
      rcases List.mem_cons.mp hmem with rfl | hmem
      · exact hx rfl
      · exact hnot hmem

theorem splitOnChar_ne_nil {c : Char} : ∀ {l : List Char}, splitOnChar c l ≠ [] := by
  intro l
  induction l with
  | nil => simp [splitOnChar]
  | cons x xs _ =>
    by_cases hx : x = c
    · simp [splitOnChar, hx]
    · simp only [splitOnChar, if_neg hx]
      cases h : splitOnChar c xs with
      | nil => simp [consHead]
      | cons p ps => simp [consHead]

theorem splitOnChar_not_mem {c : Char} :
    ∀ {l : List Char}, ∀ p ∈ splitOnChar c l, c ∉ p := by
  intro l
  induction l with
  | nil =>
    intro p hp
    simp [splitOnChar] at hp
    simp [hp]
  | cons x xs ih =>
    intro p hp
    by_cases hx : x = c
    · have hps : splitOnChar c (x :: xs) = [] :: splitOnChar c xs := by
        simp [splitOnChar, hx]
      rw [hps] at hp
      rcases List.mem_cons.mp hp with rfl | hp
      · simp
      · exact ih p hp
    · have hps : splitOnChar c (x :: xs) = consHead x (splitOnChar c xs) := by
        simp [splitOnChar, hx]
      rw [hps] at hp
      cases h : splitOnChar c xs with
      | nil => exact absurd h splitOnChar_ne_nil
      | cons q qs =>
        rw [h] at hp
        simp only [consHead, List.mem_cons] at hp
        rcases hp with rfl | hp
        · intro hmem
          rcases List.mem_cons.mp hmem with rfl | hmem
          · exact hx rfl
          · exact ih q (h ▸ List.mem_cons_self q qs) hmem
        · exact ih p (h ▸ List.mem_cons_of_mem q hp)

theorem splitOnChar_append_cons {c : Char} {a b : List Char} (ha : c ∉ a) :
    splitOnChar c (a ++ c :: b) = a :: splitOnChar c b := by
  induction a with
  | nil => simp [splitOnChar]
  | cons x xs ih =>
    have hx : x ≠ c := fun h => ha (h ▸ List.mem_cons_self x xs)
    have hxs : c ∉ xs := fun h => ha (List.mem_cons_of_mem x h)
    rw [List.cons_append]
    simp only [splitOnChar, if_neg hx, ih hxs]
    rfl

theorem splitOnChar_no_sep {c : Char} {a : List Char} (ha : c ∉ a) :
    splitOnChar c a = [a] := by
  induction a with
  | nil => simp [splitOnChar]
  | cons x xs ih =>
    have hx : x ≠ c := fun h => ha (h ▸ List.mem_cons_self x xs)
    have hxs : c ∉ xs := fun h => ha (List.mem_cons_of_mem x h)
    simp [splitOnChar, if_neg hx, ih hxs, consHead]

/-- `splitOnChar` recovers the pieces of a `joinWith`, provided no piece
contains the separator. -/
theorem splitOnChar_joinWith {c : Char} :
    ∀ {ps : List (List Char)}, ps ≠ [] → (∀ p ∈ ps, c ∉ p) →
      splitOnChar c (joinWith c ps) = ps := by
  intro ps
  induction ps with
  | nil => intro h; exact absurd rfl h
  | cons p ps ih =>
    intro _ hmem
    cases ps with
    | nil => exact splitOnChar_no_sep (hmem p (List.mem_cons_self p []))
    | cons q qs =>
      have h1 : joinWith c (p :: q :: qs) = p ++ c :: joinWith c (q :: qs) := rfl
      rw [h1, splitOnChar_append_cons (hmem p (List.mem_cons_self p _)),
        ih (by simp) (fun r hr => hmem r (List.mem_cons_of_mem p hr))]

theorem joinWith_concat {c : Char} :
    ∀ {ps : List (List Char)} {p : List Char}, ps ≠ [] →
      joinWith c (ps ++ [p]) = joinWith c ps ++ c :: p := by
  intro ps
  induction ps with
  | nil => intro p h; exact absurd rfl h
  | cons q qs ih =>
    intro p _
    cases qs with
    | nil => rfl
    | cons r rs =>
      have h1 : joinWith c ((q :: r :: rs) ++ [p])
          = q ++ c :: joinWith c ((r :: rs) ++ [p]) := rfl
      have h2 : joinWith c (q :: r :: rs) = q ++ c :: joinWith c (r :: rs) := rfl
      rw [h1, ih (by simp), h2, List.append_assoc]
      rfl

/-! ### Character-case lemmas -/

theorem toNat_ofNat_valid {n : Nat} (h : n.isValidChar) :
    (Char.ofNat n).toNat = n := by
  unfold Char.ofNat
  rw [dif_pos h]
  unfold Char.ofNatAux Char.toNat
  simp [UInt32.toNat, BitVec.toNat_ofNatLt]

theorem toLower_eq_or (c : Char) :
    c.toLower = c ∨ (97 ≤ c.toLower.toNat ∧ c.toLower.toNat ≤ 122) := by
  unfold Char.toLower
  by_cases h : c.toNat ≥ 65 ∧ c.toNat ≤ 90
  · right
    rw [if_pos h]
    have hv : (c.toNat + 32).isValidChar := Or.inl (by omega)
    rw [toNat_ofNat_valid hv]
    omega
  · left
    rw [if_neg h]

theorem toLower_eq_self {c : Char} (h : ¬(c.toNat ≥ 65 ∧ c.toNat ≤ 90)) :
    c.toLower = c := by
  unfold Char.toLower
  rw [if_neg h]

theorem toLower_idem (c : Char) : c.toLower.toLower = c.toLower := by
  rcases toLower_eq_or c with h | h
  · rw [h]
    exact h
  · exact toLower_eq_self (by omega)

theorem toLower_ne {c t : Char} (ht : t.toNat < 97) (hc : c ≠ t) :
    c.toLower ≠ t := by
  rcases toLower_eq_or c with h | h
  · rw [h]; exact hc
  · intro he
    rw [he] at h
    omega

theorem lowerChars_idem (l : List Char) : lowerChars (lowerChars l) = lowerChars l := by
  simp only [lowerChars, List.map_map]
  exact List.map_congr_left fun c _ => toLower_idem c

theorem lowerChars_ne_nil {l : List Char} (h : l ≠ []) : lowerChars l ≠ [] := by
  simp only [lowerChars, ne_eq, List.map_eq_nil_iff]
  exact h

/-! ### Last-character analysis of joins -/

theorem joinWith_last {c : Char} {ps : List (List Char)} {p : List Char}
    (hp : p ≠ []) : (joinWith c (ps ++ [p])).getLast? = p.getLast? := by
  cases ps with
  | nil => rfl
  | cons q qs =>
    rw [joinWith_concat (by simp)]
    rw [List.getLast?_append]
    have : (c :: p).getLast? = p.getLast? := by
      cases p with
      | nil => exact absurd rfl hp
      | cons y ys => simp [List.getLast?_cons_cons]
    rw [this]
    cases hl : p.getLast? with
    | none => exact absurd (List.getLast?_eq_none_iff.mp hl) hp
    | some a => rfl

theorem dropLast_cons_ne_nil {c : Char} {p : List Char} (hp : p ≠ []) :
    (c :: p).dropLast = c :: p.dropLast := by
  cases p with
  | nil => exact absurd rfl hp
  | cons y ys => rfl

theorem getLast?_cons_ne_nil {c : Char} {l : List Char} (hl : l ≠ []) :
    (c :: l).getLast? = l.getLast? := by
  cases l with
  | nil => exact absurd rfl hl
  | cons x xs => simp [List.getLast?_cons_cons]

theorem joinWith_dropLast {c : Char} {ps : List (List Char)} {p : List Char}
    (hp : p ≠ []) :
    (joinWith c (ps ++ [p])).dropLast = joinWith c (ps ++ [p.dropLast]) := by
  cases ps with
  | nil => rfl
  | cons q qs =>
    rw [joinWith_concat (by simp), joinWith_concat (by simp)]
    rw [List.dropLast_append_of_ne_nil _ (by simp), dropLast_cons_ne_nil hp]

/-! ### Well-formedness of parsed URLs -/

theorem string_mk_toList (s : String) : String.mk s.toList = s := rfl

theorem splitOnChar_subset {c : Char} :
    ∀ {l : List Char}, ∀ p ∈ splitOnChar c l, ∀ x ∈ p, x ∈ l := by
  intro l
  induction l with
  | nil =>
    intro p hp x hx
    simp [splitOnChar] at hp
    subst hp
    cases hx
  | cons y ys ih =>
    intro p hp x hx
    by_cases hy : y = c
    · have hps : splitOnChar c (y :: ys) = [] :: splitOnChar c ys := by
        simp [splitOnChar, hy]
      rw [hps] at hp
      rcases List.mem_cons.mp hp with rfl | hp
      · cases hx
      · exact List.mem_cons_of_mem y (ih p hp x hx)
    · have hps : splitOnChar c (y :: ys) = consHead y (splitOnChar c ys) := by
        simp [splitOnChar, hy]
      rw [hps] at hp
      cases h : splitOnChar c ys with
      | nil => exact absurd h splitOnChar_ne_nil
      | cons q qs =>
        rw [h] at hp
        simp only [consHead, List.mem_cons] at hp
        rcases hp with rfl | hp
        · rcases List.mem_cons.mp hx with rfl | hx
          · exact List.mem_cons_self x ys
          · exact List.mem_cons_of_mem y
              (ih q (h ▸ List.mem_cons_self q qs) x hx)
        · exact List.mem_cons_of_mem y
            (ih p (h ▸ List.mem_cons_of_mem q hp) x hx)

theorem mem_joinWith {c x : Char} :
    ∀ {ps : List (List Char)}, x ∈ joinWith c ps → x = c ∨ ∃ p ∈ ps, x ∈ p := by
  intro ps
  induction ps with
  | nil => intro h; cases h
  | cons p ps ih =>
    cases ps with
    | nil => intro h; exact Or.inr ⟨p, List.mem_cons_self p [], h⟩
    | cons q qs =>
      intro h
      have hj : joinWith c (p :: q :: qs) = p ++ c :: joinWith c (q :: qs) := rfl
      rw [hj] at h
      rcases List.mem_append.mp h with h | h
      · exact Or.inr ⟨p, List.mem_cons_self p _, h⟩
      · rcases List.mem_cons.mp h with rfl | h
        · exact Or.inl rfl
        · rcases ih h with rfl | ⟨r, hr, hxr⟩
          · exact Or.inl rfl
          · exact Or.inr ⟨r, List.mem_cons_of_mem p hr, hxr⟩

theorem mem_serializePair {x : Char} {p : String × String}
    (h : x ∈ serializePair p) :
    x = '=' ∨ x ∈ p.1.toList ∨ x ∈ p.2.toList := by
  unfold serializePair at h
  rcases List.mem_append.mp h with h | h
  · exact Or.inr (Or.inl h)
  · rcases List.mem_cons.mp h with rfl | h
    · exact Or.inl rfl
    · exact Or.inr (Or.inr h)

theorem mem_serializeQuery {x : Char} {q : List (String × String)}
    (h : x ∈ serializeQuery q) :
    x = '?' ∨ x = '&' ∨ ∃ p ∈ q, x ∈ serializePair p := by
  unfold serializeQuery at h
  cases q with
  | nil => cases h
  | cons p ps =>
    rcases List.mem_cons.mp h with rfl | h
    · exact Or.inl rfl
    · rcases mem_joinWith h with rfl | ⟨piece, hpiece, hxp⟩
      · exact Or.inr (Or.inl rfl)
      · obtain ⟨r, hr, rfl⟩ := List.mem_map.mp hpiece
        exact Or.inr (Or.inr ⟨r, hr, hxp⟩)

theorem serializePair_ne_nil (p : String × String) : serializePair p ≠ [] := by
  unfold serializePair
  simp

theorem parseQueryPairs_wf {q : List Char} (hq : '#' ∉ q) :
    ∀ p ∈ parseQueryPairs q,
      ('&' ∉ p.1.toList ∧ '=' ∉ p.1.toList ∧ '#' ∉ p.1.toList) ∧
      ('&' ∉ p.2.toList ∧ '#' ∉ p.2.toList) := by
  intro p hp
  unfold parseQueryPairs at hp
  obtain ⟨piece, hpiece, hpeq⟩ := List.mem_map.mp hp
  have hpf := List.mem_filter.mp hpiece
  have hamp : '&' ∉ piece := splitOnChar_not_mem piece hpf.1
  have hsub : ∀ x ∈ piece, x ∈ q := splitOnChar_subset piece hpf.1
  have hhash : '#' ∉ piece := fun h => hq (hsub _ h)
  subst hpeq
  cases hsplit : splitAtFirst '=' piece with
  | none =>
    have heq : '=' ∉ piece := splitAtFirst_eq_none.mp hsplit
    exact ⟨⟨hamp, heq, hhash⟩, List.not_mem_nil _, List.not_mem_nil _⟩
  | some kv =>
    obtain ⟨k, v⟩ := kv
    obtain ⟨hpe, hknot⟩ := splitAtFirst_eq_some hsplit
    refine ⟨⟨?_, ?_, ?_⟩, ?_, ?_⟩
    · exact fun h => hamp (hpe ▸ List.mem_append.mpr (Or.inl h))
    · exact hknot
    · exact fun h => hhash (hpe ▸ List.mem_append.mpr (Or.inl h))
    · exact fun h =>
        hamp (hpe ▸ List.mem_append.mpr (Or.inr (List.mem_cons_of_mem _ h)))
    · exact fun h =>
        hhash (hpe ▸ List.mem_append.mpr (Or.inr (List.mem_cons_of_mem _ h)))

theorem splitHash_fst {l : List Char} :
    '#' ∉ (splitHash l).1 ∧ ∀ x ∈ (splitHash l).1, x ∈ l := by
  unfold splitHash
  cases h : splitAtFirst '#' l with
  | none => exact ⟨splitAtFirst_eq_none.mp h, fun x hx => hx⟩
  | some bf =>
    obtain ⟨b, f⟩ := bf
    obtain ⟨hle, hnot⟩ := splitAtFirst_eq_some h
    exact ⟨hnot, fun x hx => hle ▸ List.mem_append.mpr (Or.inl hx)⟩

theorem splitQuery_fst {l : List Char} :
    '?' ∉ (splitQuery l).1 ∧ ∀ x ∈ (splitQuery l).1, x ∈ l := by
  unfold splitQuery
  cases h : splitAtFirst '?' l with
  | none => exact ⟨splitAtFirst_eq_none.mp h, fun x hx => hx⟩
  | some bq =>
    obtain ⟨b, q⟩ := bq
    obtain ⟨hle, hnot⟩ := splitAtFirst_eq_some h
    exact ⟨hnot, fun x hx => hle ▸ List.mem_append.mpr (Or.inl hx)⟩

theorem splitQuery_snd {l q : List Char} (h : (splitQuery l).2 = some q) :
    ∀ x ∈ q, x ∈ l := by
  unfold splitQuery at h
  cases hs : splitAtFirst '?' l with
  | none => rw [hs] at h; cases h
  | some bq =>
    obtain ⟨b, q'⟩ := bq
    rw [hs] at h
    cases h
    obtain ⟨hle, _⟩ := splitAtFirst_eq_some hs
    exact fun x hx =>
      hle ▸ List.mem_append.mpr (Or.inr (List.mem_cons_of_mem _ hx))

theorem splitHostPath_spec {hp : List Char} :
    ('/' ∉ (splitHostPath hp).1 ∧ ∀ x ∈ (splitHostPath hp).1, x ∈ hp) ∧
    ((∃ r, (splitHostPath hp).2 = '/' :: r) ∧
      ∀ x ∈ (splitHostPath hp).2, x = '/' ∨ x ∈ hp) := by
  unfold splitHostPath
  cases h : splitAtFirst '/' hp with
  | none =>
    refine ⟨⟨splitAtFirst_eq_none.mp h, fun x hx => hx⟩, ⟨[], rfl⟩, ?_⟩
    intro x hx
    rcases List.mem_cons.mp hx with rfl | hx
    · exact Or.inl rfl
    · cases hx
  | some hr =>
    obtain ⟨ho, pa⟩ := hr
    obtain ⟨hle, hnot⟩ := splitAtFirst_eq_some h
    refine ⟨⟨hnot, fun x hx => hle ▸ List.mem_append.mpr (Or.inl hx)⟩,
      ⟨pa, rfl⟩, ?_⟩
    intro x hx
    rcases List.mem_cons.mp hx with rfl | hx
    · exact Or.inl rfl
    · exact Or.inr (hle ▸ List.mem_append.mpr (Or.inr (List.mem_cons_of_mem _ hx)))

theorem parseAfterScheme_wf {scheme rest2 : List Char} {u : ParsedUrl}
    (hsch : scheme = "http".toList ∨ scheme = "https".toList)
    (h : parseAfterScheme scheme rest2 = some u) : ParseWF u := by
  unfold parseAfterScheme at h
  simp only [] at h
  by_cases hne : (splitHostPath (splitQuery (splitHash rest2).1).1).1 = []
  · rw [if_pos hne] at h; cases h
  · rw [if_neg hne] at h
    obtain ⟨hhashB, hsubB⟩ := @splitHash_fst rest2
    obtain ⟨hqB, hsubQ⟩ := @splitQuery_fst (splitHash rest2).1
    obtain ⟨⟨hslash, hsubH⟩, ⟨prest, hpshape⟩, hsubP⟩ :=
      @splitHostPath_spec (splitQuery (splitHash rest2).1).1
    cases h
    refine { scheme_ok := hsch, host_ne := hne, host_ok := ?_,
             path_shape := ⟨prest, hpshape⟩, path_ok := ?_,
             key_ok := ?_, val_ok := ?_ }
    · intro ch hch
      have hmemQ := hsubH ch hch
      have hmemB := hsubQ ch hmemQ
      exact ⟨fun e => hslash (e ▸ hch), fun e => hqB (e ▸ hmemQ),
        fun e => hhashB (e ▸ hmemB)⟩
    · intro ch hch
      rcases hsubP ch hch with rfl | hmemQ
      · exact ⟨by decide, by decide⟩
      · exact ⟨fun e => hqB (e ▸ hmemQ), fun e => hhashB (e ▸ hsubQ ch hmemQ)⟩
    · intro p hp
      cases hq2 : (splitQuery (splitHash rest2).1).2 with
      | none => rw [hq2] at hp; cases hp
      | some qraw =>
        rw [hq2] at hp
        have hhq : '#' ∉ qraw := fun hx => hhashB (splitQuery_snd hq2 '#' hx)
        exact (parseQueryPairs_wf hhq p hp).1
    · intro p hp
      cases hq2 : (splitQuery (splitHash rest2).1).2 with
      | none => rw [hq2] at hp; cases hp
      | some qraw =>
        rw [hq2] at hp
        have hhq : '#' ∉ qraw := fun hx => hhashB (splitQuery_snd hq2 '#' hx)
        exact (parseQueryPairs_wf hhq p hp).2

theorem parseUrl_wf {l : List Char} {u : ParsedUrl}
    (h : parseUrl l = some u) : ParseWF u := by
  unfold parseUrl at h
  cases hsp : splitAtFirst ':' l with
  | none => rw [hsp] at h; cases h
  | some pr =>
    obtain ⟨schemePart, rest⟩ := pr
    rw [hsp] at h
    simp only [] at h
    by_cases hsch : lowerChars schemePart = "http".toList ∨
        lowerChars schemePart = "https".toList
    · rw [if_pos hsch] at h
      split at h
      · exact parseAfterScheme_wf hsch h
      · cases h
    · rw [if_neg hsch] at h
      cases h

/-! ### Round trip: serialize then re-parse -/

theorem parseQueryPairs_serialize {q : List (String × String)} (hq : q ≠ [])
    (hk : ∀ p ∈ q, '&' ∉ p.1.toList ∧ '=' ∉ p.1.toList)
    (hv : ∀ p ∈ q, '&' ∉ p.2.toList) :
    parseQueryPairs (joinWith '&' (q.map serializePair)) = q := by
  unfold parseQueryPairs
  have hpieces : ∀ p ∈ q.map serializePair, '&' ∉ p := by
    intro p hp
    obtain ⟨r, hr, rfl⟩ := List.mem_map.mp hp
    intro hx
    rcases mem_serializePair hx with he | hk2 | hv2
    · exact absurd he (by decide)
    · exact (hk r hr).1 hk2
    · exact hv r hr hv2
  rw [splitOnChar_joinWith (by simpa using hq) hpieces]
  rw [List.filter_eq_self.mpr (by
    intro a ha
    obtain ⟨r, _, rfl⟩ := List.mem_map.mp ha
    simpa using serializePair_ne_nil r)]
  rw [List.map_map]
  have hcomp : ∀ p ∈ q,
      ((fun piece =>
        match splitAtFirst '=' piece with
        | none => (String.mk piece, String.mk [])
        | some (k, v) => (String.mk k, String.mk v)) ∘ serializePair) p
      = id p := by
    intro p hp
    show (match splitAtFirst '=' (serializePair p) with
      | none => (String.mk (serializePair p), String.mk [])
      | some (k, v) => (String.mk k, String.mk v)) = p
    rw [show serializePair p = p.1.toList ++ '=' :: p.2.toList from rfl,
      splitAtFirst_append (hk p hp).2]
    show (String.mk p.1.toList, String.mk p.2.toList) = p
    rw [string_mk_toList, string_mk_toList]
  rw [List.map_congr_left hcomp, List.map_id]

theorem parseAfterScheme_serialize {u : ParsedUrl} (hwf : NormWF u) :
    parseAfterScheme u.scheme (u.host ++ (u.path ++ serializeQuery u.query))
      = some u := by
  obtain ⟨prest, hpshape⟩ := hwf.path_shape
  have hno_hash : '#' ∉ u.host ++ (u.path ++ serializeQuery u.query) := by
    intro hx
    rcases List.mem_append.mp hx with hx | hx
    · exact (hwf.host_ok _ hx).2.2 rfl
    · rcases List.mem_append.mp hx with hx | hx
      · exact (hwf.path_ok _ hx).2 rfl
      · rcases mem_serializeQuery hx with he | he | ⟨p, hp, hxp⟩
        · exact absurd he (by decide)
        · exact absurd he (by decide)
        · rcases mem_serializePair hxp with he | he | he
          · exact absurd he (by decide)
          · exact (hwf.key_ok p hp).2.2 he
          · exact (hwf.val_ok p hp).2 he
  have hno_q_hp : '?' ∉ u.host ++ u.path := by
    intro hx
    rcases List.mem_append.mp hx with hx | hx
    · exact (hwf.host_ok _ hx).2.1 rfl
    · exact (hwf.path_ok _ hx).1 rfl
  have hslash_host : '/' ∉ u.host := fun hx => (hwf.host_ok _ hx).1 rfl
  have hhp : splitHostPath (u.host ++ u.path) = (u.host, u.path) := by
    unfold splitHostPath
    rw [hpshape, splitAtFirst_append hslash_host]
  unfold parseAfterScheme
  simp only []
  by_cases hq : u.query = []
  · have hsq : serializeQuery u.query = [] := by rw [hq]; rfl
    rw [hsq, List.append_nil] at hno_hash ⊢
    have h1 : splitHash (u.host ++ u.path) = (u.host ++ u.path, none) := by
      unfold splitHash
      rw [splitAtFirst_eq_none.mpr hno_hash]
    rw [h1]
    simp only []
    have h2 : splitQuery (u.host ++ u.path) = (u.host ++ u.path, none) := by
      unfold splitQuery
      rw [splitAtFirst_eq_none.mpr hno_q_hp]
    rw [h2]
    simp only []
    rw [hhp]
    simp only []
    rw [if_neg hwf.host_ne]
    rw [← hq, ← hwf.frag_none]
  · have hsq : serializeQuery u.query
        = '?' :: joinWith '&' (u.query.map serializePair) := by
      obtain ⟨p, ps, hq2⟩ := List.exists_cons_of_ne_nil hq
      rw [hq2]; rfl
    have hassoc : u.host ++ (u.path ++ serializeQuery u.query)
        = (u.host ++ u.path) ++ '?' :: joinWith '&' (u.query.map serializePair) := by
      rw [hsq, List.append_assoc]
    rw [hassoc] at hno_hash ⊢
    have h1 : splitHash ((u.host ++ u.path)
        ++ '?' :: joinWith '&' (u.query.map serializePair))
        = ((u.host ++ u.path) ++ '?' :: joinWith '&' (u.query.map serializePair),
           none) := by
      unfold splitHash
      rw [splitAtFirst_eq_none.mpr hno_hash]
    rw [h1]
    simp only []
    have h2 : splitQuery ((u.host ++ u.path)
        ++ '?' :: joinWith '&' (u.query.map serializePair))
        = (u.host ++ u.path, some (joinWith '&' (u.query.map serializePair))) := by
      unfold splitQuery
      rw [splitAtFirst_append hno_q_hp]
    rw [h2]
    simp only []
    rw [hhp]
    simp only []
    rw [if_neg hwf.host_ne]
    rw [parseQueryPairs_serialize hq
      (fun r hr => ⟨(hwf.key_ok r hr).1, (hwf.key_ok r hr).2.1⟩)
      (fun r hr => (hwf.val_ok r hr).1)]
    rw [← hwf.frag_none]

theorem parseUrl_serialize {u : ParsedUrl} (hwf : NormWF u) :
    parseUrl (serializeUrl u) = some u := by
  have hser : serializeUrl u
      = u.scheme ++ ':' :: '/' :: '/'
        :: (u.host ++ (u.path ++ serializeQuery u.query)) := by
    unfold serializeUrl
    rw [hwf.frag_none]
    simp [serializeFragment, List.cons_append, List.append_assoc]
  rw [hser]
  unfold parseUrl
  have hcolon : ':' ∉ u.scheme := by rw [hwf.scheme_https]; decide
  rw [splitAtFirst_append hcolon]
  simp only []
  have hlow : lowerChars u.scheme = u.scheme := by rw [hwf.scheme_https]; decide
  rw [hlow, if_pos (Or.inr hwf.scheme_https)]
  exact parseAfterScheme_serialize hwf

/-! ### Normalization establishes and preserves well-formedness -/

theorem normalizeMut_wf {u : ParsedUrl} (h : ParseWF u) :
    NormWF (normalizeMut u) := by
  have hq_sub : ∀ p ∈ (normalizeMut u).query, p ∈ u.query := by
    intro p hp
    unfold normalizeMut at hp
    simp only [] at hp
    exact (List.mem_filter.mp ((List.mem_insertionSort keyLe).mp hp)).1
  refine { scheme_ok := Or.inr rfl,
           host_ne := lowerChars_ne_nil h.host_ne,
           host_ok := ?_,
           path_shape := h.path_shape,
           path_ok := h.path_ok,
           key_ok := fun p hp => h.key_ok p (hq_sub p hp),
           val_ok := fun p hp => h.val_ok p (hq_sub p hp),
           scheme_https := rfl,
           host_lower := lowerChars_idem u.host,
           query_clean := ?_,
           query_sorted := List.sorted_insertionSort keyLe _,
           frag_none := rfl }
  · intro ch hch
    obtain ⟨c, hc, rfl⟩ := List.mem_map.mp hch
    obtain ⟨h1, h2, h3⟩ := h.host_ok c hc
    exact ⟨toLower_ne (by decide) h1, toLower_ne (by decide) h2,
      toLower_ne (by decide) h3⟩
  · intro p hp
    unfold normalizeMut at hp
    simp only [] at hp
    have := (List.mem_filter.mp ((List.mem_insertionSort keyLe).mp hp)).2
    simpa using this

theorem normalizeMut_eq_self {u : ParsedUrl} (h : NormWF u) :
    normalizeMut u = u := by
  unfold normalizeMut
  rw [List.filter_eq_self.mpr (fun p hp => by rw [h.query_clean p hp]; rfl),
    List.Sorted.insertionSort_eq h.query_sorted, h.host_lower,
    ← h.scheme_https, ← h.frag_none]

/-! ### Trailing-slash analysis -/

theorem getLast?_append_right {a b : List Char} (hb : b ≠ []) :
    (a ++ b).getLast? = b.getLast? := by
  rw [List.getLast?_append]
  cases h : b.getLast? with
  | none => exact absurd (List.getLast?_eq_none_iff.mp h) hb
  | some x => rfl

theorem joinSer_ne_nil {q : List (String × String)} (hq : q ≠ []) :
    joinWith '&' (q.map serializePair) ≠ [] := by
  cases q with
  | nil => exact absurd rfl hq
  | cons p ps =>
    cases ps with
    | nil => exact serializePair_ne_nil p
    | cons r rs =>
      have hj : joinWith '&' ((p :: r :: rs).map serializePair)
          = serializePair p ++ '&' :: joinWith '&' ((r :: rs).map serializePair) := rfl
      rw [hj]
      simp

theorem serialize_decomp {u : ParsedUrl} (hf : u.fragment = none) :
    serializeUrl u
      = ((u.scheme ++ ':' :: '/' :: '/' :: u.host) ++ u.path)
        ++ serializeQuery u.query := by
  unfold serializeUrl
  rw [hf]
  simp [serializeFragment, List.append_assoc, List.cons_append]

theorem pairwise_fst_le {l : List (String × String)} :
    List.Sorted keyLe l ↔
      List.Pairwise (fun s t : String => charListLe s.toList t.toList = true)
        (l.map Prod.fst) := by
  rw [List.pairwise_map]
  exact Iff.rfl

theorem sorted_keyLe_congr {l l' : List (String × String)}
    (h : l.map Prod.fst = l'.map Prod.fst) (hs : List.Sorted keyLe l) :
    List.Sorted keyLe l' := by
  rw [pairwise_fst_le] at hs ⊢
  rw [← h]
  exact hs

/-- One-step fixed point: normalizing the serialization of a `NormWF` URL
that does not trigger the trailing-slash removal returns it unchanged. -/
theorem normalizeUrl_serial_fix {w : ParsedUrl} (hwf : NormWF w)
    (hnd : ¬((serializeUrl w).getLast? = some '/' ∧ w.path ≠ ['/'])) :
    normalizeUrl (String.mk (serializeUrl w)) = String.mk (serializeUrl w) := by
  unfold normalizeUrl
  have htl : (String.mk (serializeUrl w)).toList = serializeUrl w := rfl
  rw [htl, parseUrl_serialize hwf]
  unfold normalizeCore
  simp only []
  rw [normalizeMut_eq_self hwf, if_neg hnd]

/-- Helper: `normalizeUrl` is idempotent on every `stableInput` — on input
outside the modelled grammar the identity fallback is trivially a fixed
point, and on a parsed input whose normalization has no removable trailing
slash one application reaches a fixed point.  The claim theorem
`normalizeUrl_idempotent_on_stable` restricts this to parsed inputs. -/
theorem normalizeUrl_idem_aux {x : String} (hx : stableInput x) :
    normalizeUrl (normalizeUrl x) = normalizeUrl x := by
  unfold stableInput at hx
  cases hp : parseUrl x.toList with
  | none =>
    have hxeq : normalizeUrl x = x := by unfold normalizeUrl; rw [hp]
    rw [hxeq]
    exact hxeq
  | some u =>
    rw [hp] at hx
    have hwf : NormWF (normalizeMut u) := normalizeMut_wf (parseUrl_wf hp)
    have hcore : normalizeUrl x = String.mk (normalizeCore u) := by
      unfold normalizeUrl; rw [hp]
    rw [hcore]
    unfold normalizeCore
    simp only []
    by_cases hdrop : (serializeUrl (normalizeMut u)).getLast? = some '/' ∧
        (normalizeMut u).path ≠ ['/']
    · rw [if_pos hdrop]
      have hCD : ¬((serializeUrl (normalizeMut u)).dropLast.getLast? = some '/' ∧
          ((normalizeMut u).query = [] → (normalizeMut u).path.dropLast ≠ ['/'])) :=
        fun hcd => hx ⟨hdrop.1, hdrop.2, hcd.1, hcd.2⟩
      by_cases hq : (normalizeMut u).query = []
      · -- the drop hits the path
        have hpne : (normalizeMut u).path ≠ [] := by
          obtain ⟨r, hr⟩ := hwf.path_shape
          rw [hr]; simp
        have hser : serializeUrl (normalizeMut u)
            = ((normalizeMut u).scheme ++ ':' :: '/' :: '/'
               :: (normalizeMut u).host) ++ (normalizeMut u).path := by
          rw [serialize_decomp hwf.frag_none, hq,
            show serializeQuery ([] : List (String × String)) = [] from rfl,
            List.append_nil]
        have hdrop_eq : (serializeUrl (normalizeMut u)).dropLast
            = serializeUrl { normalizeMut u with
                path := (normalizeMut u).path.dropLast } := by
          rw [hser, List.dropLast_append_of_ne_nil _ hpne,
            @serialize_decomp { normalizeMut u with
              path := (normalizeMut u).path.dropLast } hwf.frag_none]
          rw [show ({ normalizeMut u with
              path := (normalizeMut u).path.dropLast } : ParsedUrl).query
            = (normalizeMut u).query from rfl, hq,
            show serializeQuery ([] : List (String × String)) = [] from rfl,
            List.append_nil]
        have hwfw : NormWF { normalizeMut u with
            path := (normalizeMut u).path.dropLast } := by
          obtain ⟨r, hr⟩ := hwf.path_shape
          have hrne : r ≠ [] := by
            intro h0
            exact hdrop.2 (by rw [hr, h0])
          refine { scheme_ok := hwf.scheme_ok, host_ne := hwf.host_ne,
                   host_ok := hwf.host_ok,
                   path_shape := ⟨r.dropLast, ?_⟩,
                   path_ok := ?_,
                   key_ok := hwf.key_ok, val_ok := hwf.val_ok,
                   scheme_https := hwf.scheme_https,
                   host_lower := hwf.host_lower,
                   query_clean := hwf.query_clean,
                   query_sorted := hwf.query_sorted,
                   frag_none := hwf.frag_none }
          · show (normalizeMut u).path.dropLast = '/' :: r.dropLast
            rw [hr, dropLast_cons_ne_nil hrne]
          · intro ch hch
            exact hwf.path_ok ch ((List.dropLast_sublist _).subset hch)
        have hnodrop : ¬((serializeUrl { normalizeMut u with
            path := (normalizeMut u).path.dropLast }).getLast? = some '/' ∧
            ({ normalizeMut u with
               path := (normalizeMut u).path.dropLast } : ParsedUrl).path ≠ ['/']) := by
          intro hcd
          exact hCD ⟨hdrop_eq ▸ hcd.1, fun _ => hcd.2⟩
        rw [hdrop_eq]
        exact normalizeUrl_serial_fix hwfw hnodrop
      · -- the drop hits the final query value
        have hqd := List.dropLast_concat_getLast hq
        have hjs_ne : joinWith '&' ((normalizeMut u).query.map serializePair) ≠ [] :=
          joinSer_ne_nil hq
        have hsq : serializeQuery (normalizeMut u).query
            = '?' :: joinWith '&' ((normalizeMut u).query.map serializePair) := by
          obtain ⟨p, ps, hq2⟩ := List.exists_cons_of_ne_nil hq
          rw [hq2]; rfl
        have hser : serializeUrl (normalizeMut u)
            = (((normalizeMut u).scheme ++ ':' :: '/' :: '/'
                :: (normalizeMut u).host) ++ (normalizeMut u).path)
              ++ '?' :: joinWith '&' ((normalizeMut u).query.map serializePair) := by
          rw [serialize_decomp hwf.frag_none, hsq]
        have hmap : (normalizeMut u).query.map serializePair
            = (normalizeMut u).query.dropLast.map serializePair
              ++ [serializePair ((normalizeMut u).query.getLast hq)] := by
          conv_lhs => rw [← hqd]
          rw [List.map_append]
          rfl
        -- the last serialized character is the last character of the last value
        have hlast : (serializeUrl (normalizeMut u)).getLast?
            = ('=' :: ((normalizeMut u).query.getLast hq).2.toList).getLast? := by
          rw [hser, getLast?_append_right (by simp), getLast?_cons_ne_nil hjs_ne,
            hmap, joinWith_last (serializePair_ne_nil _),
            show serializePair ((normalizeMut u).query.getLast hq)
              = ((normalizeMut u).query.getLast hq).1.toList
                ++ '=' :: ((normalizeMut u).query.getLast hq).2.toList from rfl,
            getLast?_append_right (by simp)]
        have hvne : ((normalizeMut u).query.getLast hq).2.toList ≠ [] := by
          intro h0
          have := hdrop.1
          rw [hlast, h0] at this
          exact absurd (Option.some.inj this) (by decide)
        have hpair_drop : (serializePair ((normalizeMut u).query.getLast hq)).dropLast
            = serializePair (((normalizeMut u).query.getLast hq).1,
                String.mk ((normalizeMut u).query.getLast hq).2.toList.dropLast) := by
          show (((normalizeMut u).query.getLast hq).1.toList
              ++ '=' :: ((normalizeMut u).query.getLast hq).2.toList).dropLast = _
          rw [List.dropLast_append_of_ne_nil _ (show ('=' ::
              ((normalizeMut u).query.getLast hq).2.toList) ≠ [] by simp),
            dropLast_cons_ne_nil hvne]
          rfl
        have hwq_ne : (normalizeMut u).query.dropLast
            ++ [(((normalizeMut u).query.getLast hq).1,
                 String.mk ((normalizeMut u).query.getLast hq).2.toList.dropLast)] ≠ [] := by
          simp
        have hdrop_eq : (serializeUrl (normalizeMut u)).dropLast
            = serializeUrl { normalizeMut u with
                query := (normalizeMut u).query.dropLast
                  ++ [(((normalizeMut u).query.getLast hq).1,
                       String.mk ((normalizeMut u).query.getLast hq).2.toList.dropLast)] } := by
          rw [hser, List.dropLast_append_of_ne_nil _ (show ('?' :: joinWith '&'
              ((normalizeMut u).query.map serializePair)) ≠ [] by simp),
            dropLast_cons_ne_nil hjs_ne, hmap,
            joinWith_dropLast (serializePair_ne_nil _), hpair_drop,
            @serialize_decomp { normalizeMut u with
              query := (normalizeMut u).query.dropLast
                ++ [(((normalizeMut u).query.getLast hq).1,
                     String.mk ((normalizeMut u).query.getLast hq).2.toList.dropLast)] }
              hwf.frag_none]
          rw [show serializeQuery ((normalizeMut u).query.dropLast
              ++ [(((normalizeMut u).query.getLast hq).1,
                   String.mk ((normalizeMut u).query.getLast hq).2.toList.dropLast)])
            = '?' :: joinWith '&' (((normalizeMut u).query.dropLast
              ++ [(((normalizeMut u).query.getLast hq).1,
                   String.mk ((normalizeMut u).query.getLast hq).2.toList.dropLast)]).map
                serializePair) from by
            obtain ⟨p, ps, hq2⟩ := List.exists_cons_of_ne_nil hwq_ne
            rw [hq2]; rfl]
          rw [List.map_append]
          rfl
        have hlastmem : (normalizeMut u).query.getLast hq ∈ (normalizeMut u).query :=
          List.getLast_mem hq
        have hwfw : NormWF { normalizeMut u with
            query := (normalizeMut u).query.dropLast
              ++ [(((normalizeMut u).query.getLast hq).1,
                   String.mk ((normalizeMut u).query.getLast hq).2.toList.dropLast)] } := by
          refine { scheme_ok := hwf.scheme_ok, host_ne := hwf.host_ne,
                   host_ok := hwf.host_ok, path_shape := hwf.path_shape,
                   path_ok := hwf.path_ok,
                   key_ok := ?_, val_ok := ?_,
                   scheme_https := hwf.scheme_https,
                   host_lower := hwf.host_lower,
                   query_clean := ?_,
                   query_sorted := ?_,
                   frag_none := hwf.frag_none }
          · intro p hp
            rcases List.mem_append.mp hp with hp | hp
            · exact hwf.key_ok p ((List.dropLast_sublist _).subset hp)
            · rcases List.mem_cons.mp hp with rfl | hp
              · exact hwf.key_ok ((normalizeMut u).query.getLast hq) hlastmem
              · cases hp
          · intro p hp
            rcases List.mem_append.mp hp with hp | hp
            · exact hwf.val_ok p ((List.dropLast_sublist _).subset hp)
            · rcases List.mem_cons.mp hp with rfl | hp
              · refine ⟨fun hc => (hwf.val_ok _ hlastmem).1
                  ((List.dropLast_sublist _).subset hc),
                  fun hc => (hwf.val_ok _ hlastmem).2
                  ((List.dropLast_sublist _).subset hc)⟩
              · cases hp
          · intro p hp
            rcases List.mem_append.mp hp with hp | hp
            · exact hwf.query_clean p ((List.dropLast_sublist _).subset hp)
            · rcases List.mem_cons.mp hp with rfl | hp
              · exact hwf.query_clean ((normalizeMut u).query.getLast hq) hlastmem
              · cases hp
          · refine sorted_keyLe_congr ?_ hwf.query_sorted
            conv_lhs => rw [← hqd]
            rw [List.map_append, List.map_append]
            rfl
        have hnodrop : ¬((serializeUrl { normalizeMut u with
            query := (normalizeMut u).query.dropLast
              ++ [(((normalizeMut u).query.getLast hq).1,
                   String.mk ((normalizeMut u).query.getLast hq).2.toList.dropLast)] }).getLast?
              = some '/' ∧
            ({ normalizeMut u with
               query := (normalizeMut u).query.dropLast
                 ++ [(((normalizeMut u).query.getLast hq).1,
                      String.mk ((normalizeMut u).query.getLast hq).2.toList.dropLast)] }
              : ParsedUrl).path ≠ ['/']) := by
          intro hcd
          exact hCD ⟨hdrop_eq ▸ hcd.1, fun hqe => absurd hqe hq⟩
        rw [hdrop_eq]
        exact normalizeUrl_serial_fix hwfw hnodrop
    · rw [if_neg hdrop]
      exact normalizeUrl_serial_fix hwf hdrop

/-! ### Normalization identifies equivalent URLs (claim C2 machinery) -/

theorem normalizeUrl_equiv {s1 s2 : String} {u1 u2 : ParsedUrl}
    (h1 : parseUrl s1.toList = some u1) (h2 : parseUrl s2.toList = some u2)
    (hhost : lowerChars u1.host = lowerChars u2.host)
    (hquery : ((u1.query.filter
        (fun p => ! TRACKING_PARAMS.contains p.1)).insertionSort keyLe)
      = ((u2.query.filter
        (fun p => ! TRACKING_PARAMS.contains p.1)).insertionSort keyLe))
    (hpath : u1.path = u2.path ∨
      (u1.query.filter (fun p => ! TRACKING_PARAMS.contains p.1) = [] ∧
       u1.path.getLast? ≠ some '/' ∧ u2.path = u1.path ++ ['/'])) :
    normalizeUrl s1 = normalizeUrl s2 := by
  have hw1 := parseUrl_wf h1
  have hc1 : normalizeUrl s1 = String.mk (normalizeCore u1) := by
    unfold normalizeUrl; rw [h1]
  have hc2 : normalizeUrl s2 = String.mk (normalizeCore u2) := by
    unfold normalizeUrl; rw [h2]
  rw [hc1, hc2]
  rcases hpath with hp | ⟨hf1, hlast1, hp2⟩
  · have hmut : normalizeMut u1 = normalizeMut u2 := by
      show ParsedUrl.mk "https".toList (lowerChars u1.host) u1.path
          ((u1.query.filter
            (fun p => ! TRACKING_PARAMS.contains p.1)).insertionSort keyLe) none
        = ParsedUrl.mk "https".toList (lowerChars u2.host) u2.path
          ((u2.query.filter
            (fun p => ! TRACKING_PARAMS.contains p.1)).insertionSort keyLe) none
      rw [hhost, hquery, hp]
    unfold normalizeCore
    rw [hmut]
  · have hp1ne : u1.path ≠ [] := by
      obtain ⟨r, hr⟩ := hw1.path_shape
      rw [hr]; simp
    have hf2 : u2.query.filter (fun p => ! TRACKING_PARAMS.contains p.1) = [] := by
      have hperm := List.perm_insertionSort keyLe
        (u2.query.filter (fun p => ! TRACKING_PARAMS.contains p.1))
      rw [← hquery, hf1] at hperm
      exact hperm.symm.eq_nil
    have hm1 : normalizeMut u1
        = ParsedUrl.mk "https".toList (lowerChars u1.host) u1.path [] none := by
      show ParsedUrl.mk "https".toList (lowerChars u1.host) u1.path
          ((u1.query.filter
            (fun p => ! TRACKING_PARAMS.contains p.1)).insertionSort keyLe) none = _
      rw [hf1]
      rfl
    have hm2 : normalizeMut u2
        = ParsedUrl.mk "https".toList (lowerChars u1.host)
            (u1.path ++ ['/']) [] none := by
      show ParsedUrl.mk "https".toList (lowerChars u2.host) u2.path
          ((u2.query.filter
            (fun p => ! TRACKING_PARAMS.contains p.1)).insertionSort keyLe) none = _
      rw [hf2, ← hhost, hp2]
      rfl
    have hs1 : serializeUrl
        (ParsedUrl.mk "https".toList (lowerChars u1.host) u1.path [] none)
        = ("https".toList ++ ':' :: '/' :: '/' :: lowerChars u1.host)
          ++ u1.path := by
      rw [@serialize_decomp
        (ParsedUrl.mk "https".toList (lowerChars u1.host) u1.path [] none) rfl]
      rw [show serializeQuery ([] : List (String × String)) = [] from rfl,
        List.append_nil]
    have hs2 : serializeUrl
        (ParsedUrl.mk "https".toList (lowerChars u1.host) (u1.path ++ ['/']) [] none)
        = ("https".toList ++ ':' :: '/' :: '/' :: lowerChars u1.host)
          ++ (u1.path ++ ['/']) := by
      rw [@serialize_decomp
        (ParsedUrl.mk "https".toList (lowerChars u1.host)
          (u1.path ++ ['/']) [] none) rfl]
      rw [show serializeQuery ([] : List (String × String)) = [] from rfl,
        List.append_nil]
    unfold normalizeCore
    simp only []
    rw [hm1, hm2, hs1, hs2]
    simp only []
    rw [if_neg (by
      intro hcd
      exact hlast1 (by rw [← getLast?_append_right hp1ne]; exact hcd.1))]
    rw [if_pos (by
      constructor
      · rw [getLast?_append_right (by simp : u1.path ++ ['/'] ≠ []),
          List.getLast?_concat]
      · intro hpe
        apply hp1ne
        have hlen := congrArg List.length hpe
        simp at hlen
        exact hlen)]
    rw [← List.append_assoc, List.dropLast_concat]

/-- Character injectivity through the code point. -/
theorem char_toNat_inj {c d : Char} (h : c.toNat = d.toNat) : c = d := by
  have h2 : c.val.toBitVec.toNat = d.val.toBitVec.toNat := h
  have h3 : c.val.toBitVec = d.val.toBitVec := BitVec.eq_of_toNat_eq h2
  have h4 : c.val = d.val := by
    rcases hc : c.val with ⟨cv⟩
    rcases hd : d.val with ⟨dv⟩
    rw [hc, hd] at h3
    simp only [UInt32.toBitVec] at h3
    rw [h3]
  exact Char.ext h4

theorem charListLe_refl (a : List Char) : charListLe a a = true :=
  (charListLe_total a a).elim id id

theorem charListLe_antisymm :
    ∀ a b, charListLe a b = true → charListLe b a = true → a = b := by
  intro a
  induction a with
  | nil =>
    intro b _ hba
    cases b with
    | nil => rfl
    | cons d ds => simp [charListLe] at hba
  | cons c cs ih =>
    intro b hab hba
    cases b with
    | nil => simp [charListLe] at hab
    | cons d ds =>
      simp only [charListLe] at hab hba
      by_cases h1 : c.toNat < d.toNat
      · rw [if_neg (by omega), if_pos h1] at hba
        cases hba
      · by_cases h2 : d.toNat < c.toNat
        · rw [if_neg h1, if_pos h2] at hab
          cases hab
        · rw [if_neg h1, if_neg h2] at hab
          rw [if_neg h2, if_neg h1] at hba
          have hcd : c = d := char_toNat_inj (by omega)
          rw [hcd, ih ds hab hba]

theorem string_eq_of_toList {s t : String} (h : s.toList = t.toList) : s = t := by
  rw [← string_mk_toList s, ← string_mk_toList t, h]

/-- Two pairs each at most the other under the key order have equal keys. -/
theorem pair_key_eq_of_le {a b : String × String}
    (hab : keyLe a b) (hba : keyLe b a) : a.1 = b.1 :=
  string_eq_of_toList (charListLe_antisymm _ _ hab hba)

/-- A stable sort is determined by the multiset when the surviving keys are
pairwise distinct: two sorted, permutation-equivalent pair lists whose
first list has no repeated key are equal. -/
theorem sorted_perm_key_nodup_eq :
    ∀ {l1 l2 : List (String × String)}, List.Perm l1 l2 →
      List.Sorted keyLe l1 → List.Sorted keyLe l2 →
      (l1.map Prod.fst).Nodup → l1 = l2 := by
  intro l1
  induction l1 with
  | nil =>
    intro l2 hp _ _ _
    exact hp.symm.eq_nil.symm
  | cons a l1 ih =>
    intro l2 hp hs1 hs2 hnd
    cases l2 with
    | nil => exact hp.eq_nil
    | cons b l2 =>
      have ha2 : a ∈ b :: l2 := hp.mem_iff.mp (List.mem_cons_self a l1)
      have hb1 : b ∈ a :: l1 := hp.mem_iff.mpr (List.mem_cons_self b l2)
      have hs1p := List.sorted_cons.mp hs1
      have hs2p := List.sorted_cons.mp hs2
      have hndp : a.1 ∉ l1.map Prod.fst ∧ (l1.map Prod.fst).Nodup := by
        rw [List.map_cons] at hnd
        exact List.nodup_cons.mp hnd
      have hab : keyLe a b := by
        rcases List.mem_cons.mp hb1 with hba | hbm
        · rw [hba]; exact charListLe_refl _
        · exact hs1p.1 b hbm
      have hba : keyLe b a := by
        rcases List.mem_cons.mp ha2 with hab2 | ham
        · rw [hab2]; exact charListLe_refl _
        · exact hs2p.1 a ham
      have haeqb : a = b := by
        rcases List.mem_cons.mp ha2 with h | _
        · exact h
        · rcases List.mem_cons.mp hb1 with h | hbm
          · exact h.symm
          · exact absurd
              (pair_key_eq_of_le hab hba ▸ List.mem_map_of_mem Prod.fst hbm)
              hndp.1
      have hp2 : List.Perm l1 l2 := by
        rw [← haeqb] at hp
        exact hp.cons_inv
      rw [← haeqb, ih hp2 hs1p.2 hs2p.2 hndp.2]

/-- The stable key sort sends permutation-equivalent pair lists with
pairwise-distinct keys to the same sorted list. -/
theorem perm_nodup_sort_eq {l1 l2 : List (String × String)}
    (hperm : List.Perm l1 l2) (hnd : (l1.map Prod.fst).Nodup) :
    l1.insertionSort keyLe = l2.insertionSort keyLe := by
  have hp : List.Perm (l1.insertionSort keyLe) (l2.insertionSort keyLe) :=
    ((List.perm_insertionSort keyLe l1).trans hperm).trans
      (List.perm_insertionSort keyLe l2).symm
  have hnd1 : ((l1.insertionSort keyLe).map Prod.fst).Nodup :=
    (((List.perm_insertionSort keyLe l1).map Prod.fst).nodup_iff).mpr hnd
  exact sorted_perm_key_nodup_eq hp
    (List.sorted_insertionSort keyLe l1) (List.sorted_insertionSort keyLe l2) hnd1

/-! ### Claim theorems for the URL normalizer (C2, C3) -/

theorem sorted_max_getLast? {l : List Nat} (hs : List.Sorted (· ≤ ·) l) :
    ∀ m, l.getLast? = some m → ∀ x ∈ l, x ≤ m := by
  induction l with
  | nil => intro m hm; cases hm
  | cons a t ih =>
    intro m hm x hx
    cases t with
    | nil =>
      simp only [List.getLast?_singleton, Option.some.injEq] at hm
      rcases List.mem_cons.mp hx with rfl | hx
      · exact hm ▸ Nat.le_refl x
      · cases hx
    | cons b t2 =>
      have hm2 : (b :: t2).getLast? = some m := by
        rw [← hm, List.getLast?_cons_cons]
      rcases List.mem_cons.mp hx with rfl | hx
      · exact Nat.le_trans
          ((List.sorted_cons.mp hs).1 b (List.mem_cons_self b t2))
          (ih hs.of_cons m hm2 b (List.mem_cons_self b t2))
      · exact ih hs.of_cons m hm2 x hx

theorem sorted_headD_eq {l nums : List Nat} (hperm : l.Perm nums)
    (hs : List.Sorted (· ≤ ·) l) (hne : nums ≠ []) {S : Nat} (hS : S ∈ nums)
    (hSle : ∀ n ∈ nums, S ≤ n) : l.headD 0 = S := by
  cases l with
  | nil => exact absurd (hperm.symm.eq_nil) hne
  | cons a t =>
    rw [List.headD_cons]
    have haS : S ≤ a := hSle a (hperm.mem_iff.mp (List.mem_cons_self a t))
    have hSl : S ∈ a :: t := hperm.mem_iff.mpr hS
    rcases List.mem_cons.mp hSl with rfl | hSt
    · rfl
    · exact Nat.le_antisymm ((List.sorted_cons.mp hs).1 S hSt) haS

theorem sorted_getLastD_eq {l nums : List Nat} (hperm : l.Perm nums)
    (hs : List.Sorted (· ≤ ·) l) (hne : nums ≠ []) {E : Nat} (hE : E ∈ nums)
    (hEge : ∀ n ∈ nums, n ≤ E) : l.getLastD 0 = E := by
  have hlne : l ≠ [] := fun h0 => hne ((h0 ▸ hperm).symm.eq_nil)
  cases hm : l.getLast? with
  | none => exact absurd (List.getLast?_eq_none_iff.mp hm) hlne
  | some m =>
    have hmem : m ∈ nums := hperm.mem_iff.mp (List.mem_of_getLast?_eq_some hm)
    have h1 : m ≤ E := hEge m hmem
    have h2 : E ≤ m := sorted_max_getLast? hs m hm E (hperm.mem_iff.mpr hE)
    rw [List.getLastD_eq_getLast?, hm]
    exact Nat.le_antisymm h1 h2

/-- Claim C5: EFTA inference emits exactly the arithmetically remaining
URLs.  First conjunct: with fewer than two EFTA-numbered PDFs nothing is
emitted.  Second conjunct: when the collected numbers have smallest
element S and largest element E and a template was observed, the result is
one speculative URL per integer from E+1 through S + totalPages*perPage -
1, each zero-padded to 8 digits into the observed template (with title
`EFTA<padded>` and file type pdf). -/
theorem inferEftaUrls_spec :
    (∀ knownPdfs T P hub (nums : List Nat) tmpl,
      collectEfta knownPdfs = (nums, tmpl) → nums.length < 2 →
      inferEftaUrls knownPdfs T P hub = []) ∧
    (∀ knownPdfs T P hub (nums : List Nat) tmpl (S E : Nat),
      collectEfta knownPdfs = (nums, some tmpl) → 2 ≤ nums.length →
      S ∈ nums → (∀ n ∈ nums, S ≤ n) →
      E ∈ nums → (∀ n ∈ nums, n ≤ E) →
      inferEftaUrls knownPdfs T P hub
        = (List.range ((S : Int) + (T * P : Nat) - 1 - (E : Int)).toNat).map
            (fun i =>
              { url := String.mk (replaceFirst "{NUM}".toList
                  (padStart8 (Nat.toDigits 10 (E + 1 + i))) tmpl),
                title := String.mk ("EFTA".toList
                  ++ padStart8 (Nat.toDigits 10 (E + 1 + i))),
                sourceHub := hub,
                fileType := "pdf" })) := by
  constructor
  · intro knownPdfs T P hub nums tmpl hc hlen
    unfold inferEftaUrls
    rw [hc]
    cases tmpl with
    | none => rfl
    | some t =>
      simp only []
      rw [if_pos hlen]
  · intro knownPdfs T P hub nums tmpl S E hc hlen hS hSle hE hEge
    unfold inferEftaUrls
    rw [hc]
    simp only []
    rw [if_neg (by omega)]
    have hne : nums ≠ [] := by
      intro h0
      rw [h0] at hlen
      cases hlen
    have hhead : (nums.insertionSort (· ≤ ·)).headD 0 = S :=
      sorted_headD_eq (List.perm_insertionSort _ nums)
        (List.sorted_insertionSort _ nums) hne hS hSle
    have hlast : (nums.insertionSort (· ≤ ·)).getLastD 0 = E :=
      sorted_getLastD_eq (List.perm_insertionSort _ nums)
        (List.sorted_insertionSort _ nums) hne hE hEge
    rw [hhead, hlast]

set_option maxRecDepth 100000 in
/-- Witness for `inferEftaUrls_spec` at the spec's concrete scenario:
50 known PDFs numbered 1..50, 4 detected pages at 50 per page, yielding
exactly the 150 URLs `EFTA00000051.pdf` .. `EFTA00000200.pdf`. -/
theorem inferEftaUrls_spec_witness :
    collectEfta eftaPage1
      = ((List.range 50).map (· + 1),
         some "https://www.justice.gov/files/EFTA{NUM}.pdf".toList) ∧
    inferEftaUrls eftaPage1 4 50 "hub"
      = (List.range 150).map (fun i =>
          { url := String.mk (replaceFirst "{NUM}".toList
              (padStart8 (Nat.toDigits 10 (51 + i)))
              "https://www.justice.gov/files/EFTA{NUM}.pdf".toList),
            title := String.mk ("EFTA".toList
              ++ padStart8 (Nat.toDigits 10 (51 + i))),
            sourceHub := "hub",
            fileType := "pdf" }) :=
  ⟨by decide,
   inferEftaUrls_spec.2 eftaPage1 4 50 "hub" ((List.range 50).map (· + 1))
     "https://www.justice.gov/files/EFTA{NUM}.pdf".toList 1 50
     (by decide) (by decide) (by decide) (by decide) (by decide) (by decide)⟩

/-! ### Quality / status decision table (claim C4) -/

/-- Claim C4 counterexample: the persisted quality score is NOT exactly
characters-per-page — a 40-character, 3-page PDF has 40/3 = 13.333…
characters per page but the code stores `Math.round(cpp*100)/100` =
13.33. -/
theorem computeQuality_rounding_cx :
    (computeQuality "0123456789012345678901234567890123456789" 3 "pdf").1
      ≠ (40 : Rat) / 3 := by
  have hlen : ("0123456789012345678901234567890123456789" : String).length = 40 :=
    rfl
  have h : (computeQuality "0123456789012345678901234567890123456789" 3 "pdf").1
      = roundTo2 ((40 : Rat) / 3) := by
    unfold computeQuality
    rw [if_neg (by push_neg; exact ⟨rfl, by omega⟩)]
    rw [hlen]
    norm_num
  rw [h]
  unfold roundTo2
  rw [show round ((40 : Rat) / 3 * 100) = 1333 from by
    rw [round_eq]
    rw [show ((40 : Rat) / 3 * 100 + 1 / 2) = 8003 / 6 from by norm_num]
    rw [Int.floor_eq_iff]
    norm_num]
  norm_num

/-- Claim C4 (amended): the final status follows the decision table in
priority order — `needs_ocr` exactly when the document is a PDF with
pageCount > 0 whose characters-per-page is below the threshold 50;
otherwise `indexed` exactly when the extracted text is longer than 50
characters; otherwise `error`.  The quality score is characters-per-page
rounded to two decimals (`Math.round(cpp*100)/100`) for such PDFs, and 100
or 0 (any text vs none) with `needsOcr = false` for non-PDFs and zero-page
PDFs. -/
theorem quality_status_spec (text : String) (pageCount : Nat)
    (fileType : String) :
    (finalStatus text (computeQuality text pageCount fileType).2 = "needs_ocr"
      ↔ (fileType = "pdf" ∧ 0 < pageCount ∧
         (text.length : Rat) / (pageCount : Rat) < 50)) ∧
    (¬(fileType = "pdf" ∧ 0 < pageCount ∧
        (text.length : Rat) / (pageCount : Rat) < 50) →
      (finalStatus text (computeQuality text pageCount fileType).2 = "indexed"
        ↔ 50 < text.length)) ∧
    (¬(fileType = "pdf" ∧ 0 < pageCount ∧
        (text.length : Rat) / (pageCount : Rat) < 50) →
      ¬ 50 < text.length →
      finalStatus text (computeQuality text pageCount fileType).2 = "error") ∧
    (fileType = "pdf" ∧ 0 < pageCount →
      (computeQuality text pageCount fileType).1
        = roundTo2 ((text.length : Rat) / (pageCount : Rat))) ∧
    ((fileType ≠ "pdf" ∨ pageCount = 0) →
      (computeQuality text pageCount fileType).1
          = (if text.length > 0 then (100 : Rat) else 0) ∧
        (computeQuality text pageCount fileType).2 = false) := by
  have hth : ((MIN_QUALITY_THRESHOLD : Nat) : Rat) = 50 := by
    norm_num [MIN_QUALITY_THRESHOLD]
  by_cases h1 : fileType ≠ "pdf" ∨ pageCount = 0
  · have hcq : computeQuality text pageCount fileType
        = (if text.length > 0 then (100 : Rat) else 0, false) := by
      unfold computeQuality
      rw [if_pos h1]
    have hnot : ¬(fileType = "pdf" ∧ 0 < pageCount ∧
        (text.length : Rat) / (pageCount : Rat) < 50) := by
      rintro ⟨hf, hpc, _⟩
      rcases h1 with h1 | h1
      · exact h1 hf
      · omega
    have hfs : finalStatus text false
        = if text ≠ "" ∧ text.length > 50 then "indexed" else "error" := by
      unfold finalStatus
      rw [if_neg (by simp)]
    rw [hcq]
    refine ⟨?_, fun _ => ?_, fun _ hlen => ?_, ?_, fun _ => ⟨rfl, rfl⟩⟩
    · rw [hfs]
      constructor
      · intro h
        exfalso
        by_cases hc : text ≠ "" ∧ text.length > 50
        · rw [if_pos hc] at h; exact absurd h (by decide)
        · rw [if_neg hc] at h; exact absurd h (by decide)
      · intro h
        exact absurd h hnot
    · rw [hfs]
      constructor
      · intro h
        by_cases hc : text ≠ "" ∧ text.length > 50
        · exact hc.2
        · rw [if_neg hc] at h; exact absurd h (by decide)
      · intro h
        rw [if_pos ⟨fun he => by rw [he] at h; simp at h, h⟩]
    · rw [hfs, if_neg (fun hc => hlen hc.2)]
    · rintro ⟨hf, hpc⟩
      rcases h1 with h1 | h1
      · exact absurd hf h1
      · omega
  · push_neg at h1
    obtain ⟨hf, hpc⟩ := h1
    have hcq : computeQuality text pageCount fileType
        = (roundTo2 ((text.length : Rat) / (pageCount : Rat)),
           decide ((text.length : Rat) / (pageCount : Rat)
             < ((MIN_QUALITY_THRESHOLD : Nat) : Rat))) := by
      unfold computeQuality
      rw [if_neg (by push_neg; exact ⟨hf, hpc⟩)]
    rw [hcq]
    by_cases hocr : (text.length : Rat) / (pageCount : Rat) < 50
    · have hd : decide ((text.length : Rat) / (pageCount : Rat)
          < ((MIN_QUALITY_THRESHOLD : Nat) : Rat)) = true := by
        rw [hth]
        exact decide_eq_true hocr
      have hfs : finalStatus text true = "needs_ocr" := rfl
      rw [hd]
      refine ⟨?_, fun hn => ?_, fun hn _ => ?_, fun _ => rfl, fun hc => ?_⟩
      · rw [hfs]
        exact ⟨fun _ => ⟨hf, by omega, hocr⟩, fun _ => rfl⟩
      · exact absurd ⟨hf, by omega, hocr⟩ hn
      · exact absurd ⟨hf, by omega, hocr⟩ hn
      · rcases hc with hc | hc
        · exact absurd hf hc
        · omega
    · have hd : decide ((text.length : Rat) / (pageCount : Rat)
          < ((MIN_QUALITY_THRESHOLD : Nat) : Rat)) = false := by
        rw [hth]
        exact decide_eq_false hocr
      have hfs : finalStatus text false
          = if text ≠ "" ∧ text.length > 50 then "indexed" else "error" := by
        unfold finalStatus
        rw [if_neg (by simp)]
      rw [hd]
      refine ⟨?_, fun _ => ?_, fun _ hlen => ?_, fun _ => rfl, fun hc => ?_⟩
      · rw [hfs]
        constructor
        · intro h
          exfalso
          by_cases hc : text ≠ "" ∧ text.length > 50
          · rw [if_pos hc] at h; exact absurd h (by decide)
          · rw [if_neg hc] at h; exact absurd h (by decide)
        · rintro ⟨_, _, hlt⟩
          exact absurd hlt hocr
      · rw [hfs]
        constructor
        · intro h
          by_cases hc : text ≠ "" ∧ text.length > 50
          · exact hc.2
          · rw [if_neg hc] at h; exact absurd h (by decide)
        · intro h
          rw [if_pos ⟨fun he => by rw [he] at h; simp at h, h⟩]
      · rw [hfs, if_neg (fun hc => hlen hc.2)]
      · rcases hc with hc | hc
        · exact absurd hf hc
        · omega

/-- Witness for `quality_status_spec`: the spec's example — a 3-page PDF
with 40 extracted characters (13.33 chars/page, below the 50 threshold) is
flagged `needs_ocr`; an HTML page with 60 characters is `indexed`. -/
theorem quality_status_spec_witness :
    finalStatus "0123456789012345678901234567890123456789"
      (computeQuality "0123456789012345678901234567890123456789" 3 "pdf").2
      = "needs_ocr" ∧
    finalStatus "012345678901234567890123456789012345678901234567890123456789"
      (computeQuality
        "012345678901234567890123456789012345678901234567890123456789"
        1 "html").2
      = "indexed" :=
  ⟨(quality_status_spec "0123456789012345678901234567890123456789" 3 "pdf").1.mpr
      ⟨rfl, by decide, by
        rw [show ("0123456789012345678901234567890123456789" : String).length
          = 40 from rfl]
        norm_num⟩,
   ((quality_status_spec
        "012345678901234567890123456789012345678901234567890123456789"
        1 "html").2.1 (by rintro ⟨hf, _, _⟩; exact absurd hf (by decide))).mpr
      (by decide)⟩

/-! ### Cross-source deduplication (claim C6) -/

/-- Invariant of the `deduplicateUrls` fold: keys are distinct, every
processed item's canonical URL has an entry, and every entry carries the
first processed item with its canonical URL. -/
theorem dedup_fold_inv :
    ∀ (l : List TaggedUrl) (m : List (String × DeduplicatedDoc))
      (pre : List TaggedUrl),
      ((m.map Prod.fst).Nodup ∧
        (∀ item ∈ pre, ∃ e ∈ m, e.1 = normalizeUrl item.url) ∧
        (∀ e ∈ m, e.2.canonicalUrl = e.1 ∧
          ∃ item, pre.find? (fun it => normalizeUrl it.url == e.1) = some item ∧
            dedupOrigin item e.2)) →
      (((l.foldl dedupInsert m).map Prod.fst).Nodup ∧
        (∀ item ∈ pre ++ l, ∃ e ∈ l.foldl dedupInsert m,
          e.1 = normalizeUrl item.url) ∧
        (∀ e ∈ l.foldl dedupInsert m, e.2.canonicalUrl = e.1 ∧
          ∃ item, (pre ++ l).find? (fun it => normalizeUrl it.url == e.1)
              = some item ∧
            dedupOrigin item e.2)) := by
  intro l
  induction l with
  | nil =>
    intro m pre hinv
    simpa using hinv
  | cons x xs ih =>
    intro m pre hinv
    obtain ⟨hnd, hcov, horig⟩ := hinv
    have hstep : (pre ++ x :: xs) = (pre ++ [x]) ++ xs := by simp
    rw [hstep, List.foldl_cons]
    apply ih
    by_cases hmem : m.any (fun e => e.1 == normalizeUrl x.url)
    · have hins : dedupInsert m x = m := by
        unfold dedupInsert
        simp only []
        rw [if_pos hmem]
      rw [hins]
      refine ⟨hnd, ?_, ?_⟩
      · intro item hitem
        rcases List.mem_append.mp hitem with hitem | hitem
        · exact hcov item hitem
        · rcases List.mem_cons.mp hitem with rfl | h0
          · obtain ⟨e, he, hpe⟩ := List.any_eq_true.mp hmem
            exact ⟨e, he, beq_iff_eq.mp hpe⟩
          · cases h0
      · intro e he
        obtain ⟨hcan, item, hfind, hor⟩ := horig e he
        refine ⟨hcan, item, ?_, hor⟩
        rw [List.find?_append, hfind]
        rfl
    · have hins : dedupInsert m x = m ++ [(normalizeUrl x.url,
          { url := x.url, canonicalUrl := normalizeUrl x.url, title := x.title,
            fileType := x.fileType, discoverySource := x.discoverySource,
            sourceHub := x.sourceHub })] := by
        unfold dedupInsert
        simp only []
        rw [if_neg hmem]
      have hnotin : ∀ e ∈ m, e.1 ≠ normalizeUrl x.url := by
        intro e he heq
        exact hmem (List.any_eq_true.mpr ⟨e, he, beq_iff_eq.mpr heq⟩)
      have hfind_pre : pre.find? (fun it => normalizeUrl it.url
          == normalizeUrl x.url) = none := by
        rw [List.find?_eq_none]
        intro it hit hbeq
        obtain ⟨e, he, hpe⟩ := hcov it hit
        exact hnotin e he (hpe.trans (beq_iff_eq.mp hbeq))
      rw [hins]
      refine ⟨?_, ?_, ?_⟩
      · rw [List.map_append]
        rw [List.nodup_append]
        refine ⟨hnd, by simp, ?_⟩
        intro a ha hb
        simp at hb
        obtain ⟨e, he, hpe⟩ := List.mem_map.mp ha
        exact hnotin e he (hb ▸ hpe)
      · intro item hitem
        rcases List.mem_append.mp hitem with hitem | hitem
        · obtain ⟨e, he, hpe⟩ := hcov item hitem
          exact ⟨e, List.mem_append.mpr (Or.inl he), hpe⟩
        · rcases List.mem_cons.mp hitem with rfl | h0
          · refine ⟨_, List.mem_append.mpr (Or.inr (List.mem_cons_self _ _)), rfl⟩
          · cases h0
      · intro e he
        rcases List.mem_append.mp he with he | he
        · obtain ⟨hcan, item, hfind, hor⟩ := horig e he
          refine ⟨hcan, item, ?_, hor⟩
          rw [List.find?_append, hfind]
          rfl
        · rcases List.mem_cons.mp he with rfl | h0
          · refine ⟨rfl, x, ?_, rfl, rfl, rfl, rfl, rfl, rfl⟩
            rw [List.find?_append, hfind_pre]
            simp only [Option.none_or]
            rw [List.find?_cons_of_pos _ (by simp)]
          · cases h0

/-- Claim C6: cross-source deduplication keeps the first item per
canonical URL — `deduplicateUrls` returns exactly one entry per distinct
normalized canonical URL occurring in the input, and each entry carries
the raw URL, title, file type, discovery source and source hub of the
first item of the merged sequence whose URL normalizes to that canonical
URL. -/
theorem deduplicateUrls_spec (l : List TaggedUrl) :
    ((deduplicateUrls l).map (fun d => d.canonicalUrl)).Nodup ∧
    (∀ item ∈ l, ∃ d ∈ deduplicateUrls l,
      d.canonicalUrl = normalizeUrl item.url) ∧
    (∀ d ∈ deduplicateUrls l, ∃ item,
      l.find? (fun it => normalizeUrl it.url == d.canonicalUrl) = some item ∧
      dedupOrigin item d) := by
  have h := dedup_fold_inv l [] []
    (by refine ⟨List.nodup_nil, ?_, ?_⟩ <;> intro a ha <;> cases ha)
  obtain ⟨hnd, hcov, horig⟩ := h
  unfold deduplicateUrls
  refine ⟨?_, ?_, ?_⟩
  · have hmapeq : (((l.foldl dedupInsert []).map (fun e => e.2)).map
        (fun d => d.canonicalUrl))
        = (l.foldl dedupInsert []).map Prod.fst := by
      rw [List.map_map]
      exact List.map_congr_left (fun e he => (horig e he).1)
    rw [hmapeq]
    exact hnd
  · intro item hitem
    obtain ⟨e, he, hpe⟩ := hcov item (by simpa using hitem)
    exact ⟨e.2, List.mem_map.mpr ⟨e, he, rfl⟩, (horig e he).1.trans hpe⟩
  · intro d hd
    obtain ⟨e, he, rfl⟩ := List.mem_map.mp hd
    obtain ⟨hcan, item, hfind, hor⟩ := horig e he
    refine ⟨item, ?_, hor⟩
    rw [hcan]
    simpa using hfind

/-- Witness for `deduplicateUrls_spec`: two items with the same canonical
URL from different sources plus a third distinct item — the claim instance
for the first item. -/
theorem deduplicateUrls_spec_witness :
    ∃ d ∈ deduplicateUrls
      [⟨"https://x.com/a/", "t1", "h1", "pdf", "hub-scrape"⟩,
       ⟨"https://X.com/a", "t2", "h2", "pdf", "sitemap-parse"⟩,
       ⟨"https://x.com/b", "t3", "h1", "html", "hub-scrape"⟩],
      d.canonicalUrl = normalizeUrl "https://x.com/a/" :=
  (deduplicateUrls_spec
      [⟨"https://x.com/a/", "t1", "h1", "pdf", "hub-scrape"⟩,
       ⟨"https://X.com/a", "t2", "h2", "pdf", "sitemap-parse"⟩,
       ⟨"https://x.com/b", "t3", "h1", "html", "hub-scrape"⟩]).2.1
    ⟨"https://x.com/a/", "t1", "h1", "pdf", "hub-scrape"⟩ (by decide)

/-! ### Store / persistence helper lemmas -/

theorem find?_map_pred {α : Type} {l : List α} {f : α → α} {p : α → Bool}
    (hf : ∀ a ∈ l, p (f a) = p a) :
    (l.map f).find? p = (l.find? p).map f := by
  induction l with
  | nil => rfl
  | cons a as ih =>
    have ha := hf a (List.mem_cons_self a as)
    by_cases hpa : p a = true
    · rw [List.map_cons, List.find?_cons_of_pos _ (by rw [ha]; exact hpa),
        List.find?_cons_of_pos _ hpa]
      rfl
    · rw [List.map_cons,
        List.find?_cons_of_neg _ (by rw [ha]; simpa using hpa),
        List.find?_cons_of_neg _ (by simpa using hpa),
        ih (fun b hb => hf b (List.mem_cons_of_mem a hb))]

theorem urlAliasUpsert_docs (st : Catalog) (a : String) (i : Nat)
    (s : String) (n : Nat) : (urlAliasUpsert st a i s n).docs = st.docs := by
  unfold urlAliasUpsert
  split <;> rfl

theorem urlAliasUpsert_runs (st : Catalog) (a : String) (i : Nat)
    (s : String) (n : Nat) : (urlAliasUpsert st a i s n).runs = st.runs := by
  unfold urlAliasUpsert
  split <;> rfl

theorem persistOne_runs (today : String) (now : Nat)
    (acc : Catalog × PersistCounts) (d : DeduplicatedDoc) :
    (persistOne today now acc d).1.runs = acc.1.runs := by
  unfold persistOne
  split
  · split
    · rw [urlAliasUpsert_runs]
      rfl
    · rfl
  · rfl

theorem updateLineage_append {l : List LineageEntry} {src sid today : String}
    (h : ∀ e ∈ l, ¬(e.source = src ∧ e.sourceId = sid)) :
    updateLineage l src sid today = l ++
      [{ source := src, sourceId := sid, firstSeen := today,
         lastSeen := today }] := by
  induction l with
  | nil => rfl
  | cons e rest ih =>
    rw [updateLineage, if_neg (h e (List.mem_cons_self e rest)),
      ih (fun f hf => h f (List.mem_cons_of_mem e hf)), List.cons_append]

theorem updateLineage_refresh {l1 l2 : List LineageEntry} {e : LineageEntry}
    {src sid today : String}
    (h1 : ∀ f ∈ l1, ¬(f.source = src ∧ f.sourceId = sid))
    (he1 : e.source = src) (he2 : e.sourceId = sid) :
    updateLineage (l1 ++ e :: l2) src sid today
      = l1 ++ { e with lastSeen := today } :: l2 := by
  induction l1 with
  | nil => rw [List.nil_append, updateLineage, if_pos ⟨he1, he2⟩, List.nil_append]
  | cons f rest ih =>
    rw [List.cons_append, updateLineage,
      if_neg (h1 f (List.mem_cons_self f rest)),
      ih (fun g hg => h1 g (List.mem_cons_of_mem f hg)), List.cons_append]

theorem updateLineage_mem_pair (l : List LineageEntry) (src sid today : String) :
    ∃ e ∈ updateLineage l src sid today,
      e.source = src ∧ e.sourceId = sid := by
  induction l with
  | nil => exact ⟨⟨src, sid, today, today⟩, by rw [updateLineage]; simp, rfl, rfl⟩
  | cons f rest ih =>
    by_cases hf : f.source = src ∧ f.sourceId = sid
    · refine ⟨{ f with lastSeen := today }, ?_, hf.1, hf.2⟩
      rw [updateLineage, if_pos hf]
      exact List.mem_cons_self _ _
    · obtain ⟨e, he, hp⟩ := ih
      refine ⟨e, ?_, hp⟩
      rw [updateLineage, if_neg hf]
      exact List.mem_cons_of_mem f he

theorem or_eq_none {α : Type} {x y : Option α} (h : x.or y = none) :
    x = none ∧ y = none := by
  cases x with
  | none => exact ⟨rfl, h⟩
  | some a => exact absurd h (by simp [Option.or])

theorem findBoth_none {st : Catalog} {c u : String}
    (h : findByCanonicalUrlOrSourceUrl st c u = none) :
    st.docs.find? (fun r => r.canonicalUrl == some c) = none ∧
    st.docs.find? (fun r => r.sourceUrl == u) = none := by
  unfold findByCanonicalUrlOrSourceUrl at h
  exact or_eq_none h

theorem map_patch_id {l : List EpsteinDoc} {i : Nat}
    {f : EpsteinDoc → EpsteinDoc} (h : ∀ r ∈ l, r.id ≠ i) :
    l.map (fun r => if r.id = i then f r else r) = l :=
  (List.map_congr_left (fun r hr => if_neg (h r hr))).trans (List.map_id l)

theorem persistOne_create {st : Catalog} {cnt : PersistCounts}
    {d : DeduplicatedDoc} {today : String} {now : Nat}
    (hfind : findByCanonicalUrlOrSourceUrl st d.canonicalUrl d.url = none) :
    persistOne today now (st, cnt) d =
      ({ st with
          docs := st.docs ++ [mkCreated st.nextId d today now],
          nextId := st.nextId + 1 },
       { cnt with
          newCount := cnt.newCount + 1 }) := by
  unfold persistOne
  simp only [hfind]
  rfl

theorem persistOne_update_docs {st : Catalog} {cnt : PersistCounts}
    {d : DeduplicatedDoc} {ex : EpsteinDoc} {today : String} {now : Nat}
    (hfind : findByCanonicalUrlOrSourceUrl st d.canonicalUrl d.url
      = some ex) :
    (persistOne today now (st, cnt) d).1.docs
      = st.docs.map (fun r => if r.id = ex.id then
          { r with
            canonicalUrl := some (jsOrStr ex.canonicalUrl d.canonicalUrl),
            discoveryLineage := some (updateLineage
              (ex.discoveryLineage.getD []) d.discoverySource
              d.sourceHub today) } else r) := by
  unfold persistOne
  simp only [hfind]
  split
  · rw [urlAliasUpsert_docs]
    rfl
  · rfl

theorem persistOne_update_newCount {st : Catalog} {cnt : PersistCounts}
    {d : DeduplicatedDoc} {ex : EpsteinDoc} {today : String} {now : Nat}
    (hfind : findByCanonicalUrlOrSourceUrl st d.canonicalUrl d.url
      = some ex) :
    (persistOne today now (st, cnt) d).2.newCount = cnt.newCount := by
  unfold persistOne
  simp only [hfind]
  split <;> rfl

/-- C7: lineage is append-or-refresh and one-record-many-entries.  (i) When
no lineage entry carries the discovered item's (source, sourceId) pair,
`persistDiscoveries`'s lineage update appends a fresh entry at the end,
removing nothing.  (ii) When an entry with the pair exists, only that
entry's `lastSeen` is rewritten; every other entry, and the entry's own
`source`, `sourceId` and `firstSeen`, are kept in place.  (iii) Two
discovered items with the same canonical URL from two different
(source, sourceId) pairs persisted into a catalog with no prior match
yield a single record carrying both lineage entries — one new record
total. -/
theorem lineage_append_or_refresh :
    (∀ (l : List LineageEntry) (src sid today : String),
      (∀ e ∈ l, ¬(e.source = src ∧ e.sourceId = sid)) →
      updateLineage l src sid today = l ++
        [{ source := src, sourceId := sid, firstSeen := today,
           lastSeen := today }]) ∧
    (∀ (l1 l2 : List LineageEntry) (e : LineageEntry)
      (src sid today : String),
      (∀ f ∈ l1, ¬(f.source = src ∧ f.sourceId = sid)) →
      e.source = src → e.sourceId = sid →
      updateLineage (l1 ++ e :: l2) src sid today
        = l1 ++ { e with lastSeen := today } :: l2) ∧
    (∀ (st : Catalog) (d1 d2 : DeduplicatedDoc) (today : String) (now : Nat),
      findByCanonicalUrlOrSourceUrl st d1.canonicalUrl d1.url = none →
      d2.canonicalUrl = d1.canonicalUrl →
      d1.canonicalUrl ≠ "" →
      ¬(d2.discoverySource = d1.discoverySource ∧
        d2.sourceHub = d1.sourceHub) →
      (∀ r ∈ st.docs, r.id < st.nextId) →
      ∃ r, findBySourceUrl (persistDiscoveries today now [d1, d2] st).1 d1.url
          = some r ∧
        r.discoveryLineage = some
          [⟨d1.discoverySource, d1.sourceHub, today, today⟩,
           ⟨d2.discoverySource, d2.sourceHub, today, today⟩] ∧
        (persistDiscoveries today now [d1, d2] st).1.docs.length
          = st.docs.length + 1) := by
  refine ⟨fun l src sid today h => updateLineage_append h,
    fun l1 l2 e src sid today h1 he1 he2 => updateLineage_refresh h1 he1 he2,
    fun st d1 d2 today now hfind hc2 hne hpair hbound => ?_⟩
  have hq := findBoth_none hfind
  have hD1c : (mkCreated st.nextId d1 today now).canonicalUrl
      = some d1.canonicalUrl := by
    show jsStrOpt (some d1.canonicalUrl) = some d1.canonicalUrl
    show (if d1.canonicalUrl = "" then none else some d1.canonicalUrl)
      = some d1.canonicalUrl
    rw [if_neg hne]
  have hfind2 : findByCanonicalUrlOrSourceUrl
      { st with
          docs := st.docs ++ [mkCreated st.nextId d1 today now],
          nextId := st.nextId + 1 } d2.canonicalUrl d2.url
      = some (mkCreated st.nextId d1 today now) := by
    unfold findByCanonicalUrlOrSourceUrl
    have hone : List.find? (fun r => r.canonicalUrl == some d1.canonicalUrl)
        [mkCreated st.nextId d1 today now]
        = some (mkCreated st.nextId d1 today now) :=
      List.find?_cons_of_pos _ (by rw [hD1c]; exact beq_self_eq_true _)
    show ((st.docs ++ [mkCreated st.nextId d1 today now]).find?
        (fun r => r.canonicalUrl == some d2.canonicalUrl)).or _ = _
    rw [List.find?_append, hc2, hq.1, hone]
    rfl
  have hlin : updateLineage
      ((mkCreated st.nextId d1 today now).discoveryLineage.getD [])
      d2.discoverySource d2.sourceHub today
      = [⟨d1.discoverySource, d1.sourceHub, today, today⟩,
         ⟨d2.discoverySource, d2.sourceHub, today, today⟩] := by
    have hgd : (mkCreated st.nextId d1 today now).discoveryLineage.getD []
        = [⟨d1.discoverySource, d1.sourceHub, today, today⟩] := rfl
    rw [hgd, updateLineage, if_neg]
    · rfl
    · intro hcon
      exact hpair ⟨hcon.1.symm, hcon.2.symm⟩
  have hdocs : ∀ cnt : PersistCounts,
      (persistOne today now
        ({ st with
            docs := st.docs ++ [mkCreated st.nextId d1 today now],
            nextId := st.nextId + 1 }, cnt) d2).1.docs
      = st.docs ++ [{ mkCreated st.nextId d1 today now with
          canonicalUrl := some (jsOrStr
            (mkCreated st.nextId d1 today now).canonicalUrl d2.canonicalUrl),
          discoveryLineage := some (updateLineage
            ((mkCreated st.nextId d1 today now).discoveryLineage.getD [])
            d2.discoverySource d2.sourceHub today) }] := by
    intro cnt
    rw [persistOne_update_docs hfind2]
    show (st.docs ++ [mkCreated st.nextId d1 today now]).map _ = _
    rw [List.map_append,
      map_patch_id (fun r hr =>
        show r.id ≠ (mkCreated st.nextId d1 today now).id from
          Nat.ne_of_lt (hbound r hr)),
      List.map_cons, List.map_nil,
      if_pos (rfl : (mkCreated st.nextId d1 today now).id
        = (mkCreated st.nextId d1 today now).id)]
  unfold persistDiscoveries
  rw [List.foldl_cons, persistOne_create hfind, List.foldl_cons,
    List.foldl_nil]
  refine ⟨{ mkCreated st.nextId d1 today now with
      canonicalUrl := some (jsOrStr
        (mkCreated st.nextId d1 today now).canonicalUrl d2.canonicalUrl),
      discoveryLineage := some (updateLineage
        ((mkCreated st.nextId d1 today now).discoveryLineage.getD [])
        d2.discoverySource d2.sourceHub today) }, ?_, ?_, ?_⟩
  · unfold findBySourceUrl
    rw [hdocs, List.find?_append, hq.2]
    have hone : List.find? (fun r => r.sourceUrl == d1.url)
        [{ mkCreated st.nextId d1 today now with
            canonicalUrl := some (jsOrStr
              (mkCreated st.nextId d1 today now).canonicalUrl
              d2.canonicalUrl),
            discoveryLineage := some (updateLineage
              ((mkCreated st.nextId d1 today now).discoveryLineage.getD [])
              d2.discoverySource d2.sourceHub today) }]
        = some { mkCreated st.nextId d1 today now with
            canonicalUrl := some (jsOrStr
              (mkCreated st.nextId d1 today now).canonicalUrl
              d2.canonicalUrl),
            discoveryLineage := some (updateLineage
              ((mkCreated st.nextId d1 today now).discoveryLineage.getD [])
              d2.discoverySource d2.sourceHub today) } :=
      List.find?_cons_of_pos _ (beq_self_eq_true _)
    rw [hone]
    rfl
  · show some (updateLineage
        ((mkCreated st.nextId d1 today now).discoveryLineage.getD [])
        d2.discoverySource d2.sourceHub today) = _
    rw [hlin]
  · rw [hdocs, List.length_append, List.length_cons, List.length_nil]

/-- Witness for `lineage_append_or_refresh`: a concrete append, a concrete
refresh, and the concrete two-source scenario on an empty catalog. -/
theorem lineage_append_or_refresh_witness :
    (updateLineage [⟨"a", "b", "x", "x"⟩] "s" "h" "d"
      = [⟨"a", "b", "x", "x"⟩, ⟨"s", "h", "d", "d"⟩]) ∧
    (updateLineage [⟨"a", "b", "x", "x"⟩, ⟨"s", "h", "x", "y"⟩] "s" "h" "d"
      = [⟨"a", "b", "x", "x"⟩, ⟨"s", "h", "x", "d"⟩]) ∧
    (∃ r, findBySourceUrl (persistDiscoveries "d" 5
        [⟨"u", "c", "t", "pdf", "s1", "h1"⟩,
         ⟨"u2", "c", "t2", "pdf", "s2", "h2"⟩] ⟨[], [], [], 0⟩).1 "u"
        = some r ∧
      r.discoveryLineage = some
        [⟨"s1", "h1", "d", "d"⟩, ⟨"s2", "h2", "d", "d"⟩] ∧
      (persistDiscoveries "d" 5
        [⟨"u", "c", "t", "pdf", "s1", "h1"⟩,
         ⟨"u2", "c", "t2", "pdf", "s2", "h2"⟩]
        ⟨[], [], [], 0⟩).1.docs.length = 0 + 1) :=
  ⟨lineage_append_or_refresh.1 [⟨"a", "b", "x", "x"⟩] "s" "h" "d"
      (by decide),
   lineage_append_or_refresh.2.1 [⟨"a", "b", "x", "x"⟩] []
      ⟨"s", "h", "x", "y"⟩ "s" "h" "d" (by decide) rfl rfl,
   lineage_append_or_refresh.2.2 ⟨[], [], [], 0⟩
      ⟨"u", "c", "t", "pdf", "s1", "h1"⟩
      ⟨"u2", "c", "t2", "pdf", "s2", "h2"⟩ "d" 5 rfl rfl (by decide)
      (by decide) (fun r hr => absurd hr (List.not_mem_nil r))⟩

theorem urlAliasUpsert_nextId_le (st : Catalog) (a : String) (i : Nat)
    (s : String) (n : Nat) : st.nextId ≤ (urlAliasUpsert st a i s n).nextId := by
  unfold urlAliasUpsert
  split
  · exact Nat.le_refl _
  · exact Nat.le_succ _

theorem persistOne_nextId_le (today : String) (now : Nat)
    (acc : Catalog × PersistCounts) (d : DeduplicatedDoc) :
    acc.1.nextId ≤ (persistOne today now acc d).1.nextId := by
  obtain ⟨stc, cnt⟩ := acc
  rcases hf : findByCanonicalUrlOrSourceUrl stc d.canonicalUrl d.url
    with _ | ex
  · rw [persistOne_create hf]
    exact Nat.le_succ _
  · unfold persistOne
    simp only [hf]
    split
    · exact urlAliasUpsert_nextId_le (updateDocById stc ex.id fun r =>
        { r with
            canonicalUrl := some (jsOrStr ex.canonicalUrl d.canonicalUrl),
            discoveryLineage := some (updateLineage
              (ex.discoveryLineage.getD []) d.discoverySource
              d.sourceHub today) }) d.url ex.id d.discoverySource now
    · exact Nat.le_refl _

theorem persist_created_inv (today : String) (now : Nat)
    (ds : List DeduplicatedDoc) (N : Nat)
    (hft : ∀ d ∈ ds, d.fileType = "pdf" ∨ d.fileType = "html" ∨
      d.fileType = "unknown") :
    ∀ (l : List DeduplicatedDoc) (acc : Catalog × PersistCounts),
      (∀ d ∈ l, d ∈ ds) →
      N ≤ acc.1.nextId →
      (∀ r ∈ acc.1.docs, N ≤ r.id → CreatedGood ds r) →
      N ≤ (l.foldl (persistOne today now) acc).1.nextId ∧
      ∀ r ∈ (l.foldl (persistOne today now) acc).1.docs, N ≤ r.id →
        CreatedGood ds r := by
  intro l
  induction l with
  | nil => exact fun acc _ hN hG => ⟨hN, hG⟩
  | cons d rest ih =>
    intro acc hsub hN hG
    obtain ⟨stc, cnt⟩ := acc
    rw [List.foldl_cons]
    have hds : d ∈ ds := hsub d (List.mem_cons_self d rest)
    have hsub' : ∀ e ∈ rest, e ∈ ds :=
      fun e he => hsub e (List.mem_cons_of_mem d he)
    have hNle : N ≤ (persistOne today now (stc, cnt) d).1.nextId :=
      Nat.le_trans hN (persistOne_nextId_le today now (stc, cnt) d)
    refine ih (persistOne today now (stc, cnt) d) hsub' hNle ?_
    rcases hf : findByCanonicalUrlOrSourceUrl stc d.canonicalUrl d.url
      with _ | ex
    · rw [persistOne_create hf]
      intro r hr hNr
      rcases List.mem_append.mp hr with hr | hr
      · exact hG r hr hNr
      · rcases List.mem_cons.mp hr with rfl | h0
        · refine ⟨d, hds, rfl, ?_, ?_, ?_⟩
          · show jsOrStr (some (if d.fileType = "unknown" then "pdf"
                else d.fileType)) "pdf"
              = (if d.fileType = "unknown" then "pdf" else d.fileType)
            rcases hft d hds with h | h | h <;> rw [h] <;> rfl
          · show jsOrStr (some (if d.fileType = "unknown" then "pdf"
                else d.fileType)) "pdf" = "pdf" ∨
              jsOrStr (some (if d.fileType = "unknown" then "pdf"
                else d.fileType)) "pdf" = "html"
            rcases hft d hds with h | h | h <;> rw [h]
            · exact Or.inl rfl
            · exact Or.inr rfl
            · exact Or.inl rfl
          · show jsStrOpt (some (if d.fileType = "pdf" then
                (if strIncludes d.url "EFTA" then "EFTA Disclosure"
                 else "Court Document") else "Web Page"))
              = some (if d.fileType = "pdf" then
                (if strIncludes d.url "EFTA" then "EFTA Disclosure"
                 else "Court Document") else "Web Page")
            by_cases hp : d.fileType = "pdf"
            · rw [if_pos hp]
              by_cases he : strIncludes d.url "EFTA" = true
              · rw [if_pos he]
                rfl
              · rw [if_neg he]
                rfl
            · rw [if_neg hp]
              rfl
        · cases h0
    · intro r hr hNr
      rw [persistOne_update_docs hf] at hr
      obtain ⟨r0, hr0, rfl⟩ := List.mem_map.mp hr
      by_cases hid : r0.id = ex.id
      · rw [if_pos hid] at hNr ⊢
        obtain ⟨e, he, h1, h2, h3, h4⟩ := hG r0 hr0 hNr
        exact ⟨e, he, h1, h2, h3, h4⟩
      · rw [if_neg hid] at hNr ⊢
        exact hG r0 hr0 hNr

/-- C10: every document record the discovery orchestrator creates has file
type `pdf` or `html` — a discovered `unknown` file type is stored as `pdf`
— and its document type is `EFTA Disclosure` for PDFs whose URL contains
`EFTA`, `Court Document` for other PDFs, and `Web Page` otherwise.  Records
created by the run are exactly those whose id is at least the starting
id counter. -/
theorem created_records_typed (today : String) (now : Nat)
    (ds : List DeduplicatedDoc) (st : Catalog)
    (hft : ∀ d ∈ ds, d.fileType = "pdf" ∨ d.fileType = "html" ∨
      d.fileType = "unknown")
    (hbound : ∀ r ∈ st.docs, r.id < st.nextId) :
    ∀ r ∈ (persistDiscoveries today now ds st).1.docs,
      st.nextId ≤ r.id → CreatedGood ds r :=
  (persist_created_inv today now ds st.nextId hft ds
    (st, { newCount := 0, updatedCount := 0, aliasCount := 0 })
    (fun _ hd => hd) (Nat.le_refl _)
    (fun r hr hN => absurd hN (Nat.not_le.mpr (hbound r hr)))).2

/-- Witness for `created_records_typed`: on an empty catalog, the record
created for an `unknown`-typed EFTA URL is classified `pdf` /
`EFTA Disclosure`. -/
theorem created_records_typed_witness :
    CreatedGood [⟨"https://x.com/EFTA1.pdf", "c1", "t", "unknown", "s", "h"⟩]
      (mkCreated 0 ⟨"https://x.com/EFTA1.pdf", "c1", "t", "unknown", "s", "h"⟩
        "d" 5) :=
  created_records_typed "d" 5
    [⟨"https://x.com/EFTA1.pdf", "c1", "t", "unknown", "s", "h"⟩]
    ⟨[], [], [], 0⟩ (by decide)
    (fun r hr => absurd hr (List.not_mem_nil r))
    (mkCreated 0 ⟨"https://x.com/EFTA1.pdf", "c1", "t", "unknown", "s", "h"⟩
      "d" 5) (by decide) (by decide)

/-- C8: byte-hash skip is a frame property.  When the full fetch succeeds,
the hash of the fetched bytes equals the stored `byteHash`, and the record
is already `indexed`, the whole pipeline run rewrites only `status` (kept
`indexed`), `lastFetchedAt`, `httpEtag` and `httpLastModified` of that
record; `rawText`, `textHash`, `byteHash`, `pageCount`, `lengthChars`,
`extractionQuality` and `title` are untouched, and no other part of the
catalog changes.  The conclusion holds for every `pdfExtract` /
`htmlExtract`, so no extraction is consulted. -/
theorem hash_skip_frame (env : ExtractEnv) (url title : String)
    (st : Catalog) (ex : EpsteinDoc) (buffer contentType : String)
    (etag lastModified : Option String)
    (hfind : findBySourceUrl st url = some ex)
    (hfetch : env.fetch url ex.httpEtag ex.httpLastModified
      = .success buffer contentType etag lastModified)
    (hhash : ex.byteHash = some (env.hashB buffer))
    (hstatus : ex.status = "indexed") :
    processEpsteinDocument env url title st
      = { st with
          docs := st.docs.map (fun r => if r.id = ex.id then
            { r with
                status := "indexed", lastFetchedAt := some env.now,
                httpEtag := etag.or ex.httpEtag,
                httpLastModified := lastModified.or ex.httpLastModified }
            else r) } := by
  unfold processEpsteinDocument
  simp only [hfind, Option.some_bind, hfetch]
  have hskip : ((ex.byteHash == some (env.hashB buffer))
      && (ex.status == "indexed")) = true := by
    rw [hhash, hstatus]
    simp
  rw [if_pos hskip]
  show updateDocById (updateDocById st ex.id _) ex.id _ = _
  unfold updateDocById
  have hmaps : ((st.docs.map (fun r => if r.id = ex.id then
        { r with status := "processing" } else r)).map
          (fun r => if r.id = ex.id then
            { r with
                status := "indexed", lastFetchedAt := some env.now,
                httpEtag := etag.or ex.httpEtag,
                httpLastModified := lastModified.or ex.httpLastModified }
            else r))
      = st.docs.map (fun r => if r.id = ex.id then
          { r with
              status := "indexed", lastFetchedAt := some env.now,
              httpEtag := etag.or ex.httpEtag,
              httpLastModified := lastModified.or ex.httpLastModified }
          else r) := by
    rw [List.map_map]
    exact List.map_congr_left (fun r _ => by
      by_cases hid : r.id = ex.id <;> simp [Function.comp, hid])
  simp only []
  rw [hmaps]

/-- Witness for `hash_skip_frame`: a one-record catalog whose stored hash
matches the refetched bytes on an `indexed` record. -/
theorem hash_skip_frame_witness :
    processEpsteinDocument
      ⟨fun _ _ _ => .success "B" "ct" (some "E2") none, fun _ => "H",
       fun s => s, fun _ => none, fun s => (s, ""), 7⟩ "u" "t"
      ⟨[⟨1, "t", "u", some "c", "pdf", none, none, none, none, none, none,
         some "H", some "E1", some "L1", none, none, false, none,
         "indexed", 3⟩], [], [], 2⟩
      = { (⟨[⟨1, "t", "u", some "c", "pdf", none, none, none, none, none,
            none, some "H", some "E1", some "L1", none, none, false, none,
            "indexed", 3⟩], [], [], 2⟩ : Catalog) with
          docs := [⟨1, "t", "u", some "c", "pdf", none, none, none, none,
            none, none, some "H", some "E1", some "L1", none, none, false,
            none, "indexed", 3⟩].map (fun r => if r.id = 1 then
            { r with
                status := "indexed", lastFetchedAt := some 7,
                httpEtag := (some "E2").or (some "E1"),
                httpLastModified := (none : Option String).or (some "L1") }
            else r) } :=
  hash_skip_frame
    ⟨fun _ _ _ => .success "B" "ct" (some "E2") none, fun _ => "H",
     fun s => s, fun _ => none, fun s => (s, ""), 7⟩ "u" "t"
    ⟨[⟨1, "t", "u", some "c", "pdf", none, none, none, none, none, none,
       some "H", some "E1", some "L1", none, none, false, none,
       "indexed", 3⟩], [], [], 2⟩
    ⟨1, "t", "u", some "c", "pdf", none, none, none, none, none, none,
     some "H", some "E1", some "L1", none, none, false, none, "indexed", 3⟩
    "B" "ct" (some "E2") none rfl rfl rfl rfl

theorem createDoc_snd (st : Catalog) (t u : String) (c f dt s : Option String)
    (l : Option (List LineageEntry)) (n : Nat) :
    (createDoc st t u c f dt s l n).2
      = { st with
          docs := st.docs ++ [(createDoc st t u c f dt s l n).1],
          nextId := st.nextId + 1 } := rfl

theorem findBySourceUrl_updateDocById (st : Catalog) (i : Nat)
    (f : EpsteinDoc → EpsteinDoc) (hf : ∀ r, (f r).sourceUrl = r.sourceUrl)
    (url : String) :
    findBySourceUrl (updateDocById st i f) url
      = (findBySourceUrl st url).map (fun r => if r.id = i then f r else r) := by
  unfold findBySourceUrl updateDocById
  exact find?_map_pred (fun a _ => by by_cases h : a.id = i <;> simp [h, hf])

theorem updateDocById_length (st : Catalog) (i : Nat)
    (f : EpsteinDoc → EpsteinDoc) :
    (updateDocById st i f).docs.length = st.docs.length :=
  List.length_map _ _

theorem findBySourceUrl_createDoc (st : Catalog) (t u : String)
    (c f dt s : Option String) (l : Option (List LineageEntry)) (n : Nat)
    (hnone : findBySourceUrl st u = none) :
    findBySourceUrl (createDoc st t u c f dt s l n).2 u
      = some (createDoc st t u c f dt s l n).1 := by
  unfold findBySourceUrl at hnone ⊢
  rw [createDoc_snd]
  show (st.docs ++ [(createDoc st t u c f dt s l n).1]).find?
      (fun d => d.sourceUrl == u) = some (createDoc st t u c f dt s l n).1
  rw [List.find?_append, hnone]
  show List.find? (fun d => d.sourceUrl == u)
      [(createDoc st t u c f dt s l n).1]
    = some (createDoc st t u c f dt s l n).1
  exact List.find?_cons_of_pos _ (beq_self_eq_true _)

theorem processFold_counts (env : ExtractEnv) :
    ∀ (l : List EpsteinDoc) (a b : Nat) (st : Catalog),
      (l.foldl (fun acc doc =>
        ((acc.1.1 + 1, acc.1.2),
         processEpsteinDocument env doc.sourceUrl doc.title acc.2))
        ((a, b), st)).1 = (a + l.length, b) := by
  intro l
  induction l with
  | nil => intro a b st; simp
  | cons d rest ih =>
    intro a b st
    rw [List.foldl_cons, ih (a + 1) b]
    rw [List.length_cons]
    congr 1
    omega

theorem exists_error_after_update {st : Catalog} {i : Nat}
    {f : EpsteinDoc → EpsteinDoc} {url : String} {ex : EpsteinDoc}
    (hfind : findBySourceUrl st url = some ex)
    (hsrc : ∀ r, (f r).sourceUrl = r.sourceUrl)
    (hi : ex.id = i)
    (hstat : (f ex).status = "error") :
    ∃ r, findBySourceUrl (updateDocById st i f) url = some r ∧
      r.status = "error" := by
  refine ⟨f ex, ?_, hstat⟩
  rw [findBySourceUrl_updateDocById st i f hsrc url, hfind]
  show some (if ex.id = i then f ex else ex) = some (f ex)
  rw [if_pos hi]

/-- C9: per-item failures never escape the pipeline.  (i) A failing fetch
(rate limit, HTTP error, network error) leaves the record upserted with
status `error` — created when the URL was never seen (one new record),
patched in place when it was (record count unchanged).  (ii) A PDF parse
failure on a successfully fetched PDF likewise ends with the record stored
with status `error`.  (iii) `processAllPending` therefore counts every
scanned document as processed and reports zero errors: with the catalog
store total, nothing increments the `errors` counter. -/
theorem error_containment :
    (∀ (env : ExtractEnv) (url title : String) (st : Catalog),
      env.fetch url ((findBySourceUrl st url).bind (fun e => e.httpEtag))
        ((findBySourceUrl st url).bind (fun e => e.httpLastModified))
        = .failure →
      (∃ r, findBySourceUrl (processEpsteinDocument env url title st) url
          = some r ∧ r.status = "error") ∧
      (findBySourceUrl st url = none →
        (processEpsteinDocument env url title st).docs.length
          = st.docs.length + 1) ∧
      (∀ ex, findBySourceUrl st url = some ex →
        (processEpsteinDocument env url title st).docs.length
          = st.docs.length)) ∧
    (∀ (env : ExtractEnv) (url title : String) (st : Catalog)
      (ex : EpsteinDoc) (buffer contentType : String)
      (etag lastModified : Option String),
      findBySourceUrl st url = some ex →
      env.fetch url ex.httpEtag ex.httpLastModified
        = .success buffer contentType etag lastModified →
      ex.status ≠ "indexed" →
      strIncludes contentType "pdf" = true →
      env.pdfExtract buffer = none →
      ∃ r, findBySourceUrl (processEpsteinDocument env url title st) url
          = some r ∧ r.status = "error") ∧
    (∀ (env : ExtractEnv) (maxDocuments : Nat) (st : Catalog),
      (processAllPending env maxDocuments st).1.2 = 0 ∧
      (processAllPending env maxDocuments st).1.1
        = min maxDocuments ((st.docs.filter (fun d =>
            d.status == "pending" || d.status == "needs_ocr")).length)) := by
  refine ⟨?_, ?_, ?_⟩
  · intro env url title st hfetch
    rcases hfind : findBySourceUrl st url with _ | ex
    · rw [hfind] at hfetch
      simp only [Option.none_bind] at hfetch
      unfold processEpsteinDocument
      simp only [hfind, Option.none_bind, hfetch]
      have hC := findBySourceUrl_createDoc st title url
        (some (normalizeUrl url)) (some "pdf") none (some "processing")
        none env.now hfind
      simp only [hC]
      refine ⟨exists_error_after_update hC (fun _ => rfl) rfl rfl,
        fun _ => ?_, fun ex' hex' => ?_⟩
      · rw [updateDocById_length, createDoc_snd]
        show (st.docs ++ [(createDoc st title url (some (normalizeUrl url))
            (some "pdf") none (some "processing") none env.now).1]).length
          = st.docs.length + 1
        rw [List.length_append, List.length_cons, List.length_nil]
      · cases hex'
    · rw [hfind] at hfetch
      simp only [Option.some_bind] at hfetch
      unfold processEpsteinDocument
      simp only [hfind, Option.some_bind, hfetch]
      have hres : findBySourceUrl (updateDocById st ex.id
          (fun r => { r with status := "processing" })) url
          = some ({ ex with status := "processing" } : EpsteinDoc) := by
        rw [findBySourceUrl_updateDocById st ex.id
          (fun r => { r with status := "processing" }) (fun _ => rfl) url,
          hfind]
        show some (if ex.id = ex.id then
            ({ ex with status := "processing" } : EpsteinDoc) else ex) = _
        rw [if_pos rfl]
      simp only [hres]
      refine ⟨exists_error_after_update hres (fun _ => rfl) rfl rfl,
        fun h0 => ?_, fun ex' hex' => ?_⟩
      · cases h0
      · rw [updateDocById_length, updateDocById_length]
  · intro env url title st ex buffer contentType etag lastModified hfind
      hfetch hnidx hpdf hparse
    unfold processEpsteinDocument
    simp only [hfind, Option.some_bind, hfetch]
    have hskipf : ¬(((ex.byteHash == some (env.hashB buffer))
        && (ex.status == "indexed")) = true) := by
      rw [beq_eq_false_iff_ne.mpr hnidx, Bool.and_false]
      exact Bool.false_ne_true
    rw [if_neg hskipf]
    simp only [hpdf, Bool.true_or, if_true, hparse, Option.getD_none]
    have hres : findBySourceUrl (updateDocById st ex.id
        (fun r => { r with status := "processing" })) url
        = some ({ ex with status := "processing" } : EpsteinDoc) := by
      rw [findBySourceUrl_updateDocById st ex.id
        (fun r => { r with status := "processing" }) (fun _ => rfl) url,
        hfind]
      show some (if ex.id = ex.id then
          ({ ex with status := "processing" } : EpsteinDoc) else ex) = _
      rw [if_pos rfl]
    simp only [hres]
    exact exists_error_after_update hres (fun _ => rfl) rfl rfl
  · intro env maxDocuments st
    unfold processAllPending
    rw [processFold_counts env]
    refine ⟨rfl, ?_⟩
    show 0 + (((st.docs.filter (fun d =>
        d.status == "pending" || d.status == "needs_ocr")).insertionSort
        (fun a b => a.createdAt ≤ b.createdAt)).take maxDocuments).length = _
    rw [Nat.zero_add, List.length_take,
      (List.perm_insertionSort (fun a b => a.createdAt ≤ b.createdAt)
        (st.docs.filter (fun d =>
          d.status == "pending" || d.status == "needs_ocr"))).length_eq]

/-- Witness for `error_containment`: a failing fetch on an empty catalog, a
PDF-parse failure on a pending record, and a one-pending-record batch. -/
theorem error_containment_witness :
    (∃ r, findBySourceUrl (processEpsteinDocument
        ⟨fun _ _ _ => .failure, fun _ => "H", fun s => s, fun _ => none,
         fun s => (s, ""), 7⟩ "u" "t" ⟨[], [], [], 0⟩) "u"
        = some r ∧ r.status = "error") ∧
    (∃ r, findBySourceUrl (processEpsteinDocument
        ⟨fun _ _ _ => .success "B" "application/pdf" none none,
         fun _ => "H", fun s => s, fun _ => none, fun s => (s, ""), 7⟩
        "u" "t"
        ⟨[⟨1, "t", "u", some "c", "pdf", none, none, none, none, none,
           none, none, none, none, none, none, false, none, "pending", 3⟩],
         [], [], 2⟩) "u" = some r ∧ r.status = "error") ∧
    ((processAllPending ⟨fun _ _ _ => .failure, fun _ => "H", fun s => s,
        fun _ => none, fun s => (s, ""), 7⟩ 10
        ⟨[⟨1, "t", "u", some "c", "pdf", none, none, none, none, none,
           none, none, none, none, none, none, false, none, "pending", 3⟩],
         [], [], 2⟩).1.2 = 0 ∧
     (processAllPending ⟨fun _ _ _ => .failure, fun _ => "H", fun s => s,
        fun _ => none, fun s => (s, ""), 7⟩ 10
        ⟨[⟨1, "t", "u", some "c", "pdf", none, none, none, none, none,
           none, none, none, none, none, none, false, none, "pending", 3⟩],
         [], [], 2⟩).1.1 = 1) :=
  ⟨(error_containment.1
      ⟨fun _ _ _ => .failure, fun _ => "H", fun s => s, fun _ => none,
       fun s => (s, ""), 7⟩ "u" "t" ⟨[], [], [], 0⟩ rfl).1,
   error_containment.2.1
      ⟨fun _ _ _ => .success "B" "application/pdf" none none,
       fun _ => "H", fun s => s, fun _ => none, fun s => (s, ""), 7⟩
      "u" "t"
      ⟨[⟨1, "t", "u", some "c", "pdf", none, none, none, none, none,
         none, none, none, none, none, none, false, none, "pending", 3⟩],
       [], [], 2⟩
      ⟨1, "t", "u", some "c", "pdf", none, none, none, none, none,
       none, none, none, none, none, none, false, none, "pending", 3⟩
      "B" "application/pdf" none none rfl rfl (by decide) (by decide) rfl,
   error_containment.2.2
      ⟨fun _ _ _ => .failure, fun _ => "H", fun s => s, fun _ => none,
       fun s => (s, ""), 7⟩ 10
      ⟨[⟨1, "t", "u", some "c", "pdf", none, none, none, none, none,
         none, none, none, none, none, none, false, none, "pending", 3⟩],
       [], [], 2⟩⟩

/-! ### Refresh-relation lemmas for the idempotence proof -/

theorem entryRefresh_refl (e : LineageEntry) : entryRefresh e e :=
  ⟨rfl, rfl, rfl⟩

theorem entryRefresh_trans {a b c : LineageEntry}
    (h1 : entryRefresh a b) (h2 : entryRefresh b c) : entryRefresh a c :=
  ⟨h2.1.trans h1.1, h2.2.1.trans h1.2.1, h2.2.2.trans h1.2.2⟩

theorem forall2_entryRefresh_refl (l : List LineageEntry) :
    List.Forall₂ entryRefresh l l :=
  List.forall₂_same.mpr (fun e _ => entryRefresh_refl e)

theorem forall2_entryRefresh_trans :
    ∀ {l m k : List LineageEntry}, List.Forall₂ entryRefresh l m →
      List.Forall₂ entryRefresh m k → List.Forall₂ entryRefresh l k := by
  intro l m k h1 h2
  induction h1 generalizing k with
  | nil =>
    cases h2
    exact List.Forall₂.nil
  | cons hab htl ih =>
    cases h2 with
    | cons hbc htl2 =>
      exact List.Forall₂.cons (entryRefresh_trans hab hbc) (ih htl2)

theorem linRefresh_refl (o : Option (List LineageEntry)) : linRefresh o o := by
  cases o with
  | none => exact trivial
  | some l => exact forall2_entryRefresh_refl l

theorem docRefresh_refl (a : EpsteinDoc) : docRefresh a a :=
  ⟨rfl, rfl, rfl, rfl, rfl, rfl, rfl, rfl, rfl, rfl, rfl, rfl, rfl, rfl,
   rfl, rfl, rfl, rfl, rfl, linRefresh_refl a.discoveryLineage⟩

theorem forall2_docRefresh_refl (l : List EpsteinDoc) :
    List.Forall₂ docRefresh l l :=
  List.forall₂_same.mpr (fun a _ => docRefresh_refl a)

theorem forall2_imp_mem {α β : Type} {R S : α → β → Prop} :
    ∀ {l : List α} {m : List β}, List.Forall₂ R l m →
      (∀ a ∈ l, ∀ b, R a b → S a b) → List.Forall₂ S l m := by
  intro l m h hi
  induction h with
  | nil => exact List.Forall₂.nil
  | cons hab htl ih =>
    refine List.Forall₂.cons
      (hi _ (List.mem_cons_self _ _) _ hab)
      (ih (fun a ha b hr => hi a (List.mem_cons_of_mem _ ha) b hr))

theorem find?_forall2_none {α β : Type} {R : α → β → Prop} {p : α → Bool}
    {q : β → Bool} (hq : ∀ a b, R a b → q b = p a) :
    ∀ {l : List α} {m : List β}, List.Forall₂ R l m →
      l.find? p = none → m.find? q = none := by
  intro l m h
  induction h with
  | nil => intro _; rfl
  | cons hab htl ih =>
    rename_i x y xs ys
    intro hn
    have hall := List.find?_eq_none.mp hn
    rw [List.find?_cons_of_neg]
    · exact ih (List.find?_eq_none.mpr
        (fun z hz => hall z (List.mem_cons_of_mem _ hz)))
    · rw [hq _ _ hab]
      exact hall x (List.mem_cons_self _ _)

theorem find?_forall2_some {α β : Type} {R : α → β → Prop} {p : α → Bool}
    {q : β → Bool} (hq : ∀ a b, R a b → q b = p a) :
    ∀ {l : List α} {m : List β}, List.Forall₂ R l m →
      ∀ {a : α}, l.find? p = some a → ∃ b, m.find? q = some b ∧ R a b := by
  intro l m h
  induction h with
  | nil => intro a hf; cases hf
  | cons hab htl ih =>
    rename_i x y xs ys
    intro a hf
    by_cases hpx : p x = true
    · rw [List.find?_cons_of_pos _ hpx] at hf
      cases hf
      refine ⟨y, ?_, hab⟩
      rw [List.find?_cons_of_pos]
      rw [hq _ _ hab]
      exact hpx
    · rw [List.find?_cons_of_neg _ hpx] at hf
      obtain ⟨b, hb, hr⟩ := ih hf
      refine ⟨b, ?_, hr⟩
      rw [List.find?_cons_of_neg, hb]
      rw [hq _ _ hab]
      exact hpx

theorem updateLineage_preserves_entry {s0 i0 : String} :
    ∀ {l : List LineageEntry} {src sid today : String},
      (∃ f ∈ l, f.source = s0 ∧ f.sourceId = i0) →
      ∃ f ∈ updateLineage l src sid today, f.source = s0 ∧ f.sourceId = i0 := by
  intro l
  induction l with
  | nil =>
    intro src sid today h
    obtain ⟨f, hf, _⟩ := h
    cases hf
  | cons e rest ih =>
    intro src sid today h
    obtain ⟨f, hf, hp⟩ := h
    by_cases he : e.source = src ∧ e.sourceId = sid
    · rcases List.mem_cons.mp hf with rfl | hf0
      · refine ⟨{ f with lastSeen := today }, ?_, hp.1, hp.2⟩
        rw [updateLineage, if_pos he]
        exact List.mem_cons_self _ _
      · refine ⟨f, ?_, hp⟩
        rw [updateLineage, if_pos he]
        exact List.mem_cons_of_mem _ hf0
    · rcases List.mem_cons.mp hf with rfl | hf0
      · refine ⟨f, ?_, hp⟩
        rw [updateLineage, if_neg he]
        exact List.mem_cons_self _ _
      · obtain ⟨g, hg, hgp⟩ := ih ⟨f, hf0, hp⟩
        refine ⟨g, ?_, hgp⟩
        rw [updateLineage, if_neg he]
        exact List.mem_cons_of_mem _ hg

theorem updateLineage_refresh_rel :
    ∀ {l : List LineageEntry} {src sid today : String},
      (∃ e ∈ l, e.source = src ∧ e.sourceId = sid) →
      List.Forall₂ entryRefresh l (updateLineage l src sid today) := by
  intro l
  induction l with
  | nil =>
    intro src sid today h
    obtain ⟨f, hf, _⟩ := h
    cases hf
  | cons e rest ih =>
    intro src sid today h
    by_cases he : e.source = src ∧ e.sourceId = sid
    · rw [updateLineage, if_pos he]
      exact List.Forall₂.cons ⟨rfl, rfl, rfl⟩ (forall2_entryRefresh_refl rest)
    · rw [updateLineage, if_neg he]
      obtain ⟨f, hf, hp⟩ := h
      rcases List.mem_cons.mp hf with rfl | hf0
      · exact absurd hp he
      · exact List.Forall₂.cons (entryRefresh_refl e) (ih ⟨f, hf0, hp⟩)

theorem find?_map_flip {α : Type} {f : α → α} {p : α → Bool} {x : α} :
    ∀ {l : List α}, x ∈ l → l.find? p = none → p (f x) = true →
      (∀ a ∈ l, a ≠ x → f a = a) →
      (l.map f).find? p = some (f x) := by
  intro l
  induction l with
  | nil => intro hx; cases hx
  | cons a as ih =>
    intro hx hn hfx hother
    have hall := List.find?_eq_none.mp hn
    by_cases hax : a = x
    · subst hax
      rw [List.map_cons, List.find?_cons_of_pos _ hfx]
    · have hxas : x ∈ as := by
        rcases List.mem_cons.mp hx with h0 | h0
        · exact absurd h0.symm hax
        · exact h0
      rw [List.map_cons, hother a (List.mem_cons_self _ _) hax,
        List.find?_cons_of_neg _ (hall a (List.mem_cons_self _ _)),
        ih hxas
          (List.find?_eq_none.mpr
            (fun z hz => hall z (List.mem_cons_of_mem _ hz))) hfx
          (fun b hb => hother b (List.mem_cons_of_mem _ hb))]

theorem createRun_docs (st : Catalog) (s : String) :
    (createRun st s).2.docs = st.docs := rfl

theorem updateRun_docs (st : Catalog) (i a b c d : Nat) :
    (updateRun st i a b c d).docs = st.docs := rfl

theorem findFor_docs_eq {st st' : Catalog} (h : st.docs = st'.docs)
    (c u : String) :
    findByCanonicalUrlOrSourceUrl st c u
      = findByCanonicalUrlOrSourceUrl st' c u := by
  unfold findByCanonicalUrlOrSourceUrl
  rw [h]

theorem dedup_basic (l : List TaggedUrl) :
    ((deduplicateUrls l).map DeduplicatedDoc.canonicalUrl).Nodup ∧
    ∀ d ∈ deduplicateUrls l, d.canonicalUrl = normalizeUrl d.url ∧
      ∃ item ∈ l, d.url = item.url := by
  have h := dedup_fold_inv l [] []
    ⟨List.nodup_nil, fun item hitem => absurd hitem (List.not_mem_nil item),
     fun e he => absurd he (List.not_mem_nil e)⟩
  unfold deduplicateUrls
  constructor
  · have hmm : ((l.foldl dedupInsert []).map (fun e => e.2)).map
        DeduplicatedDoc.canonicalUrl
        = (l.foldl dedupInsert []).map Prod.fst := by
      rw [List.map_map]
      exact List.map_congr_left (fun e he => (h.2.2 e he).1)
    rw [hmm]
    exact h.1
  · intro dd hdd
    obtain ⟨e, he, rfl⟩ := List.mem_map.mp hdd
    obtain ⟨hcan, item, hfind, hor⟩ := h.2.2 e he
    refine ⟨?_, item, ?_, hor.1⟩
    · rw [hor.2.1, hor.1]
    · have := List.mem_of_find?_eq_some hfind
      simpa using this

theorem beq_some_str_false {x y : String} (h : x ≠ y) :
    ((some x : Option String) == some y) = false := by
  rw [beq_eq_false_iff_ne]
  exact fun hcon => h (Option.some.inj hcon)

theorem beq_str_false {x y : String} (h : x ≠ y) : (x == y) = false :=
  beq_eq_false_iff_ne.mpr h

theorem option_or_map {α β : Type} (x y : Option α) (f : α → β) :
    (x.map f).or (y.map f) = (x.or y).map f := by
  cases x <;> rfl

theorem option_or_none {α : Type} (x : Option α) : x.or none = x := by
  cases x <;> rfl

theorem ids_inj {st : Catalog} (hids : IdsOk st) {a b : EpsteinDoc}
    (ha : a ∈ st.docs) (hb : b ∈ st.docs) (hab : a.id = b.id) : a = b :=
  List.inj_on_of_nodup_map hids.1 ha hb hab

theorem findFor_mem {st : Catalog} {c u : String} {r : EpsteinDoc}
    (h : findByCanonicalUrlOrSourceUrl st c u = some r) : r ∈ st.docs := by
  unfold findByCanonicalUrlOrSourceUrl at h
  rcases hcq : st.docs.find? (fun x => x.canonicalUrl == some c) with _ | r0
  · rw [hcq] at h
    exact List.mem_of_find?_eq_some h
  · rw [hcq] at h
    cases h
    exact List.mem_of_find?_eq_some hcq

theorem forall2_entry_transport {s i : String} :
    ∀ {L M : List LineageEntry}, List.Forall₂ entryRefresh L M →
      (∃ e ∈ L, e.source = s ∧ e.sourceId = i) →
      ∃ e ∈ M, e.source = s ∧ e.sourceId = i := by
  intro L M h he
  induction h with
  | nil =>
    obtain ⟨e, he0, _⟩ := he
    cases he0
  | cons hab htl ih =>
    obtain ⟨e, he0, hp⟩ := he
    rcases List.mem_cons.mp he0 with rfl | he1
    · exact ⟨_, List.mem_cons_self _ _, hab.1.trans hp.1, hab.2.1.trans hp.2⟩
    · obtain ⟨f, hf, hfp⟩ := ih ⟨e, he1, hp⟩
      exact ⟨f, List.mem_cons_of_mem _ hf, hfp⟩

theorem persistOne_update_docs2 {st : Catalog} {cnt : PersistCounts}
    {d : DeduplicatedDoc} {ex : EpsteinDoc} {today : String} {now : Nat}
    (hfind : findByCanonicalUrlOrSourceUrl st d.canonicalUrl d.url
      = some ex) :
    (persistOne today now (st, cnt) d).1.docs
      = st.docs.map (updPatch ex d today) :=
  persistOne_update_docs hfind

theorem updPatch_id (ex : EpsteinDoc) (d : DeduplicatedDoc) (t : String)
    (r : EpsteinDoc) : (updPatch ex d t r).id = r.id := by
  unfold updPatch
  by_cases h : r.id = ex.id <;> simp [h]

theorem updPatch_sourceUrl (ex : EpsteinDoc) (d : DeduplicatedDoc)
    (t : String) (r : EpsteinDoc) :
    (updPatch ex d t r).sourceUrl = r.sourceUrl := by
  unfold updPatch
  by_cases h : r.id = ex.id <;> simp [h]

theorem updPatch_of_ne {ex : EpsteinDoc} {d : DeduplicatedDoc} {t : String}
    {r : EpsteinDoc} (h : r.id ≠ ex.id) : updPatch ex d t r = r :=
  if_neg h

theorem updPatch_of_eq {ex : EpsteinDoc} {d : DeduplicatedDoc} {t : String}
    {r : EpsteinDoc} (h : r.id = ex.id) :
    updPatch ex d t r = { r with
        canonicalUrl := some (jsOrStr ex.canonicalUrl d.canonicalUrl),
        discoveryLineage := some (updateLineage
          (ex.discoveryLineage.getD []) d.discoverySource
          d.sourceHub t) } :=
  if_pos h

theorem persistOne_step_ready
    {today : String} {now : Nat} {st : Catalog} {cnt : PersistCounts}
    {d : DeduplicatedDoc} {S : List DeduplicatedDoc}
    (hd : d.canonicalUrl = normalizeUrl d.url ∧ d.canonicalUrl ≠ "")
    (hS : ∀ e ∈ S, e.canonicalUrl = normalizeUrl e.url ∧ e.canonicalUrl ≠ "")
    (hdist : ∀ e ∈ S, e.canonicalUrl ≠ d.canonicalUrl)
    (hids : IdsOk st)
    (hready : RunReady st S) :
    IdsOk (persistOne today now (st, cnt) d).1 ∧
    RunReady (persistOne today now (st, cnt) d).1 (S ++ [d]) := by
  rcases hf : findByCanonicalUrlOrSourceUrl st d.canonicalUrl d.url
    with _ | ex
  · -- no match: a fresh record is created
    have hq := findBoth_none hf
    rw [persistOne_create hf]
    have hCid : (mkCreated st.nextId d today now).id = st.nextId := rfl
    have hCc : (mkCreated st.nextId d today now).canonicalUrl
        = some d.canonicalUrl := by
      show jsStrOpt (some d.canonicalUrl) = some d.canonicalUrl
      show (if d.canonicalUrl = "" then none else some d.canonicalUrl) = _
      rw [if_neg hd.2]
    constructor
    · constructor
      · show ((st.docs ++ [mkCreated st.nextId d today now]).map
          EpsteinDoc.id).Nodup
        rw [List.map_append]
        refine List.nodup_append.mpr ⟨hids.1, List.nodup_singleton _, ?_⟩
        intro a ha hb
        obtain ⟨r, hr, rfl⟩ := List.mem_map.mp ha
        have hblt := hids.2 r hr
        rcases List.mem_singleton.mp (by simpa using hb) with h0
        rw [hCid] at h0
        exact absurd h0 (Nat.ne_of_lt hblt)
      · intro r hr
        rcases List.mem_append.mp hr with hr | hr
        · exact Nat.lt_trans (hids.2 r hr) (Nat.lt_succ_self _)
        · rcases List.mem_singleton.mp hr with rfl
          rw [hCid]
          exact Nat.lt_succ_self _
    · intro e he
      rcases List.mem_append.mp he with heS | heD
      · obtain ⟨r, hrf, hrg, hre⟩ := hready e heS
        refine ⟨r, ?_, hrg, hre⟩
        unfold findByCanonicalUrlOrSourceUrl at hrf ⊢
        show (((st.docs ++ [mkCreated st.nextId d today now]).find?
            (fun x => x.canonicalUrl == some e.canonicalUrl)).or
          ((st.docs ++ [mkCreated st.nextId d today now]).find?
            (fun x => x.sourceUrl == e.url))) = some r
        have hne1 : d.canonicalUrl ≠ e.canonicalUrl :=
          fun h0 => hdist e heS h0.symm
        have hne2 : d.url ≠ e.url := by
          intro h0
          exact hne1 (by rw [hd.1, (hS e heS).1, h0])
        have h1 : List.find? (fun x => x.canonicalUrl == some e.canonicalUrl)
            [mkCreated st.nextId d today now] = none := by
          rw [List.find?_cons_of_neg, List.find?_nil]
          rw [hCc]
          rw [beq_some_str_false hne1]
          exact Bool.false_ne_true
        have h2 : List.find? (fun x => x.sourceUrl == e.url)
            [mkCreated st.nextId d today now] = none := by
          rw [List.find?_cons_of_neg, List.find?_nil]
          show ¬(d.url == e.url) = true
          rw [beq_str_false hne2]
          exact Bool.false_ne_true
        rw [List.find?_append, List.find?_append, h1, h2,
          option_or_none, option_or_none]
        exact hrf
      · have hed := (List.mem_singleton.mp heD).symm
        subst hed
        refine ⟨mkCreated st.nextId d today now, ?_, ?_, ?_⟩
        · unfold findByCanonicalUrlOrSourceUrl
          have h1 : List.find?
              (fun x => x.canonicalUrl == some d.canonicalUrl)
              [mkCreated st.nextId d today now]
              = some (mkCreated st.nextId d today now) := by
            rw [List.find?_cons_of_pos]
            rw [hCc]
            exact beq_self_eq_true _
          show (((st.docs ++ [mkCreated st.nextId d today now]).find?
              (fun x => x.canonicalUrl == some d.canonicalUrl)).or _)
            = some (mkCreated st.nextId d today now)
          rw [List.find?_append, hq.1, h1]
          rfl
        · exact ⟨d.canonicalUrl, hCc, hd.2⟩
        · exact ⟨⟨d.discoverySource, d.sourceHub, today, today⟩,
            List.mem_singleton_self _, rfl, rfl⟩
  · -- match: the record is patched in place
    have hmem : ex ∈ st.docs := findFor_mem hf
    have hother : ∀ a ∈ st.docs, a ≠ ex → updPatch ex d today a = a :=
      fun a ha hne =>
        updPatch_of_ne (fun hid => hne (ids_inj hids ha hmem hid))
    have hInvS : ∀ (u : String), ∀ a ∈ st.docs,
        ((updPatch ex d today a).sourceUrl == u) = (a.sourceUrl == u) :=
      fun u a _ => by rw [updPatch_sourceUrl]
    constructor
    · constructor
      · show ((persistOne today now (st, cnt) d).1.docs.map
          EpsteinDoc.id).Nodup
        rw [persistOne_update_docs2 hf, List.map_map]
        have hcomp : st.docs.map (EpsteinDoc.id ∘ updPatch ex d today)
            = st.docs.map EpsteinDoc.id :=
          List.map_congr_left (fun a _ => updPatch_id ex d today a)
        rw [hcomp]
        exact hids.1
      · intro r hr
        rw [persistOne_update_docs2 hf] at hr
        obtain ⟨r0, hr0, rfl⟩ := List.mem_map.mp hr
        rw [updPatch_id]
        exact Nat.lt_of_lt_of_le (hids.2 r0 hr0)
          (persistOne_nextId_le today now (st, cnt) d)
    · intro e he
      rcases List.mem_append.mp he with heS | heD
      · obtain ⟨r, hrf, hrg, hre⟩ := hready e heS
        have hrmem : r ∈ st.docs := findFor_mem hrf
        have hInvC : ∀ a ∈ st.docs,
            ((updPatch ex d today a).canonicalUrl == some e.canonicalUrl)
            = (a.canonicalUrl == some e.canonicalUrl) := by
          intro a ha
          by_cases hid : a.id = ex.id
          · have hae : a = ex := ids_inj hids ha hmem hid
            subst hae
            rw [updPatch_of_eq hid]
            show (some (jsOrStr a.canonicalUrl d.canonicalUrl)
              == some e.canonicalUrl) = (a.canonicalUrl == some e.canonicalUrl)
            have hne1 : d.canonicalUrl ≠ e.canonicalUrl :=
              fun h0 => hdist e heS h0.symm
            rcases hc : a.canonicalUrl with _ | y
            · show (some (jsOrStr none d.canonicalUrl) == some e.canonicalUrl)
                = ((none : Option String) == some e.canonicalUrl)
              rw [show jsOrStr none d.canonicalUrl = d.canonicalUrl from rfl,
                beq_some_str_false hne1]
              rfl
            · by_cases hy : y = ""
              · subst hy
                rw [show jsOrStr (some "") d.canonicalUrl = d.canonicalUrl
                    from rfl,
                  beq_some_str_false hne1,
                  beq_some_str_false (Ne.symm (hS e heS).2)]
              · rw [show jsOrStr (some y) d.canonicalUrl = y from if_neg hy]
          · rw [updPatch_of_ne hid]
        refine ⟨updPatch ex d today r, ?_, ?_, ?_⟩
        · unfold findByCanonicalUrlOrSourceUrl at hrf ⊢
          rw [persistOne_update_docs2 hf, find?_map_pred hInvC,
            find?_map_pred (hInvS e.url), option_or_map, hrf]
          rfl
        · by_cases hid : r.id = ex.id
          · have hrex : r = ex := ids_inj hids hrmem hmem hid
            subst hrex
            obtain ⟨y, hy, hyne⟩ := hrg
            refine ⟨y, ?_, hyne⟩
            rw [updPatch_of_eq hid]
            show some (jsOrStr r.canonicalUrl d.canonicalUrl) = some y
            rw [hy]
            show some (if y = "" then d.canonicalUrl else y) = some y
            rw [if_neg hyne]
          · rw [updPatch_of_ne hid]
            exact hrg
        · by_cases hid : r.id = ex.id
          · have hrex : r = ex := ids_inj hids hrmem hmem hid
            subst hrex
            rw [updPatch_of_eq hid]
            exact updateLineage_preserves_entry hre
          · rw [updPatch_of_ne hid]
            exact hre
      · have hed := (List.mem_singleton.mp heD).symm
        subst hed
        have hfu := hf
        unfold findByCanonicalUrlOrSourceUrl at hfu
        have hentry : hasEntry (updPatch ex d today ex)
            d.discoverySource d.sourceHub := by
          rw [updPatch_of_eq rfl]
          exact updateLineage_mem_pair _ _ _ _
        rcases hcq : st.docs.find?
            (fun x => x.canonicalUrl == some d.canonicalUrl) with _ | r0
        · -- canonical query empty: the fallback found `ex`
          have hfb : st.docs.find? (fun x => x.sourceUrl == d.url)
              = some ex := by
            rw [hcq] at hfu
            exact hfu
          rcases hcanex : ex.canonicalUrl with _ | y
          · -- canonical was null: the patch backfills it
            have hflip : ((updPatch ex d today ex).canonicalUrl
                == some d.canonicalUrl) = true := by
              rw [updPatch_of_eq rfl]
              show (some (jsOrStr ex.canonicalUrl d.canonicalUrl)
                == some d.canonicalUrl) = true
              rw [hcanex]
              exact beq_self_eq_true _
            refine ⟨updPatch ex d today ex, ?_, ?_, hentry⟩
            · unfold findByCanonicalUrlOrSourceUrl
              rw [persistOne_update_docs2 hf,
                find?_map_flip hmem hcq hflip hother]
              rfl
            · refine ⟨d.canonicalUrl, ?_, hd.2⟩
              rw [updPatch_of_eq rfl]
              show some (jsOrStr ex.canonicalUrl d.canonicalUrl) = _
              rw [hcanex]
              rfl
          · by_cases hy : y = ""
            · subst hy
              have hflip : ((updPatch ex d today ex).canonicalUrl
                  == some d.canonicalUrl) = true := by
                rw [updPatch_of_eq rfl]
                show (some (jsOrStr ex.canonicalUrl d.canonicalUrl)
                  == some d.canonicalUrl) = true
                rw [hcanex]
                exact beq_self_eq_true _
              refine ⟨updPatch ex d today ex, ?_, ?_, hentry⟩
              · unfold findByCanonicalUrlOrSourceUrl
                rw [persistOne_update_docs2 hf,
                  find?_map_flip hmem hcq hflip hother]
                rfl
              · refine ⟨d.canonicalUrl, ?_, hd.2⟩
                rw [updPatch_of_eq rfl]
                show some (jsOrStr ex.canonicalUrl d.canonicalUrl) = _
                rw [hcanex]
                rfl
            · -- canonical was a different non-empty URL: kept as is
              have hInvCd : ∀ a ∈ st.docs,
                  ((updPatch ex d today a).canonicalUrl
                    == some d.canonicalUrl)
                  = (a.canonicalUrl == some d.canonicalUrl) := by
                intro a ha
                by_cases hid : a.id = ex.id
                · have hae : a = ex := ids_inj hids ha hmem hid
                  subst hae
                  rw [updPatch_of_eq hid]
                  show (some (jsOrStr a.canonicalUrl d.canonicalUrl)
                    == some d.canonicalUrl)
                    = (a.canonicalUrl == some d.canonicalUrl)
                  rw [hcanex]
                  rw [show jsOrStr (some y) d.canonicalUrl = y
                    from if_neg hy]
                · rw [updPatch_of_ne hid]
              refine ⟨updPatch ex d today ex, ?_, ?_, hentry⟩
              · unfold findByCanonicalUrlOrSourceUrl
                rw [persistOne_update_docs2 hf, find?_map_pred hInvCd,
                  find?_map_pred (hInvS d.url), hcq, hfb]
                rfl
              · refine ⟨y, ?_, hy⟩
                rw [updPatch_of_eq rfl]
                show some (jsOrStr ex.canonicalUrl d.canonicalUrl) = some y
                rw [hcanex]
                show some (if y = "" then d.canonicalUrl else y) = some y
                rw [if_neg hy]
        · -- canonical query hit: `ex` already carries this canonical URL
          have hr0ex : r0 = ex := by
            rw [hcq] at hfu
            exact Option.some.inj hfu
          subst hr0ex
          have hb0 := List.find?_some hcq
          have hcex : r0.canonicalUrl = some d.canonicalUrl :=
            beq_iff_eq.mp hb0
          have hInvCd : ∀ a ∈ st.docs,
              ((updPatch r0 d today a).canonicalUrl
                == some d.canonicalUrl)
              = (a.canonicalUrl == some d.canonicalUrl) := by
            intro a ha
            by_cases hid : a.id = r0.id
            · have hae : a = r0 := ids_inj hids ha hmem hid
              subst hae
              rw [updPatch_of_eq hid]
              show (some (jsOrStr a.canonicalUrl d.canonicalUrl)
                == some d.canonicalUrl)
                = (a.canonicalUrl == some d.canonicalUrl)
              rw [hcex]
              show (some (if d.canonicalUrl = "" then d.canonicalUrl
                  else d.canonicalUrl) == some d.canonicalUrl)
                = (some d.canonicalUrl == some d.canonicalUrl)
              rw [if_neg hd.2]
            · rw [updPatch_of_ne hid]
          refine ⟨updPatch r0 d today r0, ?_, ?_, hentry⟩
          · unfold findByCanonicalUrlOrSourceUrl
            rw [persistOne_update_docs2 hf, find?_map_pred hInvCd, hcq]
            rfl
          · refine ⟨d.canonicalUrl, ?_, hd.2⟩
            rw [updPatch_of_eq rfl]
            show some (jsOrStr r0.canonicalUrl d.canonicalUrl)
              = some d.canonicalUrl
            rw [hcex]
            show some (if d.canonicalUrl = "" then d.canonicalUrl
              else d.canonicalUrl) = some d.canonicalUrl
            rw [if_neg hd.2]

theorem persist_ready_fold {today : String} {now : Nat} :
    ∀ (l : List DeduplicatedDoc) (acc : Catalog × PersistCounts)
      (S : List DeduplicatedDoc),
      (∀ d ∈ l, d.canonicalUrl = normalizeUrl d.url ∧ d.canonicalUrl ≠ "") →
      (∀ e ∈ S, e.canonicalUrl = normalizeUrl e.url ∧ e.canonicalUrl ≠ "") →
      (∀ d ∈ l, ∀ e ∈ S, e.canonicalUrl ≠ d.canonicalUrl) →
      (l.map DeduplicatedDoc.canonicalUrl).Nodup →
      IdsOk acc.1 →
      RunReady acc.1 S →
      IdsOk (l.foldl (persistOne today now) acc).1 ∧
      RunReady (l.foldl (persistOne today now) acc).1 (S ++ l) := by
  intro l
  induction l with
  | nil =>
    intro acc S _ _ _ _ hids hready
    rw [List.foldl_nil, List.append_nil]
    exact ⟨hids, hready⟩
  | cons d rest ih =>
    intro acc S hl hSok hdist hnd hids hready
    obtain ⟨stc, cnt⟩ := acc
    rw [List.foldl_cons]
    have hstep := @persistOne_step_ready today now stc cnt d S
      (hl d (List.mem_cons_self d rest))
      hSok (fun e he => hdist d (List.mem_cons_self d rest) e he)
      hids hready
    have hres := ih (persistOne today now (stc, cnt) d) (S ++ [d])
      (fun e he => hl e (List.mem_cons_of_mem d he))
      (fun e he => by
        rcases List.mem_append.mp he with h0 | h0
        · exact hSok e h0
        · rcases List.mem_singleton.mp h0 with rfl
          exact hl e (List.mem_cons_self e rest))
      (fun e he f hf => by
        rcases List.mem_append.mp hf with h0 | h0
        · exact hdist e (List.mem_cons_of_mem d he) f h0
        · rcases List.mem_singleton.mp h0 with rfl
          intro hcon
          have hnd2 := List.nodup_cons.mp hnd
          exact hnd2.1 (hcon ▸ List.mem_map_of_mem
            DeduplicatedDoc.canonicalUrl he))
      (List.nodup_cons.mp hnd).2 hstep.1 hstep.2
    rw [List.append_assoc] at hres
    simpa using hres

theorem persistOne_step_refresh {today : String} {now : Nat}
    {base T : Catalog} {cnt : PersistCounts} {d : DeduplicatedDoc}
    (hids : IdsOk base)
    (hrel : List.Forall₂ docRefresh base.docs T.docs)
    (hready : ∃ r, findByCanonicalUrlOrSourceUrl base d.canonicalUrl d.url
        = some r ∧ goodCanonical r ∧
        hasEntry r d.discoverySource d.sourceHub) :
    List.Forall₂ docRefresh base.docs
      (persistOne today now (T, cnt) d).1.docs ∧
    (persistOne today now (T, cnt) d).2.newCount = cnt.newCount := by
  obtain ⟨r, hfr0, hrg, hre⟩ := hready
  have hrmem : r ∈ base.docs := findFor_mem hfr0
  have hfr := hfr0
  unfold findByCanonicalUrlOrSourceUrl at hfr
  have hcont : ∀ (b0 : EpsteinDoc),
      findByCanonicalUrlOrSourceUrl T d.canonicalUrl d.url = some b0 →
      docRefresh r b0 →
      List.Forall₂ docRefresh base.docs
        (persistOne today now (T, cnt) d).1.docs ∧
      (persistOne today now (T, cnt) d).2.newCount = cnt.newCount := by
    intro b0 hfT hrb
    refine ⟨?_, persistOne_update_newCount hfT⟩
    rw [persistOne_update_docs2 hfT, List.forall₂_map_right_iff]
    refine forall2_imp_mem hrel ?_
    intro a ha x hax
    show docRefresh a (updPatch b0 d today x)
    by_cases hid : x.id = b0.id
    · have haid : a.id = r.id := by
        rw [← hax.idEq, hid, hrb.idEq]
      have har : a = r := ids_inj hids ha hrmem haid
      subst har
      obtain ⟨y, hy, hyne⟩ := hrg
      have hb0c : b0.canonicalUrl = some y := by
        rw [hrb.canonicalUrlEq, hy]
      have hjs : jsOrStr b0.canonicalUrl d.canonicalUrl = y := by
        rw [hb0c]
        show (if y = "" then d.canonicalUrl else y) = y
        rw [if_neg hyne]
      rw [updPatch_of_eq hid]
      rcases hL : a.discoveryLineage with _ | L
      · obtain ⟨e0, he0, _⟩ := hre
        rw [hL] at he0
        cases he0
      · have hlin := hrb.linRel
        rw [hL] at hlin
        rcases hM : b0.discoveryLineage with _ | M
        · rw [hM] at hlin
          cases hlin
        · rw [hM] at hlin
          have hentryL : ∃ e ∈ L,
              e.source = d.discoverySource ∧ e.sourceId = d.sourceHub := by
            obtain ⟨e0, he0, hp⟩ := hre
            rw [hL] at he0
            exact ⟨e0, he0, hp⟩
          have hentryM := forall2_entry_transport hlin hentryL
          have hstep2 : List.Forall₂ entryRefresh M
              (updateLineage M d.discoverySource d.sourceHub today) :=
            updateLineage_refresh_rel hentryM
          refine ⟨hax.idEq, hax.titleEq, hax.sourceUrlEq, ?_,
            hax.fileTypeEq, hax.documentTypeEq, hax.contentTypeEq,
            hax.pageCountEq, hax.rawTextEq, hax.lengthCharsEq,
            hax.textHashEq, hax.byteHashEq, hax.httpEtagEq,
            hax.httpLastModifiedEq, hax.lastFetchedAtEq,
            hax.extractionQualityEq, hax.ocrRequiredEq, hax.statusEq,
            hax.createdAtEq, ?_⟩
          · show some (jsOrStr b0.canonicalUrl d.canonicalUrl)
              = a.canonicalUrl
            rw [hjs, hy]
          · rw [hL]
            exact forall2_entryRefresh_trans hlin hstep2
    · rw [updPatch_of_ne hid]
      exact hax
  rcases hcq : base.docs.find?
      (fun x => x.canonicalUrl == some d.canonicalUrl) with _ | r0
  · rw [hcq] at hfr
    have hfb : base.docs.find? (fun x => x.sourceUrl == d.url)
        = some r := hfr
    have hTq : T.docs.find?
        (fun x => x.canonicalUrl == some d.canonicalUrl) = none :=
      find?_forall2_none (fun a b hab => by
        show (b.canonicalUrl == some d.canonicalUrl)
          = (a.canonicalUrl == some d.canonicalUrl)
        rw [hab.canonicalUrlEq]) hrel hcq
    obtain ⟨b0, hb0, hrb⟩ := find?_forall2_some
      (fun a b hab => by
        show (b.sourceUrl == d.url) = (a.sourceUrl == d.url)
        rw [hab.sourceUrlEq]) hrel hfb
    refine hcont b0 ?_ hrb
    unfold findByCanonicalUrlOrSourceUrl
    rw [hTq, hb0]
    rfl
  · rw [hcq] at hfr
    have hr0 : r0 = r := Option.some.inj hfr
    subst hr0
    obtain ⟨b0, hb0, hrb⟩ := find?_forall2_some
      (fun a b hab => by
        show (b.canonicalUrl == some d.canonicalUrl)
          = (a.canonicalUrl == some d.canonicalUrl)
        rw [hab.canonicalUrlEq]) hrel hcq
    refine hcont b0 ?_ hrb
    unfold findByCanonicalUrlOrSourceUrl
    rw [hb0]
    rfl

theorem persist_refresh_fold {today : String} {now : Nat} {base : Catalog}
    (hids : IdsOk base) :
    ∀ (l : List DeduplicatedDoc) (T : Catalog) (cnt : PersistCounts),
      (∀ d ∈ l, ∃ r,
        findByCanonicalUrlOrSourceUrl base d.canonicalUrl d.url = some r ∧
        goodCanonical r ∧ hasEntry r d.discoverySource d.sourceHub) →
      List.Forall₂ docRefresh base.docs T.docs →
      List.Forall₂ docRefresh base.docs
        (l.foldl (persistOne today now) (T, cnt)).1.docs ∧
      (l.foldl (persistOne today now) (T, cnt)).2.newCount = cnt.newCount := by
  intro l
  induction l with
  | nil =>
    intro T cnt _ hrel
    exact ⟨hrel, rfl⟩
  | cons d rest ih =>
    intro T cnt hready hrel
    rw [List.foldl_cons]
    have hstep := @persistOne_step_refresh today now base T cnt d hids hrel
      (hready d (List.mem_cons_self d rest))
    have hres := ih (persistOne today now (T, cnt) d).1
      (persistOne today now (T, cnt) d).2
      (fun e he => hready e (List.mem_cons_of_mem d he)) hstep.1
    exact ⟨hres.1, hres.2.trans hstep.2⟩

theorem persist_runs_fold (today : String) (now : Nat) :
    ∀ (l : List DeduplicatedDoc) (acc : Catalog × PersistCounts),
      (l.foldl (persistOne today now) acc).1.runs = acc.1.runs := by
  intro l
  induction l with
  | nil => intro acc; rfl
  | cons d rest ih =>
    intro acc
    rw [List.foldl_cons]
    exact (ih _).trans (persistOne_runs today now acc d)

/-- C1: discovery is idempotent at the catalog level.  Starting from a
well-formed store (distinct ids below the id counter) and discoverer
outputs whose URLs do not normalize to the empty string, running
`runDiscovery` twice with identical discoverer outputs gives a second run
with `newDocuments = 0`, a recorded run row with `urlsNew = 0`, no change
in the number of document records, and record-wise changes limited to
`lastSeen` stamps inside `discoveryLineage` (every other field is rewritten
to its existing value). -/
theorem runDiscovery_idempotent (st0 : Catalog) (discovered : List TaggedUrl)
    (t1 t2 s1 s2 : String) (n1 n2 e1 e2 : Nat)
    (hids0 : (st0.docs.map EpsteinDoc.id).Nodup)
    (hbound0 : ∀ r ∈ st0.docs, r.id < st0.nextId)
    (hurls : ∀ t ∈ discovered, normalizeUrl t.url ≠ "") :
    (runDiscovery t2 n2 s2 discovered e2
        (runDiscovery t1 n1 s1 discovered e1 st0).2).1.newDocuments = 0 ∧
    (∃ rr ∈ (runDiscovery t2 n2 s2 discovered e2
        (runDiscovery t1 n1 s1 discovered e1 st0).2).2.runs,
      rr.id = (runDiscovery t2 n2 s2 discovered e2
        (runDiscovery t1 n1 s1 discovered e1 st0).2).1.runId ∧
      rr.urlsNew = 0 ∧ rr.completed = true) ∧
    (runDiscovery t2 n2 s2 discovered e2
        (runDiscovery t1 n1 s1 discovered e1 st0).2).2.docs.length
      = (runDiscovery t1 n1 s1 discovered e1 st0).2.docs.length ∧
    List.Forall₂ docRefresh
      (runDiscovery t1 n1 s1 discovered e1 st0).2.docs
      (runDiscovery t2 n2 s2 discovered e2
        (runDiscovery t1 n1 s1 discovered e1 st0).2).2.docs := by
  have hdb := dedup_basic discovered
  have hok : ∀ d ∈ deduplicateUrls discovered,
      d.canonicalUrl = normalizeUrl d.url ∧ d.canonicalUrl ≠ "" := by
    intro d hd
    obtain ⟨hcan, item, hitem, hu⟩ := hdb.2 d hd
    refine ⟨hcan, ?_⟩
    rw [hcan, hu]
    exact hurls item hitem
  -- run 1 establishes the ready state
  have hids1 : IdsOk (createRun st0 s1).2 :=
    ⟨hids0, fun r hr => Nat.lt_trans (hbound0 r hr) (Nat.lt_succ_self _)⟩
  have hfold1 := @persist_ready_fold t1 n1 (deduplicateUrls discovered)
    ((createRun st0 s1).2,
      ({ newCount := 0, updatedCount := 0, aliasCount := 0 }
        : PersistCounts)) [] hok
    (fun e he => absurd he (List.not_mem_nil e))
    (fun d _ e he => absurd he (List.not_mem_nil e))
    hdb.1 hids1 (fun d hd => absurd hd (List.not_mem_nil d))
  have hidsST1 : IdsOk (runDiscovery t1 n1 s1 discovered e1 st0).2 :=
    hfold1.1
  have hreadyST1 : RunReady (runDiscovery t1 n1 s1 discovered e1 st0).2
      (deduplicateUrls discovered) :=
    hfold1.2
  -- run 2 only refreshes
  have hrel0 : List.Forall₂ docRefresh
      (runDiscovery t1 n1 s1 discovered e1 st0).2.docs
      (createRun (runDiscovery t1 n1 s1 discovered e1 st0).2 s2).2.docs :=
    forall2_docRefresh_refl _
  have hfold2 := @persist_refresh_fold t2 n2
    (runDiscovery t1 n1 s1 discovered e1 st0).2 hidsST1
    (deduplicateUrls discovered)
    (createRun (runDiscovery t1 n1 s1 discovered e1 st0).2 s2).2
    ({ newCount := 0, updatedCount := 0, aliasCount := 0 } : PersistCounts)
    hreadyST1 hrel0
  refine ⟨hfold2.2, ?_, ?_, hfold2.1⟩
  · -- the recorded second run has urlsNew = 0
    have hruns : (persistDiscoveries t2 n2 (deduplicateUrls discovered)
        (createRun (runDiscovery t1 n1 s1 discovered e1 st0).2 s2).2).1.runs
        = (runDiscovery t1 n1 s1 discovered e1 st0).2.runs
          ++ [(createRun (runDiscovery t1 n1 s1 discovered e1 st0).2 s2).1] :=
      persist_runs_fold t2 n2 (deduplicateUrls discovered) _
    refine ⟨{ (createRun (runDiscovery t1 n1 s1 discovered e1 st0).2 s2).1
        with
        urlsFound := (deduplicateUrls discovered).length,
        urlsNew := (persistDiscoveries t2 n2 (deduplicateUrls discovered)
          (createRun (runDiscovery t1 n1 s1 discovered e1 st0).2
            s2).2).2.newCount,
        urlsChanged := (persistDiscoveries t2 n2 (deduplicateUrls discovered)
          (createRun (runDiscovery t1 n1 s1 discovered e1 st0).2
            s2).2).2.updatedCount,
        errors := e2, completed := true }, ?_, rfl, hfold2.2, rfl⟩
    show _ ∈ ((persistDiscoveries t2 n2 (deduplicateUrls discovered)
        (createRun (runDiscovery t1 n1 s1 discovered e1 st0).2 s2).2).1.runs
        ).map _
    rw [hruns, List.map_append]
    refine List.mem_append_right _ ?_
    rw [List.map_cons, List.map_nil,
      if_pos (rfl : (createRun (runDiscovery t1 n1 s1 discovered e1
        st0).2 s2).1.id = _)]
    exact List.mem_singleton_self _
  · exact (List.Forall₂.length_eq hfold2.1).symm

set_option maxRecDepth 100000 in
/-- Witness for `runDiscovery_idempotent`: one discovered PDF URL on an
empty catalog, discovered twice. -/
theorem runDiscovery_idempotent_witness :
    (runDiscovery "d2" 2 "all" [⟨"https://X.com/a.pdf", "t", "h1", "pdf", "hub-scrape"⟩] 0
        (runDiscovery "d1" 1 "all" [⟨"https://X.com/a.pdf", "t", "h1", "pdf", "hub-scrape"⟩] 0
          ⟨[], [], [], 0⟩).2).1.newDocuments = 0 ∧
    (∃ rr ∈ (runDiscovery "d2" 2 "all" [⟨"https://X.com/a.pdf", "t", "h1", "pdf", "hub-scrape"⟩] 0
        (runDiscovery "d1" 1 "all" [⟨"https://X.com/a.pdf", "t", "h1", "pdf", "hub-scrape"⟩] 0
          ⟨[], [], [], 0⟩).2).2.runs,
      rr.id = (runDiscovery "d2" 2 "all" [⟨"https://X.com/a.pdf", "t", "h1", "pdf", "hub-scrape"⟩] 0
        (runDiscovery "d1" 1 "all" [⟨"https://X.com/a.pdf", "t", "h1", "pdf", "hub-scrape"⟩] 0
          ⟨[], [], [], 0⟩).2).1.runId ∧
      rr.urlsNew = 0 ∧ rr.completed = true) ∧
    (runDiscovery "d2" 2 "all" [⟨"https://X.com/a.pdf", "t", "h1", "pdf", "hub-scrape"⟩] 0
        (runDiscovery "d1" 1 "all" [⟨"https://X.com/a.pdf", "t", "h1", "pdf", "hub-scrape"⟩] 0
          ⟨[], [], [], 0⟩).2).2.docs.length
      = (runDiscovery "d1" 1 "all" [⟨"https://X.com/a.pdf", "t", "h1", "pdf", "hub-scrape"⟩] 0
          ⟨[], [], [], 0⟩).2.docs.length ∧
    List.Forall₂ docRefresh
      (runDiscovery "d1" 1 "all" [⟨"https://X.com/a.pdf", "t", "h1", "pdf", "hub-scrape"⟩] 0 ⟨[], [], [], 0⟩).2.docs
      (runDiscovery "d2" 2 "all" [⟨"https://X.com/a.pdf", "t", "h1", "pdf", "hub-scrape"⟩] 0
        (runDiscovery "d1" 1 "all" [⟨"https://X.com/a.pdf", "t", "h1", "pdf", "hub-scrape"⟩] 0 ⟨[], [], [], 0⟩).2).2.docs :=
  runDiscovery_idempotent ⟨[], [], [], 0⟩ [⟨"https://X.com/a.pdf", "t", "h1", "pdf", "hub-scrape"⟩]
    "d1" "d2" "all" "all" 1 2 0 0 (by decide)
    (fun r hr => absurd hr (List.not_mem_nil r)) (by decide)

end BillLens
